import Mathlib

/-!
Binance feeder (marketstore `contrib/binancefeeder_v2`): ingestion and aggregation.

A shallow embedding of `feed/realtime.go` (bar stream and bar aggregator),
`symbols/manager.go` (symbol universe resolver), `writer/writer.go` (cadence mapping
and writes), `api/client.go` (bar decoding and rate limiter), `feed/backfill.go`
(windowed backfill of one symbol and the worker pool), `configs/config.go`
(configuration parsing and validation) and `uda/adjust/adjust.go` (backward
adjustment scan), with the properties of the design document stated and proved over
it.

Modelling conventions.
* Go slices are Lean lists; a `nil` slice and an empty slice are both `[]`.
* `float64` values are exact rationals (`ℚ`): rounding, infinities and NaN are
  outside the model.
* `int64` values are integers; arithmetic on them wraps through `wrapInt64`.
* Times are integer nanoseconds on one time line; `time.Duration` is an `int64`.
* Loops that need not end take fuel and answer `none` when it runs out.
* Go's `strings` and `strconv` packages and everything behind the network or the
  storage engine are parameters; the results hold for every behaviour of them.
* Locks are not modelled: every method body runs atomically, one call at a time.
-/

namespace MarketStore

/-! ## Data model (`api/client.go`) -/

/-- Two's complement wrap-around of an integer into the `int64` range. -/
def wrapInt64 (x : Int) : Int := (x + 2 ^ 63) % 2 ^ 64 - 2 ^ 63

/-- The bar record `api.KlineData`. -/
structure KlineData where
  OpenTime : Int
  Open : ℚ
  High : ℚ
  Low : ℚ
  Close : ℚ
  Volume : ℚ
  CloseTime : Int
  QuoteAssetVolume : ℚ
  NumberOfTrades : Int
  TakerBuyBase : ℚ
  TakerBuyQuote : ℚ
deriving DecidableEq

/-! ## Bar aggregator (`feed/realtime.go`) -/

/-- The per-(symbol, cadence) aggregator `feed.DataAggregator`; the writer it
points to is shared and is passed separately. -/
structure DataAggregator where
  symbol : String
  timeframe : String
  buffer : List KlineData
deriving DecidableEq

/-- One iteration of the `for _, kline := range klines` loop of `aggregateKlines`. -/
def aggregateStep (aggregated kline : KlineData) : KlineData :=
  let aggregated :=
    if kline.High > aggregated.High then { aggregated with High := kline.High } else aggregated
  let aggregated :=
    if kline.Low < aggregated.Low then { aggregated with Low := kline.Low } else aggregated
  { aggregated with
    Volume := aggregated.Volume + kline.Volume
    QuoteAssetVolume := aggregated.QuoteAssetVolume + kline.QuoteAssetVolume
    NumberOfTrades := wrapInt64 (aggregated.NumberOfTrades + kline.NumberOfTrades)
    TakerBuyBase := aggregated.TakerBuyBase + kline.TakerBuyBase
    TakerBuyQuote := aggregated.TakerBuyQuote + kline.TakerBuyQuote }

/-- The struct literal that `aggregateKlines` starts its loop from: the fields it
names are taken from the first and last bar, the others are Go zero values. -/
def aggregateInit (first last : KlineData) : KlineData :=
  { OpenTime := first.OpenTime
    Open := first.Open
    High := first.High
    Low := first.Low
    Close := last.Close
    Volume := first.Volume
    CloseTime := last.CloseTime
    QuoteAssetVolume := 0
    NumberOfTrades := 0
    TakerBuyBase := 0
    TakerBuyQuote := 0 }

/-- Embeds `DataAggregator.aggregateKlines`: reduce a buffer to at most one bar. The
method body never reads its receiver, so the embedding takes the buffer alone. -/
def aggregateKlines (klines : List KlineData) : List KlineData :=
  match klines with
  | [] => []
  | first :: rest =>
    [klines.foldl aggregateStep (aggregateInit first ((first :: rest).getLast (by simp)))]

/-! ## Writer (`writer/writer.go`) and the storage engine behind it -/

/-- The column series that `WriteKlines` and `WriteAggregatedData` hand to
`executor.WriteCSM`: the time bucket key and the six OHLCV columns. -/
structure CSMWrite where
  key : String
  Epoch : List Int
  Open : List ℚ
  High : List ℚ
  Low : List ℚ
  Close : List ℚ
  Volume : List ℚ
deriving DecidableEq

/-- The storage engine `executor.WriteCSM`, which lives outside the feeder: given
the writes attempted so far and the next one, it answers `none` on success and
`some msg` when the write fails. Every result below holds for every engine. -/
abbrev Executor := List CSMWrite → CSMWrite → Option String

/-- A batch handed to the writer, which is the feeder's Sink. -/
inductive SinkCall where
  | klines (symbol : String) (klines : List KlineData)
  | aggregated (symbol timeframe : String) (data : List KlineData)
deriving DecidableEq

/-- Everything the feeder does to the outside: the batches it forwarded to the
Sink, the writes that reached the storage engine, and the lines it logged with
`log.Error`, each in order of occurrence. -/
structure World where
  sink : List SinkCall
  writes : List CSMWrite
  errors : List String
deriving DecidableEq

/-- Embeds `writer.Writer`. -/
structure Writer where
  timeframe : String
  timezone : String
deriving DecidableEq

/-- Embeds `Writer.ConvertTimeframe`: exchange cadence code to marketstore label, the
argument itself when the code is not in the table. -/
def Writer.ConvertTimeframe (_w : Writer) (binanceInterval : String) : String :=
  match [("1m", "1Min"), ("3m", "3Min"), ("5m", "5Min"), ("15m", "15Min"), ("30m", "30Min"),
      ("1h", "1H"), ("2h", "2H"), ("4h", "4H"), ("6h", "6H"), ("8h", "8H"), ("12h", "12H"),
      ("1d", "1D"), ("3d", "3D"), ("1w", "1W"), ("1M", "1M")].lookup binanceInterval with
  | some timeframe => timeframe
  | none => binanceInterval

/-- Embeds `Writer.ValidateTimeframe`. -/
def Writer.ValidateTimeframe (_w : Writer) (timeframe : String) : Bool :=
  decide (timeframe ∈ ["1Min", "3Min", "5Min", "15Min", "30Min", "1H", "2H", "4H", "6H", "8H",
    "12H", "1D", "3D", "1W", "1M"])

/-- Embeds `Writer.WriteAggregatedData`: returns the error (`none` for `nil`) and the new
world. The call itself is recorded as a batch forwarded to the Sink. -/
def Writer.WriteAggregatedData (w : Writer) (exec : Executor) (symbol timeframe : String)
    (data : List KlineData) (σ : World) : Option String × World :=
  let σ := { σ with sink := σ.sink ++ [SinkCall.aggregated symbol timeframe data] }
  if data.length = 0 then (none, σ)
  else
    let tf := w.ConvertTimeframe timeframe
    if !w.ValidateTimeframe tf then
      (some ("invalid timeframe " ++ tf ++ " after conversion"), σ)
    else
      let csm : CSMWrite :=
        { key := symbol ++ "/" ++ tf ++ "/OHLCV"
          Epoch := data.map (fun kline => Int.tdiv kline.OpenTime 1000)
          Open := data.map (·.Open)
          High := data.map (·.High)
          Low := data.map (·.Low)
          Close := data.map (·.Close)
          Volume := data.map (·.Volume) }
      match exec σ.writes csm with
      | some err =>
        (some ("failed to write aggregated data for " ++ symbol ++ "/" ++ timeframe ++ ": " ++ err),
          { σ with writes := σ.writes ++ [csm] })
      | none => (none, { σ with writes := σ.writes ++ [csm] })

/-! ## Count-based flushing (`feed/realtime.go`) -/

/-- Embeds `DataAggregator.flush`: nothing on an empty buffer; otherwise reduce, forward
the result to the writer, log a failure, and clear the buffer. -/
def DataAggregator.flush (a : DataAggregator) (w : Writer) (exec : Executor) (σ : World) :
    DataAggregator × World :=
  if a.buffer.length = 0 then (a, σ)
  else
    let aggregated := aggregateKlines a.buffer
    let (err, σ) := w.WriteAggregatedData exec a.symbol a.timeframe aggregated σ
    let σ :=
      match err with
      | some e =>
        { σ with errors := σ.errors ++
            ["Failed to write aggregated data for " ++ a.symbol ++ "/" ++ a.timeframe ++ ": " ++ e] }
      | none => σ
    ({ a with buffer := [] }, σ)

/-- The fields of `configs.RealtimeConfig`. -/
structure RealtimeConfig where
  Enabled : Bool
  StreamType : String
  UpdateFreq : String
  BufferSize : Int
  MaxRetries : Int
  RetryDelay : String
deriving DecidableEq

/-- The part of `feed.Realtime` that the aggregation path reads and writes: the
configuration, the writer and the map from key to aggregator. -/
structure Realtime where
  config : RealtimeConfig
  writer : Writer
  aggregators : String → Option DataAggregator

/-- The map key `fmt.Sprintf("%s_%s", symbol, r.config.UpdateFreq)`. -/
def Realtime.key (r : Realtime) (symbol : String) : String :=
  symbol ++ "_" ++ r.config.UpdateFreq

/-- Embeds `Realtime.aggregateData`: find or create the aggregator of the key, append the
bar, and flush when the buffer has reached the configured size. -/
def Realtime.aggregateData (r : Realtime) (exec : Executor) (symbol : String) (kline : KlineData)
    (σ : World) : Realtime × World :=
  let key := r.key symbol
  let aggregator : DataAggregator :=
    match r.aggregators key with
    | some aggregator => aggregator
    | none => { symbol := symbol, timeframe := r.config.UpdateFreq, buffer := [] }
  let aggregator := { aggregator with buffer := aggregator.buffer ++ [kline] }
  let (aggregator, σ) :=
    if (aggregator.buffer.length : Int) ≥ r.config.BufferSize then aggregator.flush r.writer exec σ
    else (aggregator, σ)
  ({ r with aggregators := fun k => if k = key then some aggregator else r.aggregators k }, σ)

/-- Ingest a sequence of bars of one symbol, one `aggregateData` call per bar. -/
def Realtime.ingestAll (r : Realtime) (exec : Executor) (symbol : String) :
    List KlineData → World → Realtime × World
  | [], σ => (r, σ)
  | kline :: rest, σ =>
    let (r, σ) := r.aggregateData exec symbol kline σ
    r.ingestAll exec symbol rest σ

/-- The buffer currently held for a symbol, empty when no aggregator exists yet. -/
def Realtime.bufferOf (r : Realtime) (symbol : String) : List KlineData :=
  match r.aggregators (r.key symbol) with
  | some aggregator => aggregator.buffer
  | none => []

/-! ## Go's `strings` package, as far as the symbol manager uses it -/

/-- The two functions of Go's standard `strings` package that the symbol manager
calls. The package is not part of the repository: the manager is embedded over any
implementation of the two, and `goStrings` below is the implementation Go ships,
on the runes listed there. -/
structure Strings where
  ToUpper : String → String
  EqualFold : String → String → Bool

/-- Embeds `unicode.ToUpper` on ASCII and on U+0131 (dotless i, upper case `I`), U+017F
(long s, upper case `S`) and U+212A (Kelvin sign, already upper case). Runes
outside this fragment are returned unchanged. -/
def unicodeToUpper (r : Char) : Char :=
  if 'a' ≤ r ∧ r ≤ 'z' then Char.ofNat (r.toNat - 32)
  else if r = Char.ofNat 0x131 then 'I'
  else if r = Char.ofNat 0x17F then 'S'
  else r

/-- Embeds `unicode.SimpleFold` on the same fragment: the next rune of the case-folding
orbit. The orbits are `K → k → U+212A → K`, `S → s → U+017F → S`, the two-element
orbits of the other ASCII letters, and singletons otherwise (U+0131 folds to
itself). -/
def unicodeSimpleFold (r : Char) : Char :=
  if r = 'K' then 'k'
  else if r = 'k' then Char.ofNat 0x212A
  else if r = Char.ofNat 0x212A then 'K'
  else if r = 'S' then 's'
  else if r = 's' then Char.ofNat 0x17F
  else if r = Char.ofNat 0x17F then 'S'
  else if 'A' ≤ r ∧ r ≤ 'Z' then Char.ofNat (r.toNat + 32)
  else if 'a' ≤ r ∧ r ≤ 'z' then Char.ofNat (r.toNat - 32)
  else r

/-- The loop `for r != sr && r < tr { r = unicode.SimpleFold(r) }` of
`strings.EqualFold`, run for at most `fuel` steps (no orbit is longer than four). -/
def foldTowards (sr tr : Char) : Nat → Char → Char
  | 0, r => r
  | fuel + 1, r => if r ≠ sr ∧ r < tr then foldTowards sr tr fuel (unicodeSimpleFold r) else r

/-- The body of the rune loop of `strings.EqualFold`: do the two runes match? -/
def runeEqualFold (sr tr : Char) : Bool :=
  if tr = sr then true
  else
    let lo := if tr < sr then tr else sr
    let hi := if tr < sr then sr else tr
    if hi.toNat < 0x80 then
      decide ('A' ≤ lo ∧ lo ≤ 'Z' ∧ hi.toNat = lo.toNat + 32)
    else
      decide (foldTowards lo hi 4 (unicodeSimpleFold lo) = hi)

/-- The rune loop of `strings.EqualFold` over both strings; at the end of the first
string the second must be exhausted too. -/
def equalFoldRunes : List Char → List Char → Bool
  | [], t => t.isEmpty
  | _ :: _, [] => false
  | sr :: s, tr :: t => runeEqualFold sr tr && equalFoldRunes s t

/-- Go's `strings.ToUpper` and `strings.EqualFold` on the fragment above. -/
def goStrings : Strings :=
  { ToUpper := fun s => ⟨s.data.map unicodeToUpper⟩
    EqualFold := fun s t => equalFoldRunes s.data t.data }

/-! ## Symbol manager (`symbols/manager.go`) -/

/-- Embeds `api.SymbolInfo`. -/
structure SymbolInfo where
  Symbol : String
  Status : String
  BaseAsset : String
  QuoteAsset : String
  IsSpotTradingAllowed : Bool
  IsMarginTradingAllowed : Bool
deriving DecidableEq

/-- Embeds `api.ExchangeInfo`. -/
structure ExchangeInfo where
  Symbols : List SymbolInfo
deriving DecidableEq

/-- The exchange client as the manager sees it: the answer of `GetExchangeInfo`,
an error message or the catalog. -/
structure Client where
  GetExchangeInfo : Except String ExchangeInfo

/-- Embeds `symbols.Manager`; `apiClient` is `none` for the `nil` pointer. -/
structure Manager where
  symbols : List String
  excludeSymbols : List String
  allSymbols : List String
  apiClient : Option Client

/-- Embeds `NewManager`. -/
def NewManager (symbols excludeSymbols : List String) : Manager :=
  { symbols := symbols, excludeSymbols := excludeSymbols, allSymbols := [], apiClient := none }

/-- Embeds `Manager.SetAPIClient`. -/
def Manager.SetAPIClient (m : Manager) (client : Client) : Manager :=
  { m with apiClient := some client }

/-- The `map[string]bool` that `filterSymbols` builds: every upper-cased exclude
entry maps to `true`, any other key reads as the zero value `false`. -/
def Manager.excludeMap (S : Strings) (m : Manager) : String → Bool :=
  m.excludeSymbols.foldl
    (fun excludeMap symbol => fun key => if key = S.ToUpper symbol then true else excludeMap key)
    (fun _ => false)

/-- Embeds `Manager.filterSymbols`: the input itself when nothing is excluded, otherwise
the symbols whose upper-cased form is not a key of the exclude map, appended one
by one. -/
def Manager.filterSymbols (S : Strings) (m : Manager) (symbols : List String) : List String :=
  if m.excludeSymbols.length = 0 then symbols
  else
    symbols.foldl
      (fun filtered symbol =>
        if !(m.excludeMap S (S.ToUpper symbol)) then filtered ++ [symbol] else filtered)
      []

/-- Embeds `Manager.GetAllSymbols`. -/
def Manager.GetAllSymbols (S : Strings) (m : Manager) : List String :=
  if m.symbols.length > 0 then m.filterSymbols S m.symbols
  else m.filterSymbols S m.allSymbols

/-- Embeds `Manager.LoadAllSymbols`: the returned error (`none` for `nil`) and the manager
afterwards. -/
def Manager.LoadAllSymbols (m : Manager) : Option String × Manager :=
  match m.apiClient with
  | none => (some "API client not set", m)
  | some client =>
    match client.GetExchangeInfo with
    | .error err => (some ("failed to get exchange info: " ++ err), m)
    | .ok info =>
      let symbols := info.Symbols.foldl
        (fun symbols symbol =>
          if symbol.Status = "TRADING" && symbol.IsSpotTradingAllowed then
            symbols ++ [symbol.Symbol]
          else symbols)
        []
      (none, { m with allSymbols := symbols })

/-- The loop shared by `AddSymbol` and `AddExcludeSymbol`: leave the list alone
when an entry equals `symbol` under `strings.EqualFold`, else append the
upper-cased `symbol`. -/
def addFolded (S : Strings) (list : List String) (symbol : String) : List String :=
  if list.any (fun s => S.EqualFold s symbol) then list else list ++ [S.ToUpper symbol]

/-- Embeds `Manager.AddSymbol`. -/
def Manager.AddSymbol (S : Strings) (m : Manager) (symbol : String) : Manager :=
  { m with symbols := addFolded S m.symbols symbol }

/-- Embeds `Manager.AddExcludeSymbol`. -/
def Manager.AddExcludeSymbol (S : Strings) (m : Manager) (symbol : String) : Manager :=
  { m with excludeSymbols := addFolded S m.excludeSymbols symbol }

/-- The state of one symbol's buffer: the map holds an aggregator created for this
symbol and the configured cadence whose buffer is `buf`, or, for the empty buffer,
no aggregator has been created for the key yet. -/
def Realtime.HoldsBuffer (r : Realtime) (symbol : String) (buf : List KlineData) : Prop :=
  r.aggregators (r.key symbol)
      = some { symbol := symbol, timeframe := r.config.UpdateFreq, buffer := buf } ∨
    (buf = [] ∧ r.aggregators (r.key symbol) = none)

/-- The loop shared by `RemoveSymbol` and `RemoveExcludeSymbol`: cut out the first
entry that equals `symbol` under `strings.EqualFold` and stop (`break`). -/
def removeFolded (S : Strings) : List String → String → List String
  | [], _ => []
  | s :: rest, symbol =>
    if S.EqualFold s symbol then rest else s :: removeFolded S rest symbol

/-- Embeds `Manager.RemoveSymbol`. -/
def Manager.RemoveSymbol (S : Strings) (m : Manager) (symbol : String) : Manager :=
  { m with symbols := removeFolded S m.symbols symbol }

/-- Embeds `Manager.RemoveExcludeSymbol`. -/
def Manager.RemoveExcludeSymbol (S : Strings) (m : Manager) (symbol : String) : Manager :=
  { m with excludeSymbols := removeFolded S m.excludeSymbols symbol }

/-- Embeds `Writer.WriteKlines`: as `WriteAggregatedData`, but the cadence is the
writer's own `timeframe`. Returns the error (`none` for `nil`) and the new world;
the call itself is recorded as a batch forwarded to the Sink. -/
def Writer.WriteKlines (w : Writer) (exec : Executor) (symbol : String)
    (klines : List KlineData) (σ : World) : Option String × World :=
  let σ := { σ with sink := σ.sink ++ [SinkCall.klines symbol klines] }
  if klines.length = 0 then (none, σ)
  else
    let tf := w.ConvertTimeframe w.timeframe
    if !w.ValidateTimeframe tf then
      (some ("invalid timeframe " ++ tf ++ " after conversion"), σ)
    else
      let csm : CSMWrite :=
        { key := symbol ++ "/" ++ tf ++ "/OHLCV"
          Epoch := klines.map (fun kline => Int.tdiv kline.OpenTime 1000)
          Open := klines.map (·.Open)
          High := klines.map (·.High)
          Low := klines.map (·.Low)
          Close := klines.map (·.Close)
          Volume := klines.map (·.Volume) }
      match exec σ.writes csm with
      | some err =>
        (some ("failed to write klines for " ++ symbol ++ ": " ++ err),
          { σ with writes := σ.writes ++ [csm] })
      | none => (none, { σ with writes := σ.writes ++ [csm] })

/-- The fifteen cadence codes of the exchange, the keys of the table in
`ConvertTimeframe`. -/
def exchangeCodes : List String :=
  ["1m", "3m", "5m", "15m", "30m", "1h", "2h", "4h", "6h", "8h", "12h", "1d", "3d", "1w", "1M"]

/-- The fifteen canonical labels, the values of the table in `ConvertTimeframe` and
the keys of the table in `ValidateTimeframe`. -/
def canonicalLabels : List String :=
  ["1Min", "3Min", "5Min", "15Min", "30Min", "1H", "2H", "4H", "6H", "8H", "12H", "1D", "3D",
    "1W", "1M"]

/-! ## Bar decoding (`api/client.go`, `Client.GetKlines`) -/

/-- One element of a decoded JSON row, a Go `interface{}`: a number (`float64`), a
string, a boolean, `null`, or an array or object, whose content the decoder never
inspects. -/
inductive JsonValue where
  | number (v : ℚ)
  | string (s : String)
  | bool (b : Bool)
  | null
  | composite
deriving DecidableEq

/-- The error kinds of Go's `strconv.NumError`. -/
inductive NumError where
  | ErrSyntax
  | ErrRange
deriving DecidableEq

/-- The largest `uint64`. -/
def maxUint64 : Nat := 2 ^ 64 - 1

/-- The digit loop of `strconv.ParseUint(s, 10, 64)`: `n` is the value read so far.
A byte that is not a decimal digit is a syntax error with value 0; leaving the
`uint64` range is a range error with value `maxUint64`, reported at the digit where
it happens. -/
def parseUintLoop : List Char → Nat → Nat × Option NumError
  | [], n => (n, none)
  | c :: cs, n =>
    if '0' ≤ c ∧ c ≤ '9' then
      if n ≥ maxUint64 / 10 + 1 then (maxUint64, some NumError.ErrRange)
      else if n * 10 + (c.toNat - '0'.toNat) > maxUint64 then (maxUint64, some NumError.ErrRange)
      else parseUintLoop cs (n * 10 + (c.toNat - '0'.toNat))
    else (0, some NumError.ErrSyntax)

/-- Go's `strconv.ParseUint(s, 10, 64)` on the runes of `s`. -/
def ParseUint (s : List Char) : Nat × Option NumError :=
  match s with
  | [] => (0, some NumError.ErrSyntax)
  | _ => parseUintLoop s 0

/-- Go's `strconv.ParseInt(s, 10, 64)`: value and error. A syntax error gives 0; a
value outside `int64` gives a range error together with the nearest `int64`
(`2^63 - 1` or `-2^63`). -/
def ParseInt (s : String) : Int × Option NumError :=
  match s.data with
  | [] => (0, some NumError.ErrSyntax)
  | c :: cs =>
    let neg := decide (c = '-')
    let digits := if c = '+' ∨ c = '-' then cs else c :: cs
    let (un, err) := ParseUint digits
    if err = some NumError.ErrSyntax then (0, err)
    else if !neg && decide (un ≥ 2 ^ 63) then (2 ^ 63 - 1, some NumError.ErrRange)
    else if neg && decide (un > 2 ^ 63) then (-(2 ^ 63), some NumError.ErrRange)
    else (if neg then -(un : Int) else (un : Int), none)

/-- Go's `strconv.ParseFloat(s, 64)`, which is not part of the repository: the
value and the error it returns, with the one fact of its contract that the decoder
relies on, that a syntax error comes with the value 0. -/
structure Strconv where
  ParseFloat : String → ℚ × Option NumError
  zero_of_ErrSyntax : ∀ s, (ParseFloat s).2 = some NumError.ErrSyntax → (ParseFloat s).1 = 0

/-- The Go conversion `int64(v)` of a `float64`: the fraction is discarded. For a
value outside `int64` the language leaves the result to the implementation; the
embedding takes `-2^63`, what amd64 produces. -/
def float64ToInt64 (v : ℚ) : Int :=
  if -(2 ^ 63) ≤ Int.tdiv v.num v.den ∧ Int.tdiv v.num v.den < 2 ^ 63 then Int.tdiv v.num v.den
  else -(2 ^ 63)

/-- The decoding of an integer field (openTime, closeTime, trades): a number is
converted with `int64(v)`, a string is parsed with `strconv.ParseInt` and the error
dropped, anything else leaves the zero value. -/
def decodeInt (v : JsonValue) : Int :=
  match v with
  | .number x => float64ToInt64 x
  | .string s => (ParseInt s).1
  | _ => 0

/-- The decoding of a float field: a number is taken as it is, a string is parsed
with `strconv.ParseFloat` and the error dropped, anything else leaves the zero
value. -/
def decodeFloat (P : Strconv) (v : JsonValue) : ℚ :=
  match v with
  | .number x => x
  | .string s => (P.ParseFloat s).1
  | _ => 0

/-- The zero value of `KlineData`. -/
def KlineData.zero : KlineData :=
  { OpenTime := 0, Open := 0, High := 0, Low := 0, Close := 0, Volume := 0, CloseTime := 0,
    QuoteAssetVolume := 0, NumberOfTrades := 0, TakerBuyBase := 0, TakerBuyQuote := 0 }

/-- The body of the decoding loop of `GetKlines` for a row of at least 11 fields. -/
def decodeRow (P : Strconv) (data : List JsonValue) : KlineData :=
  { OpenTime := decodeInt (data.getD 0 .null)
    Open := decodeFloat P (data.getD 1 .null)
    High := decodeFloat P (data.getD 2 .null)
    Low := decodeFloat P (data.getD 3 .null)
    Close := decodeFloat P (data.getD 4 .null)
    Volume := decodeFloat P (data.getD 5 .null)
    CloseTime := decodeInt (data.getD 6 .null)
    QuoteAssetVolume := decodeFloat P (data.getD 7 .null)
    NumberOfTrades := decodeInt (data.getD 8 .null)
    TakerBuyBase := decodeFloat P (data.getD 9 .null)
    TakerBuyQuote := decodeFloat P (data.getD 10 .null) }

/-- The decoding loop of `GetKlines`: `klines` is made with one zero record per raw
row, and the loop overwrites position `i` unless row `i` has fewer than 11 fields
(`continue`). -/
def decodeKlines (P : Strconv) (rawData : List (List JsonValue)) : List KlineData :=
  rawData.map (fun data => if data.length < 11 then KlineData.zero else decodeRow P data)

/-- The arguments of one `GetKlines` call; times are nanoseconds. -/
structure KlinesRequest where
  symbol : String
  interval : String
  startTime : Int
  endTime : Int
  limit : Int
deriving DecidableEq

/-- The exchange behind `GetKlines`: given the requests made so far and the next
one, the HTTP exchange and JSON decoding either fail with a message or deliver the
raw rows. Every result below holds for every exchange. -/
abbrev KlinesEndpoint := List KlinesRequest → KlinesRequest → Except String (List (List JsonValue))

/-- Embeds `Client.GetKlines` after the rate limiter: an error of the HTTP exchange
or of the JSON decoding is returned as it is, otherwise the decoded rows with a
`nil` error. -/
def GetKlines (P : Strconv) (http : KlinesEndpoint) (history : List KlinesRequest)
    (req : KlinesRequest) : Except String (List KlineData) :=
  match http history req with
  | .error err => .error err
  | .ok rawData => .ok (decodeKlines P rawData)

/-- The value of a run of decimal digits, `none` when a rune is not a digit. -/
def digitsValue : List Char → Nat → Option Nat
  | [], n => some n
  | c :: cs, n =>
    if '0' ≤ c ∧ c ≤ '9' then digitsValue cs (n * 10 + (c.toNat - '0'.toNat)) else none

/-- A plain decimal literal, an optional sign, digits and an optional fraction with
at least one digit overall, read as an exact rational. -/
def parseDecimal (cs : List Char) : Option ℚ :=
  let neg := decide (cs.head? = some '-')
  let body := if cs.head? = some '-' ∨ cs.head? = some '+' then cs.tail else cs
  let intPart := body.takeWhile (fun c => c ≠ '.')
  let frac := (body.dropWhile (fun c => c ≠ '.')).tail
  if intPart = [] ∧ frac = [] then none
  else
    match digitsValue intPart 0, digitsValue frac 0 with
    | some i, some f => some ((if neg then -1 else 1) * ((i : ℚ) + (f : ℚ) / 10 ^ frac.length))
    | _, _ => none

/-- Go's `strconv.ParseFloat` on plain decimal literals, read exactly. Every other
string is reported as a syntax error, which is what Go does except for exponents,
hexadecimal floats, infinities and NaN; the implementation serves to evaluate
examples only. -/
def goStrconv : Strconv :=
  { ParseFloat := fun s =>
      match parseDecimal s.data with
      | some v => (v, none)
      | none => (0, some NumError.ErrSyntax)
    zero_of_ErrSyntax := by
      intro s h
      cases hp : parseDecimal s.data with
      | none => simp [hp]
      | some v => simp [hp] at h }

/-- The positions of the integer fields in a raw row: openTime, closeTime, trades. -/
def intPositions : List Nat := [0, 6, 8]

/-- The positions of the float fields in a raw row. -/
def floatPositions : List Nat := [1, 2, 3, 4, 5, 7, 9, 10]

/-- The field of a record that is decoded from position `i` of the raw row, integer
fields read as rationals. -/
def KlineData.field (k : KlineData) (i : Nat) : ℚ :=
  match i with
  | 0 => (k.OpenTime : ℚ)
  | 1 => k.Open
  | 2 => k.High
  | 3 => k.Low
  | 4 => k.Close
  | 5 => k.Volume
  | 6 => (k.CloseTime : ℚ)
  | 7 => k.QuoteAssetVolume
  | 8 => (k.NumberOfTrades : ℚ)
  | 9 => k.TakerBuyBase
  | 10 => k.TakerBuyQuote
  | _ => 0

/-! ## Backfill of one symbol (`feed/backfill.go`) -/

/-- The fields of `configs.BackfillConfig`; the two times are nanoseconds on one
time line. -/
structure BackfillConfig where
  Enabled : Bool
  StartTime : Int
  EndTime : Int
  BatchSize : Int
  Parallelism : Int
  Interval : String
deriving DecidableEq

/-- One minute as a `time.Duration`, in nanoseconds. -/
def minute : Int := 60 * 1000000000

/-- Embeds `getIntervalDuration`. -/
def getIntervalDuration (interval : String) : Int :=
  match interval with
  | "1m" => minute
  | "3m" => 3 * minute
  | "5m" => 5 * minute
  | "15m" => 15 * minute
  | "30m" => 30 * minute
  | "1h" => 60 * minute
  | "2h" => 2 * (60 * minute)
  | "4h" => 4 * (60 * minute)
  | "6h" => 6 * (60 * minute)
  | "8h" => 8 * (60 * minute)
  | "12h" => 12 * (60 * minute)
  | "1d" => 24 * (60 * minute)
  | "3d" => 3 * 24 * (60 * minute)
  | "1w" => 7 * 24 * (60 * minute)
  | "1M" => 30 * 24 * (60 * minute)
  | _ => minute

/-- The part of `feed.Backfill` that `backfillSymbol` reads: the configuration and
the writer. -/
structure Backfill where
  config : BackfillConfig
  writer : Writer
deriving DecidableEq

/-- Everything outside the feeder that a backfill run meets: the float parser, the
exchange, the storage engine, and the cancellation signal `ctx.Done()` as observed
at the top of an iteration, given the requests made so far. -/
structure BackfillEnv where
  strconv : Strconv
  http : KlinesEndpoint
  exec : Executor
  ctxDone : List KlinesRequest → Bool

/-- The trace of a backfill run: the `GetKlines` calls made, in order, and the world. -/
structure BackfillState where
  requests : List KlinesRequest
  world : World
deriving DecidableEq

/-- The time window a request asks for. -/
def KlinesRequest.window (r : KlinesRequest) : Int × Int := (r.startTime, r.endTime)

/-- The batch length `time.Duration(b.config.BatchSize) * getIntervalDuration(...)`,
an `int64` product. -/
def Backfill.step (b : Backfill) : Int :=
  wrapInt64 (b.config.BatchSize * getIntervalDuration b.config.Interval)

/-- The `for` loop of `backfillSymbol`, one unit of fuel per evaluation of the loop
condition; `none` when the fuel runs out before the loop ends. The rate limiter and
the sleep between batches take time only and are left out. -/
def Backfill.loop (b : Backfill) (env : BackfillEnv) (symbol : String) :
    Nat → Int → BackfillState → Option BackfillState
  | 0, _, _ => none
  | fuel + 1, currentTime, st =>
    if currentTime < b.config.EndTime then
      if env.ctxDone st.requests then some st
      else
        let batchEndTime := currentTime + b.step
        let batchEndTime := if batchEndTime > b.config.EndTime then b.config.EndTime else batchEndTime
        let req : KlinesRequest :=
          { symbol := symbol, interval := b.config.Interval, startTime := currentTime,
            endTime := batchEndTime, limit := b.config.BatchSize }
        match GetKlines env.strconv env.http st.requests req with
        | .error err =>
          b.loop env symbol fuel batchEndTime
            { requests := st.requests ++ [req]
              world := { st.world with errors := st.world.errors ++
                ["Failed to get klines for " ++ symbol ++ ": " ++ err] } }
        | .ok klines =>
          let σ :=
            if klines.length > 0 then
              match b.writer.WriteKlines env.exec symbol klines st.world with
              | (some err, σ) =>
                { σ with errors := σ.errors ++
                    ["Failed to write klines for " ++ symbol ++ ": " ++ err] }
              | (none, σ) => σ
            else st.world
          b.loop env symbol fuel batchEndTime { requests := st.requests ++ [req], world := σ }
    else some st

/-- Embeds `Backfill.backfillSymbol`: the loop from the configured start time. -/
def Backfill.backfillSymbol (b : Backfill) (env : BackfillEnv) (symbol : String) (fuel : Nat)
    (st : BackfillState) : Option BackfillState :=
  b.loop env symbol fuel b.config.StartTime st

/-- One pass through the body of the `for` loop of `backfillSymbol`, from the
computation of `batchEndTime` on: the value of `currentTime` at the next evaluation
of the loop condition, and the trace with the request of this pass. -/
def Backfill.iteration (b : Backfill) (env : BackfillEnv) (symbol : String) (currentTime : Int)
    (st : BackfillState) : Int × BackfillState :=
  let batchEndTime := currentTime + b.step
  let batchEndTime := if batchEndTime > b.config.EndTime then b.config.EndTime else batchEndTime
  let req : KlinesRequest :=
    { symbol := symbol, interval := b.config.Interval, startTime := currentTime,
      endTime := batchEndTime, limit := b.config.BatchSize }
  match GetKlines env.strconv env.http st.requests req with
  | .error err =>
    (batchEndTime,
      { requests := st.requests ++ [req]
        world := { st.world with errors := st.world.errors ++
          ["Failed to get klines for " ++ symbol ++ ": " ++ err] } })
  | .ok klines =>
    let σ :=
      if klines.length > 0 then
        match b.writer.WriteKlines env.exec symbol klines st.world with
        | (some err, σ) =>
          { σ with errors := σ.errors ++
              ["Failed to write klines for " ++ symbol ++ ": " ++ err] }
        | (none, σ) => σ
      else st.world
    (batchEndTime, { requests := st.requests ++ [req], world := σ })

/-- The `for` loop of `backfillSymbol` watched for at most `n` passes through its
body: the value of `currentTime` and the trace when the loop has ended or `n` passes
are done, whichever comes first. Unlike `loop` it answers for a loop that has not
ended. -/
def Backfill.iterations (b : Backfill) (env : BackfillEnv) (symbol : String) :
    Nat → Int → BackfillState → Int × BackfillState
  | 0, currentTime, st => (currentTime, st)
  | n + 1, currentTime, st =>
    if currentTime < b.config.EndTime then
      if env.ctxDone st.requests then (currentTime, st)
      else
        b.iterations env symbol n (b.iteration env symbol currentTime st).1
          (b.iteration env symbol currentTime st).2
    else (currentTime, st)

/-- The windows of the design document, written from its words and not from the
code: window `i` of `n` starts `i` steps after the start of the range and ends one
step later or at the end of the range, whichever comes first. -/
def partitionWindows (start stop step : Int) (n : Nat) : List (Int × Int) :=
  (List.range n).map (fun i : Nat => (start + i * step, min (start + (i + 1) * step) stop))

/-- The number of windows, `ceil((stop - start) / step)` in integer arithmetic. -/
def windowCount (start stop step : Int) : Nat := ((stop - start + step - 1) / step).toNat

/-! ## Rate limiter (`api/client.go`) -/

/-- The largest `time.Duration`, in nanoseconds. -/
def maxDuration : Int := 2 ^ 63 - 1

/-- The smallest `time.Duration`. -/
def minDuration : Int := -(2 ^ 63)

/-- Go's `t.Sub(u)` on times in nanoseconds: the difference, held at the largest or
smallest duration when it does not fit. -/
def timeSub (t u : Int) : Int :=
  if t - u > maxDuration then maxDuration
  else if t - u < minDuration then minDuration
  else t - u

/-- Embeds `api.RateLimiter` without its mutex; times are nanoseconds since Go's
zero time, so the zero value of `lastCall` is 0. -/
structure RateLimiter where
  lastCall : Int
  interval : Int
deriving DecidableEq

/-- Embeds `NewRateLimiter`. -/
def NewRateLimiter (interval : Int) : RateLimiter := { lastCall := 0, interval := interval }

/-- What the clock does around one `Wait`: how long after the previous reading the
first `time.Now()` happens, how much longer than asked a sleep lasts, and how long
after the sleep (or the first reading) the second `time.Now()` happens. The clock
never runs backwards and a sleep never ends early. -/
structure ClockRun where
  beforeNow : Nat
  oversleep : Nat
  beforeRecord : Nat
deriving DecidableEq

/-- Embeds `RateLimiter.Wait` at clock reading `clock`: the limiter afterwards, the
clock reading it recorded, and the duration passed to `time.Sleep` (`none` when it
does not sleep). `time.Sleep` returns at once for a duration that is not positive. -/
def RateLimiter.Wait (r : RateLimiter) (clock : Int) (c : ClockRun) :
    RateLimiter × Int × Option Int :=
  let now := clock + c.beforeNow
  if timeSub now r.lastCall < r.interval then
    let sleepTime := wrapInt64 (r.interval - timeSub now r.lastCall)
    let woke := if sleepTime ≤ 0 then now else now + sleepTime + c.oversleep
    ({ r with lastCall := woke + c.beforeRecord }, woke + c.beforeRecord, some sleepTime)
  else ({ r with lastCall := now + c.beforeRecord }, now + c.beforeRecord, none)

/-- A sequence of `Wait` calls on one limiter, one clock run per call: the call
times recorded, in order. -/
def RateLimiter.waitAll (r : RateLimiter) (clock : Int) : List ClockRun → List Int
  | [] => []
  | c :: cs => (r.Wait clock c).2.1 :: (r.Wait clock c).1.waitAll (r.Wait clock c).2.1 cs

/-! ## Bar stream (`feed/realtime.go`, `handleKlineMessages`) -/

/-- The bar of a decoded stream frame, `wsMessage.Data.Kline`: times and trade count
are JSON numbers, prices and volumes are strings, `IsFinal` marks a closed bar. -/
structure KlineFrame where
  OpenTime : Int
  Open : String
  High : String
  Low : String
  Close : String
  Volume : String
  CloseTime : Int
  QuoteAssetVolume : String
  NumberOfTrades : Int
  TakerBuyBase : String
  TakerBuyQuote : String
  IsFinal : Bool
deriving DecidableEq

/-- The conversion at the head of `processKlineData`: every string goes through
`strconv.ParseFloat` and the error is dropped. -/
def KlineFrame.toKline (P : Strconv) (klineData : KlineFrame) : KlineData :=
  { OpenTime := klineData.OpenTime
    Open := (P.ParseFloat klineData.Open).1
    High := (P.ParseFloat klineData.High).1
    Low := (P.ParseFloat klineData.Low).1
    Close := (P.ParseFloat klineData.Close).1
    Volume := (P.ParseFloat klineData.Volume).1
    CloseTime := klineData.CloseTime
    QuoteAssetVolume := (P.ParseFloat klineData.QuoteAssetVolume).1
    NumberOfTrades := klineData.NumberOfTrades
    TakerBuyBase := (P.ParseFloat klineData.TakerBuyBase).1
    TakerBuyQuote := (P.ParseFloat klineData.TakerBuyQuote).1 }

/-- Embeds `Realtime.processKlineData`: convert, write the single bar, log a failed
write, and hand the bar to `aggregateData`. -/
def Realtime.processKlineData (r : Realtime) (P : Strconv) (exec : Executor) (symbol : String)
    (klineData : KlineFrame) (σ : World) : Realtime × World :=
  let kline := klineData.toKline P
  let (err, σ) := r.writer.WriteKlines exec symbol [kline] σ
  let σ :=
    match err with
    | some e =>
      { σ with errors := σ.errors ++
          ["Failed to write realtime kline for " ++ symbol ++ ": " ++ e] }
    | none => σ
  r.aggregateData exec symbol kline σ

/-- The body of the loop of `handleKlineMessages` for one frame that was read and
unmarshalled: only a final bar is processed. -/
def Realtime.handleKlineFrame (r : Realtime) (P : Strconv) (exec : Executor) (symbol : String)
    (klineData : KlineFrame) (σ : World) : Realtime × World :=
  if klineData.IsFinal then r.processKlineData P exec symbol klineData σ else (r, σ)

/-- The well-formedness of a bar that the design document expects of upstream
data: `low ≤ min(open, close) ≤ max(open, close) ≤ high`. -/
def KlineData.WellFormed (k : KlineData) : Prop :=
  k.Low ≤ min k.Open k.Close ∧ min k.Open k.Close ≤ max k.Open k.Close ∧
    max k.Open k.Close ≤ k.High

/-- Embeds `Manager.IsValidSymbol`: not equal to an exclude entry under
`strings.EqualFold`, and equal to an include entry when there are includes, to a
catalog entry otherwise. -/
def Manager.IsValidSymbol (S : Strings) (m : Manager) (symbol : String) : Bool :=
  if m.excludeSymbols.any (fun exclude => S.EqualFold symbol exclude) then false
  else if m.symbols.length > 0 then m.symbols.any (fun s => S.EqualFold symbol s)
  else m.allSymbols.any (fun s => S.EqualFold symbol s)

/-! ## Trade timestamps (`writer/writer.go`, `Writer.WriteTrades`) -/

/-- Embeds `api.TradeData`; `Time` is in epoch milliseconds. -/
structure TradeData where
  ID : Int
  Price : ℚ
  Quantity : ℚ
  QuoteQty : ℚ
  Time : Int
  IsBuyerMaker : Bool
deriving DecidableEq

/-- Two's complement wrap-around of an integer into the `int32` range. -/
def wrapInt32 (x : Int) : Int := (x + 2 ^ 31) % 2 ^ 32 - 2 ^ 31

/-- Go's `time.Unix(sec, nsec)` read back with `Unix()` and `Nanosecond()`: a
nanosecond count outside `[0, 1e9)` is carried into the seconds. The arithmetic is
`int64`. -/
def unixTime (sec nsec : Int) : Int × Int :=
  if nsec < 0 ∨ nsec ≥ 1000000000 then
    let n := Int.tdiv nsec 1000000000
    let sec := wrapInt64 (sec + n)
    let nsec := wrapInt64 (nsec - wrapInt64 (n * 1000000000))
    if nsec < 0 then (wrapInt64 (sec - 1), wrapInt64 (nsec + 1000000000)) else (sec, nsec)
  else (sec, nsec)

/-- The timestamp lines of the loop of `WriteTrades` for a trade time `t`:
`time.Unix(t/1000, (t%1000)*1000000)`, then `epoch[i] = timestamp.Unix()` and
`nanosecond[i] = int32(timestamp.Nanosecond())`. Go's `/` and `%` truncate towards
zero. -/
def tradeTimestamp (t : Int) : Int × Int :=
  let timestamp := unixTime (Int.tdiv t 1000) (wrapInt64 (Int.tmod t 1000 * 1000000))
  (timestamp.1, wrapInt32 timestamp.2)

/-- The Epoch and Nanosecond columns that `WriteTrades` builds for a batch. -/
def tradeTimeColumns (trades : List TradeData) : List Int × List Int :=
  (trades.map (fun trade => (tradeTimestamp trade.Time).1),
   trades.map (fun trade => (tradeTimestamp trade.Time).2))

/-! ## Configuration (`configs/config.go`) -/

/-- A value of the configuration map, a Go `interface{}`: string, boolean, number
(`float64`), list, map with string keys, or `nil`. -/
inductive ConfValue where
  | str (s : String)
  | bool (b : Bool)
  | num (v : ℚ)
  | list (items : List ConfValue)
  | map (entries : List (String × ConfValue))
  | null

/-- The type assertion `m[key].(string)`. -/
def lookupString (m : List (String × ConfValue)) (key : String) : Option String :=
  match m.lookup key with
  | some (.str s) => some s
  | _ => none

/-- The type assertion `m[key].(bool)`. -/
def lookupBool (m : List (String × ConfValue)) (key : String) : Option Bool :=
  match m.lookup key with
  | some (.bool b) => some b
  | _ => none

/-- The type assertion `m[key].(float64)`. -/
def lookupNum (m : List (String × ConfValue)) (key : String) : Option ℚ :=
  match m.lookup key with
  | some (.num v) => some v
  | _ => none

/-- The type assertion `m[key].([]interface{})` followed by the loop that copies the
strings of the list and leaves `""` at every other position. -/
def lookupStrings (m : List (String × ConfValue)) (key : String) : Option (List String) :=
  match m.lookup key with
  | some (.list items) =>
    some (items.map (fun item => match item with
      | .str s => s
      | _ => ""))
  | _ => none

/-- Embeds `toStringMap` on the value found under a key: the map itself, `nil`
(here `none`) for anything that is not a map. -/
def toStringMap (raw : Option ConfValue) : Option (List (String × ConfValue)) :=
  match raw with
  | some (.map entries) => some entries
  | _ => none

/-- Embeds `configs.Config`. -/
structure Config where
  APIKey : String
  SecretKey : String
  Testnet : Bool
  Symbols : List String
  ExcludeSymbols : List String
  Timeframe : String
  Backfill : BackfillConfig
  Realtime : RealtimeConfig
deriving DecidableEq

/-- What `ParseConfig` takes from outside the repository: `strings.ToLower`,
`time.Parse(time.RFC3339, s)` (`none` when it returns an error) and the reading of
`time.Now()`. Times are nanoseconds since Go's zero time, so `IsZero` is `= 0`. -/
structure ConfigEnv where
  ToLower : String → String
  parseRFC3339 : String → Option Int
  now : Int

/-- The backfill section of `ParseConfig`, applied to the zero `BackfillConfig` when
the section is a map. -/
def parseBackfill (env : ConfigEnv) (backfillConf : List (String × ConfValue)) : BackfillConfig :=
  { Enabled :=
      match backfillConf.lookup "enabled" with
      | some (.bool v) => v
      | some (.str v) =>
        decide (env.ToLower v = "true" ∨ env.ToLower v = "yes" ∨ env.ToLower v = "1")
      | _ => false
    StartTime :=
      match lookupString backfillConf "start_time" with
      | some startTime => (env.parseRFC3339 startTime).getD 0
      | none => 0
    EndTime :=
      match lookupString backfillConf "end_time" with
      | some endTime => (env.parseRFC3339 endTime).getD 0
      | none => 0
    BatchSize :=
      match lookupNum backfillConf "batch_size" with
      | some batchSize => float64ToInt64 batchSize
      | none => 1000
    Parallelism :=
      match lookupNum backfillConf "parallelism" with
      | some parallelism => float64ToInt64 parallelism
      | none => 5
    Interval := (lookupString backfillConf "interval").getD "1m" }

/-- The realtime section of `ParseConfig`, applied to the zero `RealtimeConfig` when
the section is a map. -/
def parseRealtime (realtimeConf : List (String × ConfValue)) : RealtimeConfig :=
  { Enabled := (lookupBool realtimeConf "enabled").getD false
    StreamType := (lookupString realtimeConf "stream_type").getD "kline"
    UpdateFreq := (lookupString realtimeConf "update_freq").getD "1s"
    BufferSize :=
      match lookupNum realtimeConf "buffer_size" with
      | some bufferSize => float64ToInt64 bufferSize
      | none => 1000
    MaxRetries :=
      match lookupNum realtimeConf "max_retries" with
      | some maxRetries => float64ToInt64 maxRetries
      | none => 3
    RetryDelay := (lookupString realtimeConf "retry_delay").getD "5s" }

/-- The zero value of `BackfillConfig`. -/
def BackfillConfig.zero : BackfillConfig :=
  { Enabled := false, StartTime := 0, EndTime := 0, BatchSize := 0, Parallelism := 0,
    Interval := "" }

/-- The zero value of `RealtimeConfig`. -/
def RealtimeConfig.zero : RealtimeConfig :=
  { Enabled := false, StreamType := "", UpdateFreq := "", BufferSize := 0, MaxRetries := 0,
    RetryDelay := "" }

/-- The part of `ParseConfig` before the validation: every field is read from the
map, with its default or zero value when the key is missing or of another type. -/
def parseFields (env : ConfigEnv) (conf : List (String × ConfValue)) : Config :=
  { APIKey := (lookupString conf "api_key").getD ""
    SecretKey := (lookupString conf "secret_key").getD ""
    Testnet := (lookupBool conf "testnet").getD false
    Symbols := (lookupStrings conf "symbols").getD []
    ExcludeSymbols := (lookupStrings conf "exclude_symbols").getD []
    Timeframe := (lookupString conf "timeframe").getD "1m"
    Backfill :=
      match toStringMap (conf.lookup "backfill") with
      | some backfillConf => parseBackfill env backfillConf
      | none => BackfillConfig.zero
    Realtime :=
      match toStringMap (conf.lookup "realtime") with
      | some realtimeConf => parseRealtime realtimeConf
      | none => RealtimeConfig.zero }

/-- The keys of the `validTimeframes` map of `validateConfig`. -/
def validTimeframes : List String := ["1m", "3m", "5m", "15m", "30m", "1h", "4h", "1d", "1w"]

/-- The keys of the `validStreamTypes` map of `validateConfig`. -/
def validStreamTypes : List String := ["kline", "trade", "depth"]

/-- Embeds `validateConfig`: the error, or the configuration as the function leaves
it (an omitted end time is set to the current time). -/
def validateConfig (now : Int) (config : Config) : Except String Config :=
  if config.Timeframe ∉ validTimeframes then
    .error ("invalid timeframe: " ++ config.Timeframe)
  else if config.Symbols.length = 0 then
    .error "at least one symbol must be specified"
  else
    let checked : Except String Config :=
      if config.Backfill.Enabled then
        if config.Backfill.StartTime = 0 then
          .error "backfill start_time is required when enabled"
        else
          let config :=
            if config.Backfill.EndTime = 0 then
              { config with Backfill := { config.Backfill with EndTime := now } }
            else config
          if config.Backfill.StartTime > config.Backfill.EndTime then
            .error "backfill start_time must be before end_time"
          else if config.Backfill.Interval ∉ validTimeframes then
            .error ("invalid backfill interval: " ++ config.Backfill.Interval)
          else .ok config
      else .ok config
    match checked with
    | .error err => .error err
    | .ok config =>
      if config.Realtime.Enabled ∧ config.Realtime.StreamType ∉ validStreamTypes then
        .error ("invalid stream_type: " ++ config.Realtime.StreamType)
      else .ok config

/-- Embeds `ParseConfig`. -/
def ParseConfig (env : ConfigEnv) (conf : List (String × ConfValue)) : Except String Config :=
  validateConfig env.now (parseFields env conf)

/-- The error message of a result, `none` when it is a success. -/
def failure {α : Type} (r : Except String α) : Option String :=
  match r with
  | .error err => some err
  | .ok _ => none

/-! ## Worker pool of `Backfill.Run` (`feed/backfill.go`) -/

/-- The state of a backfill run as far as the worker pool goes: the capacity of the
`workerPool` channel, the number of tokens in it, the symbols whose task has been
launched and has not finished, and the symbols that the loop of `Run` has not
reached yet. -/
structure PoolState where
  capacity : Nat
  permits : Nat
  running : List String
  pending : List String
deriving DecidableEq

/-- Embeds `NewBackfill` followed by the start of `Run`: the channel is made with
capacity `Parallelism` and filled with as many tokens; `none` for a negative
`Parallelism`, on which `make` panics. -/
def PoolState.init (parallelism : Int) (symbols : List String) : Option PoolState :=
  if parallelism < 0 then none
  else some { capacity := parallelism.toNat, permits := parallelism.toNat, running := [],
              pending := symbols }

/-- The things that can happen during `Run`, each of them one channel operation:
the loop of `Run` receives a token and launches the task of the next symbol; the
task at position `i` among the running ones returns from `backfillSymbol`, with or
without failures, and its deferred send puts the token back; the loop of `Run`
observes the cancellation and returns. -/
inductive PoolEvent where
  | acquire
  | finish (i : Nat)
  | cancel
deriving DecidableEq

/-- One event; `none` when the event cannot happen in this state (an empty channel
blocks the receive, a full channel blocks the send). -/
def PoolState.step (s : PoolState) : PoolEvent → Option PoolState
  | .acquire =>
    match s.pending, s.permits with
    | symbol :: rest, permits + 1 =>
      some { s with permits := permits, running := s.running ++ [symbol], pending := rest }
    | _, _ => none
  | .finish i =>
    if i < s.running.length ∧ s.permits < s.capacity then
      some { s with permits := s.permits + 1, running := s.running.eraseIdx i }
    else none
  | .cancel => if s.pending = [] then none else some { s with pending := [] }

/-- The states that a run goes through under a schedule of events, the first state
included; an event that cannot happen leaves the state as it is. -/
def PoolState.trace (s : PoolState) : List PoolEvent → List PoolState
  | [] => [s]
  | event :: events =>
    match s.step event with
    | some s' => s :: s'.trace events
    | none => s :: s.trace events

/-! ## Price adjustment (`uda/adjust/adjust.go`, `Adjust.Accum`) -/

/-- The rate change record of the `adjust` package, with the fields that `Accum`
names when it builds one; `Kind` stands for the Go field `Type`. -/
structure RateChange where
  Epoch : Int
  Rate : ℚ
  Textnumber : Int
  Kind : Int
deriving DecidableEq

/-- Go's `math.MaxInt64`. -/
def maxInt64 : Int := 2 ^ 63 - 1

/-- The record that `Accum` appends to the rate changes:
`RateChange{Epoch: math.MaxInt64, Rate: 1, Textnumber: 0, Type: 0}`. -/
def noopRateChange : RateChange := { Epoch := maxInt64, Rate := 1, Textnumber := 0, Kind := 0 }

/-- The package variable `rounderNum = math.Pow(10, roundToDecimals)`, with
`roundToDecimals = 4`. -/
def rounderNum : ℚ := 10 ^ 4

/-- Go's `math.Round`: the nearest integer, halves away from zero. -/
def mathRound (x : ℚ) : ℚ :=
  if 0 ≤ x then ((Rat.floor (x + 1 / 2) : Int) : ℚ) else -((Rat.floor (-x + 1 / 2) : Int) : ℚ)

/-- The columns of `adj.output`: a name and the values of the column. -/
abbrev Columns := List (String × List ℚ)

/-- Embeds the inner loop of `Accum`,
`for ; ri > 0 && (epochs[i] < rateChanges[ri-1].Epoch); ri-- { rate *= rateChanges[ri-1].Rate }`,
for the row whose epoch is `epoch`; the first argument of the recursion is `ri`, the
result is the final `ri` and `rate`, and `none` is an index out of range. -/
def accumulateRate (rateChanges : List RateChange) (epoch : Int) : Nat → ℚ → Option (Nat × ℚ)
  | 0, rate => some (0, rate)
  | ri + 1, rate =>
    match rateChanges[ri]? with
    | none => none
    | some rateChange =>
      if epoch < rateChange.Epoch then
        accumulateRate rateChanges epoch ri (rate * rateChange.Rate)
      else some (ri + 1, rate)

/-- Embeds `c[i] = math.Round((c[i]/rate)*rounderNum) / rounderNum` for one column;
`none` is an index out of range. -/
def adjustCell (i : Nat) (rate : ℚ) (column : List ℚ) : Option (List ℚ) :=
  match column[i]? with
  | none => none
  | some v => some (column.set i (mathRound (v / rate * rounderNum) / rounderNum))

/-- Embeds `for _, c := range adj.output { c[i] = ... }`: row `i` of every column. -/
def adjustRow (i : Nat) (rate : ℚ) : Columns → Option Columns
  | [] => some []
  | (name, c) :: rest =>
    match adjustCell i rate c with
    | none => none
    | some c' =>
      match adjustRow i rate rest with
      | none => none
      | some rest' => some ((name, c') :: rest')

/-- Embeds the outer loop of `Accum`, `for i := len(epochs) - 1; i >= 0; i--`: the
first argument of the recursion is `i + 1`, so the loop starts it at `len(epochs)`
and ends at `0`. -/
def scanRows (rateChanges : List RateChange) (epochs : List Int) :
    Nat → Nat → ℚ → Columns → Option Columns
  | 0, _, _, output => some output
  | i + 1, ri, rate, output =>
    match epochs[i]? with
    | none => none
    | some epoch =>
      match accumulateRate rateChanges epoch ri rate with
      | none => none
      | some (ri', rate') =>
        match adjustRow i rate' output with
        | none => none
        | some output' => scanRows rateChanges epochs i ri' rate' output'

/-- Embeds `Adjust.Accum` from the call of `GetRateChanges` on: `dbRateChanges` is
what `GetRateChanges` returned, `epochs` the `Epoch` column and `output` the columns
of `adj.output` that the first half of `Accum` has filled. The result is
`adj.output` after the call, `none` when an index is out of range. -/
def Accum (dbRateChanges : List RateChange) (epochs : List Int) (output : Columns) :
    Option Columns :=
  if dbRateChanges.length = 0 then some output
  else
    let rateChanges := dbRateChanges ++ [noopRateChange]
    let ri := rateChanges.length - 1
    match rateChanges[ri]? with
    | none => none
    | some rateChange => scanRows rateChanges epochs epochs.length ri rateChange.Rate output

/-- The product of the rates of the rate changes whose epoch is strictly greater than
`epoch`. -/
def rateAfter (rateChanges : List RateChange) (epoch : Int) : ℚ :=
  ((rateChanges.filter (fun rateChange => decide (epoch < rateChange.Epoch))).map
    (fun rateChange => rateChange.Rate)).prod

/-- The value `round(value / rate x 10^4) / 10^4`. -/
def adjustValue (value rate : ℚ) : ℚ := mathRound (value / rate * 10 ^ 4) / 10 ^ 4

/-- A column with every row adjusted by the rate changes after the row's epoch. -/
def adjustColumn (rateChanges : List RateChange) (epochs : List Int) (c : List ℚ) : List ℚ :=
  List.zipWith (fun epoch value => adjustValue value (rateAfter rateChanges epoch)) epochs c

/-! ## Sample values -/

/-- A bar with the given high, low and volume, open `o`, close `c`, everything else zero. -/
def sampleBar (o h l c v : ℚ) : KlineData :=
  { OpenTime := 0, Open := o, High := h, Low := l, Close := c, Volume := v, CloseTime := 0,
    QuoteAssetVolume := 0, NumberOfTrades := 0, TakerBuyBase := 0, TakerBuyQuote := 0 }

/-- A world in which nothing has happened yet. -/
def World.empty : World := { sink := [], writes := [], errors := [] }

/-- A storage engine that accepts every write. -/
def execOk : Executor := fun _ _ => none

/-- A storage engine that rejects every write. -/
def execFail : Executor := fun _ _ => some "disk full"

/-- A writer for one-minute bars. -/
def sampleWriter : Writer := { timeframe := "1Min", timezone := "UTC" }

/-- A realtime processor with no aggregator yet, flushing every `n` bars of cadence "1m". -/
def sampleRealtime (n : Int) : Realtime :=
  { config := { Enabled := true, StreamType := "kline", UpdateFreq := "1m", BufferSize := n,
                MaxRetries := 0, RetryDelay := "" }
    writer := sampleWriter
    aggregators := fun _ => none }

/-- The design document's include/exclude example: includes BTCUSDT and ETHUSDT,
excludes ETHUSDT. -/
def specManager : Manager := NewManager ["BTCUSDT", "ETHUSDT"] ["ETHUSDT"]

/-- A manager whose only include is excluded (in another letter case) although the
cached catalog holds a tradable symbol. -/
def shadowedManager : Manager :=
  { symbols := ["ethusdt"], excludeSymbols := ["ETHUSDT"], allSymbols := ["BTCUSDT"],
    apiClient := none }

/-- The design document's catalog example: BTCUSDT is trading, FOOBAR is on break. -/
def specCatalog : ExchangeInfo :=
  { Symbols :=
      [{ Symbol := "BTCUSDT", Status := "TRADING", BaseAsset := "BTC", QuoteAsset := "USDT",
         IsSpotTradingAllowed := true, IsMarginTradingAllowed := false },
       { Symbol := "FOOBAR", Status := "BREAK", BaseAsset := "FOO", QuoteAsset := "BAR",
         IsSpotTradingAllowed := true, IsMarginTradingAllowed := false }] }

/-- A client whose catalog request answers `specCatalog`. -/
def specClient : Client := { GetExchangeInfo := .ok specCatalog }

/-- A manager without includes or excludes, connected to `specClient`. -/
def catalogManager : Manager := (NewManager [] []).SetAPIClient specClient

/-- The one-rune string U+0131, LATIN SMALL LETTER DOTLESS I. Its upper case is the
ASCII letter `I`, and simple case folding relates `I` to `i` only, not to U+0131. -/
def dotlessI : String := ⟨[Char.ofNat 0x131]⟩

/-- The three bars of the design document's aggregator example: highs `[10,12,9]`,
lows `[1,2,0.5]`, volumes `[1,1,1]`. -/
def specBars : List KlineData :=
  [sampleBar 5 10 1 6 1, sampleBar 6 12 2 7 1, sampleBar 7 9 (1/2) 8 1]

/-- Two bars that differ in every summed field. -/
def tradeBars : List KlineData :=
  [{ OpenTime := 0, Open := 1, High := 2, Low := 1, Close := 2, Volume := 10, CloseTime := 59999,
     QuoteAssetVolume := 3/2, NumberOfTrades := 7, TakerBuyBase := 1, TakerBuyQuote := 3 },
   { OpenTime := 60000, Open := 2, High := 3, Low := 1, Close := 2, Volume := 20,
     CloseTime := 119999, QuoteAssetVolume := 5/2, NumberOfTrades := 8, TakerBuyBase := 2,
     TakerBuyQuote := 4 }]

/-- A manager configured with the same symbol twice, in two letter cases, in both
lists. -/
def duplicateManager : Manager := NewManager ["BTCUSDT", "btcusdt"] ["ETHUSDT", "ethusdt"]

/-- A raw row as the REST endpoint sends it: times and trade count as numbers,
prices and volumes as strings, and a twelfth field that the decoder ignores. -/
def restRow : List JsonValue :=
  [.number 1700000000000, .string "5", .string "10", .string "1", .string "6", .string "1.5",
   .number 1700000059999, .string "12.25", .number 42, .string "0.5", .string "3", .string "0"]

/-- The record that `restRow` decodes to. -/
def restBar : KlineData :=
  { OpenTime := 1700000000000, Open := 5, High := 10, Low := 1, Close := 6, Volume := 3/2,
    CloseTime := 1700000059999, QuoteAssetVolume := 49/4, NumberOfTrades := 42,
    TakerBuyBase := 1/2, TakerBuyQuote := 3 }

/-- A raw row with only three fields. -/
def shortRow : List JsonValue := [.number 1700000060000, .string "5", .string "10"]

/-- An exchange that answers every request with a short row followed by `restRow`. -/
def shortRowEndpoint : KlinesEndpoint := fun _ _ => .ok [shortRow, restRow]

/-- An exchange whose every request fails. -/
def failingEndpoint : KlinesEndpoint := fun _ _ => .error "API request failed: 500"

/-- A request for one hour of one-minute bars. -/
def sampleRequest : KlinesRequest :=
  { symbol := "BTCUSDT", interval := "1m", startTime := 0, endTime := 3600000000000,
    limit := 60 }

/-- A backfill of two and a half hours of one-minute bars in batches of 60. -/
def sampleBackfill : Backfill :=
  { config := { Enabled := true, StartTime := 0, EndTime := 150 * minute, BatchSize := 60,
                Parallelism := 5, Interval := "1m" }
    writer := { timeframe := "1m", timezone := "UTC" } }

/-- A run in which every fetch fails. -/
def envFetchFails : BackfillEnv :=
  { strconv := goStrconv, http := failingEndpoint, exec := execOk, ctxDone := fun _ => false }

/-- A run in which every fetch delivers rows and every write fails. -/
def envWriteFails : BackfillEnv :=
  { strconv := goStrconv, http := shortRowEndpoint, exec := execFail, ctxDone := fun _ => false }

/-- The state before a run. -/
def BackfillState.empty : BackfillState := { requests := [], world := World.empty }

/-- A clock reading in the year 2023, in nanoseconds since Go's zero time. -/
def clock2023 : Int := 63837000000 * 1000000000

/-- Three clock runs: an immediate call, a call 10 ms after the previous one with a
sleep that overruns by 1 ms, and a call two seconds after the previous one. -/
def sampleRuns : List ClockRun :=
  [{ beforeNow := 0, oversleep := 0, beforeRecord := 100 },
   { beforeNow := 10000000, oversleep := 1000000, beforeRecord := 100 },
   { beforeNow := 2000000000, oversleep := 0, beforeRecord := 100 }]

/-- A final one-minute bar as the stream sends it. -/
def finalFrame : KlineFrame :=
  { OpenTime := 1700000000000, Open := "5", High := "10", Low := "1", Close := "6",
    Volume := "1.5", CloseTime := 1700000059999, QuoteAssetVolume := "12.25",
    NumberOfTrades := 42, TakerBuyBase := "0.5", TakerBuyQuote := "3", IsFinal := true }

/-- The same bar while it is still open. -/
def openFrame : KlineFrame := { finalFrame with IsFinal := false }

/-- A run that is cancelled from the start. -/
def envCancelled : BackfillEnv :=
  { strconv := goStrconv, http := shortRowEndpoint, exec := execOk, ctxDone := fun _ => true }

/-- A run that is cancelled once two requests have been made. -/
def envCancelledAfterTwo : BackfillEnv :=
  { strconv := goStrconv, http := shortRowEndpoint, exec := execOk,
    ctxDone := fun requests => decide (2 ≤ requests.length) }

/-- The one-rune string U+212A, KELVIN SIGN. It is an upper-case letter, so
upper-casing leaves it alone, while simple case folding puts it in one class with
the ASCII letters `K` and `k`. -/
def kelvinSign : String := ⟨[Char.ofNat 0x212A]⟩

/-- A manager that includes the ASCII symbol "K" and excludes the Kelvin sign. -/
def kelvinManager : Manager := NewManager ["K"] [kelvinSign]

/-- Midnight of 1 January 2023 (UTC), in nanoseconds since Go's zero time. -/
def jan1 : Int := 63808128000 * 1000000000

/-- Midnight of 2 January 2023 (UTC). -/
def jan2 : Int := 63808214400 * 1000000000

/-- A configuration environment: ASCII lower-casing, a time parser that knows the
two dates above, and a clock that reads 2 January 2023. -/
def sampleConfigEnv : ConfigEnv :=
  { ToLower := fun s => ⟨s.data.map Char.toLower⟩
    parseRFC3339 := fun s =>
      if s = "2023-01-01T00:00:00Z" then some jan1
      else if s = "2023-01-02T00:00:00Z" then some jan2
      else none
    now := jan2 }

/-- A configuration map with one symbol and a backfill section with the given
start time, end time and batch size, and a realtime section that sets nothing but
`enabled`. -/
def sampleConf (startTime endTime : String) (batchSize : ℚ) : List (String × ConfValue) :=
  [("symbols", .list [.str "BTCUSDT"]),
   ("backfill", .map [("enabled", .bool true), ("start_time", .str startTime),
      ("end_time", .str endTime), ("batch_size", .num batchSize)]),
   ("realtime", .map [("enabled", .bool true)])]

/-- A configuration map with backfill enabled, start after end, and no symbols. -/
def noSymbolsConf : List (String × ConfValue) :=
  [("backfill", .map [("enabled", .bool true), ("start_time", .str "2023-01-02T00:00:00Z"),
      ("end_time", .str "2023-01-01T00:00:00Z")])]

/-- A configuration map with one symbol and a realtime section that sets only
`enabled`. -/
def realtimeOnlyConf : List (String × ConfValue) :=
  [("symbols", .list [.str "BTCUSDT"]), ("realtime", .map [("enabled", .bool true)])]

/-- An aggregator for the default cadence "1s" holding the design document's bars. -/
def defaultCadenceAggregator : DataAggregator :=
  { symbol := "BTCUSDT", timeframe := "1s", buffer := specBars }

/-- A backfill of one day with batch size 0. -/
def zeroBatchBackfill : Backfill :=
  { config := { Enabled := true, StartTime := jan1, EndTime := jan2, BatchSize := 0,
                Parallelism := 5, Interval := "1m" }
    writer := { timeframe := "1m", timezone := "UTC" } }

/-- A schedule for five symbols: three attempts to launch, two attempts of a task to
finish, three more attempts to launch, a cancellation. -/
def sampleSchedule : List PoolEvent :=
  [.acquire, .acquire, .acquire, .finish 0, .finish 1, .acquire, .acquire, .acquire, .cancel]

/-- Five symbols. -/
def fiveSymbols : List String := ["A", "B", "C", "D", "E"]

/-- Two rate changes, at epochs 10 and 20. -/
def sampleRateChanges : List RateChange :=
  [{ Epoch := 10, Rate := 2, Textnumber := 1, Kind := 1 },
   { Epoch := 20, Rate := 5, Textnumber := 2, Kind := 1 }]

/-- Four rows: before both rate changes, at the first, between them, after both. -/
def sampleEpochs : List Int := [5, 10, 15, 25]

/-- Two columns over the four rows. -/
def sampleColumns : Columns := [("Close", [100, 100, 100, 100]), ("Open", [1, 1, 1 / 3, -1 / 20000])]

/-- Two bars whose trade counts, 2^63 - 1 and 1, are `int64` values with a sum that
is not. -/
def overflowBars : List KlineData :=
  [{ OpenTime := 0, Open := 1, High := 2, Low := 1, Close := 2, Volume := 10, CloseTime := 59999,
     QuoteAssetVolume := 3/2, NumberOfTrades := 2 ^ 63 - 1, TakerBuyBase := 1,
     TakerBuyQuote := 3 },
   { OpenTime := 60000, Open := 2, High := 3, Low := 1, Close := 2, Volume := 20,
     CloseTime := 119999, QuoteAssetVolume := 5/2, NumberOfTrades := 1, TakerBuyBase := 2,
     TakerBuyQuote := 4 }]

/-! ## The reduction loop, field by field -/

theorem wrapInt64_add_wrapInt64 (x y : Int) : wrapInt64 (wrapInt64 x + y) = wrapInt64 (x + y) := by
  unfold wrapInt64
  have h : (x + 2 ^ 63) % 2 ^ 64 - 2 ^ 63 + y + 2 ^ 63 = (x + 2 ^ 63) % 2 ^ 64 + y := by ring
  rw [h, Int.emod_add_emod]
  congr 2
  ring

theorem wrapInt64_of_fits (x : Int) (hlo : -(2 ^ 63) ≤ x) (hhi : x < 2 ^ 63) : wrapInt64 x = x := by
  unfold wrapInt64
  rw [Int.emod_eq_of_lt (by linarith) (by linarith)]
  ring

@[simp] theorem aggregateStep_Volume (a k : KlineData) :
    (aggregateStep a k).Volume = a.Volume + k.Volume := by
  unfold aggregateStep
  by_cases h : k.High > a.High <;> by_cases hl : k.Low < a.Low <;> simp [h, hl]

@[simp] theorem aggregateStep_QuoteAssetVolume (a k : KlineData) :
    (aggregateStep a k).QuoteAssetVolume = a.QuoteAssetVolume + k.QuoteAssetVolume := by
  unfold aggregateStep
  by_cases h : k.High > a.High <;> by_cases hl : k.Low < a.Low <;> simp [h, hl]

@[simp] theorem aggregateStep_TakerBuyBase (a k : KlineData) :
    (aggregateStep a k).TakerBuyBase = a.TakerBuyBase + k.TakerBuyBase := by
  unfold aggregateStep
  by_cases h : k.High > a.High <;> by_cases hl : k.Low < a.Low <;> simp [h, hl]

@[simp] theorem aggregateStep_TakerBuyQuote (a k : KlineData) :
    (aggregateStep a k).TakerBuyQuote = a.TakerBuyQuote + k.TakerBuyQuote := by
  unfold aggregateStep
  by_cases h : k.High > a.High <;> by_cases hl : k.Low < a.Low <;> simp [h, hl]

@[simp] theorem aggregateStep_NumberOfTrades (a k : KlineData) :
    (aggregateStep a k).NumberOfTrades = wrapInt64 (a.NumberOfTrades + k.NumberOfTrades) := by
  unfold aggregateStep
  by_cases h : k.High > a.High <;> by_cases hl : k.Low < a.Low <;> simp [h, hl]

@[simp] theorem aggregateStep_Open (a k : KlineData) : (aggregateStep a k).Open = a.Open := by
  unfold aggregateStep
  by_cases h : k.High > a.High <;> by_cases hl : k.Low < a.Low <;> simp [h, hl]

@[simp] theorem aggregateStep_Close (a k : KlineData) : (aggregateStep a k).Close = a.Close := by
  unfold aggregateStep
  by_cases h : k.High > a.High <;> by_cases hl : k.Low < a.Low <;> simp [h, hl]

@[simp] theorem aggregateStep_OpenTime (a k : KlineData) :
    (aggregateStep a k).OpenTime = a.OpenTime := by
  unfold aggregateStep
  by_cases h : k.High > a.High <;> by_cases hl : k.Low < a.Low <;> simp [h, hl]

@[simp] theorem aggregateStep_CloseTime (a k : KlineData) :
    (aggregateStep a k).CloseTime = a.CloseTime := by
  unfold aggregateStep
  by_cases h : k.High > a.High <;> by_cases hl : k.Low < a.Low <;> simp [h, hl]

theorem aggregateStep_High (a k : KlineData) : (aggregateStep a k).High = max a.High k.High := by
  unfold aggregateStep
  by_cases h : k.High > a.High <;> by_cases hl : k.Low < a.Low <;> simp [h, hl]
  · exact le_of_lt h
  · exact le_of_lt h
  · exact not_lt.mp h
  · exact not_lt.mp h

theorem aggregateStep_Low (a k : KlineData) : (aggregateStep a k).Low = min a.Low k.Low := by
  unfold aggregateStep
  by_cases h : k.High > a.High <;> by_cases hl : k.Low < a.Low <;> simp [h, hl]
  · exact le_of_lt hl
  · exact not_lt.mp hl
  · exact le_of_lt hl
  · exact not_lt.mp hl

theorem foldl_aggregateStep_Volume (ks : List KlineData) (a : KlineData) :
    (ks.foldl aggregateStep a).Volume = a.Volume + (ks.map (·.Volume)).sum := by
  induction ks generalizing a with
  | nil => simp
  | cons k ks ih => simp [ih, add_assoc]

theorem foldl_aggregateStep_QuoteAssetVolume (ks : List KlineData) (a : KlineData) :
    (ks.foldl aggregateStep a).QuoteAssetVolume
      = a.QuoteAssetVolume + (ks.map (·.QuoteAssetVolume)).sum := by
  induction ks generalizing a with
  | nil => simp
  | cons k ks ih => simp [ih, add_assoc]

theorem foldl_aggregateStep_TakerBuyBase (ks : List KlineData) (a : KlineData) :
    (ks.foldl aggregateStep a).TakerBuyBase = a.TakerBuyBase + (ks.map (·.TakerBuyBase)).sum := by
  induction ks generalizing a with
  | nil => simp
  | cons k ks ih => simp [ih, add_assoc]

theorem foldl_aggregateStep_TakerBuyQuote (ks : List KlineData) (a : KlineData) :
    (ks.foldl aggregateStep a).TakerBuyQuote
      = a.TakerBuyQuote + (ks.map (·.TakerBuyQuote)).sum := by
  induction ks generalizing a with
  | nil => simp
  | cons k ks ih => simp [ih, add_assoc]

theorem foldl_aggregateStep_NumberOfTrades (ks : List KlineData) (k a : KlineData) :
    ((k :: ks).foldl aggregateStep a).NumberOfTrades
      = wrapInt64 (a.NumberOfTrades + ((k :: ks).map (·.NumberOfTrades)).sum) := by
  induction ks generalizing a k with
  | nil => simp
  | cons k2 ks ih =>
    have h := ih k2 (aggregateStep a k)
    simp only [List.foldl_cons] at h ⊢
    rw [h]
    simp only [aggregateStep_NumberOfTrades, List.map_cons, List.sum_cons]
    rw [wrapInt64_add_wrapInt64]
    congr 1
    ring

theorem foldl_aggregateStep_Open (ks : List KlineData) (a : KlineData) :
    (ks.foldl aggregateStep a).Open = a.Open := by
  induction ks generalizing a with
  | nil => simp
  | cons k ks ih => simp [ih]

theorem foldl_aggregateStep_Close (ks : List KlineData) (a : KlineData) :
    (ks.foldl aggregateStep a).Close = a.Close := by
  induction ks generalizing a with
  | nil => simp
  | cons k ks ih => simp [ih]

theorem foldl_aggregateStep_OpenTime (ks : List KlineData) (a : KlineData) :
    (ks.foldl aggregateStep a).OpenTime = a.OpenTime := by
  induction ks generalizing a with
  | nil => simp
  | cons k ks ih => simp [ih]

theorem foldl_aggregateStep_CloseTime (ks : List KlineData) (a : KlineData) :
    (ks.foldl aggregateStep a).CloseTime = a.CloseTime := by
  induction ks generalizing a with
  | nil => simp
  | cons k ks ih => simp [ih]

theorem foldl_aggregateStep_High_ge (ks : List KlineData) (a : KlineData) :
    a.High ≤ (ks.foldl aggregateStep a).High ∧ ∀ k ∈ ks, k.High ≤ (ks.foldl aggregateStep a).High := by
  induction ks generalizing a with
  | nil => simp
  | cons k ks ih =>
    obtain ⟨h1, h2⟩ := ih (aggregateStep a k)
    rw [aggregateStep_High] at h1
    refine ⟨le_trans (le_max_left _ _) h1, ?_⟩
    intro x hx
    rcases List.mem_cons.mp hx with rfl | hx
    · exact le_trans (le_max_right _ _) h1
    · exact h2 x hx

theorem foldl_aggregateStep_High_mem (ks : List KlineData) (a : KlineData) :
    (ks.foldl aggregateStep a).High = a.High ∨ ∃ k ∈ ks, (ks.foldl aggregateStep a).High = k.High := by
  induction ks generalizing a with
  | nil => simp
  | cons k ks ih =>
    rcases ih (aggregateStep a k) with h | ⟨x, hx, h⟩
    · rw [aggregateStep_High] at h
      rcases max_choice a.High k.High with hm | hm
      · left; simpa [hm] using h
      · right; exact ⟨k, List.mem_cons_self _ _, by simpa [hm] using h⟩
    · right; exact ⟨x, List.mem_cons_of_mem _ hx, h⟩

theorem foldl_aggregateStep_Low_le (ks : List KlineData) (a : KlineData) :
    (ks.foldl aggregateStep a).Low ≤ a.Low ∧ ∀ k ∈ ks, (ks.foldl aggregateStep a).Low ≤ k.Low := by
  induction ks generalizing a with
  | nil => simp
  | cons k ks ih =>
    obtain ⟨h1, h2⟩ := ih (aggregateStep a k)
    rw [aggregateStep_Low] at h1
    refine ⟨le_trans h1 (min_le_left _ _), ?_⟩
    intro x hx
    rcases List.mem_cons.mp hx with rfl | hx
    · exact le_trans h1 (min_le_right _ _)
    · exact h2 x hx

theorem foldl_aggregateStep_Low_mem (ks : List KlineData) (a : KlineData) :
    (ks.foldl aggregateStep a).Low = a.Low ∨ ∃ k ∈ ks, (ks.foldl aggregateStep a).Low = k.Low := by
  induction ks generalizing a with
  | nil => simp
  | cons k ks ih =>
    rcases ih (aggregateStep a k) with h | ⟨x, hx, h⟩
    · rw [aggregateStep_Low] at h
      rcases min_choice a.Low k.Low with hm | hm
      · left; simpa [hm] using h
      · right; exact ⟨k, List.mem_cons_self _ _, by simpa [hm] using h⟩
    · right; exact ⟨x, List.mem_cons_of_mem _ hx, h⟩

/-- A non-empty buffer reduces to exactly one bar, the loop result. -/
theorem aggregateKlines_of_ne_nil (klines : List KlineData) (h : klines ≠ []) :
    aggregateKlines klines
      = [klines.foldl aggregateStep (aggregateInit (klines.head h) (klines.getLast h))] := by
  cases klines with
  | nil => exact absurd rfl h
  | cons first rest => rfl

/-- The reduced volume is the first bar's volume plus the sum of all volumes: the
struct literal starts `Volume` at `klines[0].Volume` and the loop then adds every
bar, the first included. -/
theorem aggregateKlines_Volume (klines : List KlineData) (h : klines ≠ []) :
    (aggregateKlines klines).map (·.Volume)
      = [(klines.head h).Volume + (klines.map (·.Volume)).sum] := by
  rw [aggregateKlines_of_ne_nil klines h]
  simp [foldl_aggregateStep_Volume, aggregateInit]

/-! ## Reduction of a buffer (claims C1 to C3) -/

/-- C1 (code defect): on the design document's example buffer, whose volumes are
`[1,1,1]` and sum to 3, `aggregateKlines` returns one bar of volume 4, not 3: the
first bar's volume is counted twice. -/
theorem aggregateKlines_volume_counts_first_twice :
    (specBars.map (·.Volume)).sum = 3 ∧ (aggregateKlines specBars).map (·.Volume) = [4] := by
  constructor
  · norm_num [specBars, sampleBar]
  · rw [aggregateKlines_Volume specBars (by simp [specBars])]
    norm_num [specBars, sampleBar]

/-- C2: `aggregateKlines` returns no bar for an empty buffer, and for every
non-empty buffer exactly one bar whose open and openTime are the first bar's,
whose close and closeTime are the last bar's, whose high is the maximum of the
highs (it is one of them and no high exceeds it) and whose low is the minimum of
the lows. -/
theorem aggregateKlines_open_high_low_close :
    aggregateKlines [] = [] ∧
    ∀ (klines : List KlineData) (h : klines ≠ []), ∃ agg : KlineData,
      aggregateKlines klines = [agg] ∧
      agg.Open = (klines.head h).Open ∧
      agg.Close = (klines.getLast h).Close ∧
      ((∃ k ∈ klines, agg.High = k.High) ∧ ∀ k ∈ klines, k.High ≤ agg.High) ∧
      ((∃ k ∈ klines, agg.Low = k.Low) ∧ ∀ k ∈ klines, agg.Low ≤ k.Low) ∧
      agg.OpenTime = (klines.head h).OpenTime ∧
      agg.CloseTime = (klines.getLast h).CloseTime := by
  refine ⟨rfl, ?_⟩
  intro klines h
  refine ⟨_, aggregateKlines_of_ne_nil klines h, ?_, ?_, ⟨?_, ?_⟩, ⟨?_, ?_⟩, ?_, ?_⟩
  · rw [foldl_aggregateStep_Open]; rfl
  · rw [foldl_aggregateStep_Close]; rfl
  · rcases foldl_aggregateStep_High_mem klines
        (aggregateInit (klines.head h) (klines.getLast h)) with hm | hm
    · exact ⟨klines.head h, List.head_mem h, hm⟩
    · exact hm
  · exact (foldl_aggregateStep_High_ge klines _).2
  · rcases foldl_aggregateStep_Low_mem klines
        (aggregateInit (klines.head h) (klines.getLast h)) with hm | hm
    · exact ⟨klines.head h, List.head_mem h, hm⟩
    · exact hm
  · exact (foldl_aggregateStep_Low_le klines _).2
  · rw [foldl_aggregateStep_OpenTime]; rfl
  · rw [foldl_aggregateStep_CloseTime]; rfl

/-- C2 at the design document's example: one bar with open 5 (first), close 8
(last), high 12 and low 1/2. -/
theorem aggregateKlines_open_high_low_close_witness :
    specBars ≠ [] ∧ ∃ agg : KlineData, aggregateKlines specBars = [agg] ∧
      agg.Open = 5 ∧ agg.Close = 8 ∧ agg.High = 12 ∧ agg.Low = 1 / 2 := by
  have hne : specBars ≠ [] := by simp [specBars]
  obtain ⟨agg, hagg, ho, hc, ⟨-, hhi⟩, ⟨-, hlo⟩, -, -⟩ :=
    aggregateKlines_open_high_low_close.2 specBars hne
  refine ⟨hne, agg, hagg, ?_, ?_, ?_, ?_⟩
  · rw [ho]; simp [specBars, sampleBar]
  · rw [hc]; simp [specBars, sampleBar]
  · have h := aggregateKlines_of_ne_nil specBars hne
    rw [hagg] at h
    rw [List.cons.inj h |>.1]
    norm_num [specBars, sampleBar, aggregateStep, aggregateInit]
  · have h := aggregateKlines_of_ne_nil specBars hne
    rw [hagg] at h
    rw [List.cons.inj h |>.1]
    norm_num [specBars, sampleBar, aggregateStep, aggregateInit]

/-- C3 as stated fails on the code: for two bars with trade counts 2^63 - 1 and 1,
both `int64` values, the sum of the trade counts is 2^63, and the reduced bar has
trade count -2^63, because the `int64` addition of the loop wraps. -/
theorem aggregateKlines_tradeCount_wraps :
    overflowBars ≠ [] ∧
    overflowBars.map (·.NumberOfTrades) = [2 ^ 63 - 1, 1] ∧
    (overflowBars.map (·.NumberOfTrades)).sum = 2 ^ 63 ∧
    (aggregateKlines overflowBars).map (·.NumberOfTrades) = [-(2 ^ 63)] := by
  decide!

/-- C3, amended: for every non-empty buffer the reduced bar's quoteVolume,
takerBuyBase and takerBuyQuote are the sums of those fields over the buffer, and its
tradeCount is the `int64` sum of the trade counts, that is the sum wrapped to 64
bits, which is the exact sum whenever that sum is an `int64` value. -/
theorem aggregateKlines_sums (klines : List KlineData) (h : klines ≠ []) :
    ∃ agg : KlineData, aggregateKlines klines = [agg] ∧
      agg.QuoteAssetVolume = (klines.map (·.QuoteAssetVolume)).sum ∧
      agg.NumberOfTrades = wrapInt64 (klines.map (·.NumberOfTrades)).sum ∧
      (-(2 ^ 63) ≤ (klines.map (·.NumberOfTrades)).sum →
        (klines.map (·.NumberOfTrades)).sum < 2 ^ 63 →
        agg.NumberOfTrades = (klines.map (·.NumberOfTrades)).sum) ∧
      agg.TakerBuyBase = (klines.map (·.TakerBuyBase)).sum ∧
      agg.TakerBuyQuote = (klines.map (·.TakerBuyQuote)).sum := by
  have hN : (klines.foldl aggregateStep
      (aggregateInit (klines.head h) (klines.getLast h))).NumberOfTrades
      = wrapInt64 (klines.map (·.NumberOfTrades)).sum := by
    cases klines with
    | nil => exact absurd rfl h
    | cons k ks =>
      rw [foldl_aggregateStep_NumberOfTrades]
      simp [aggregateInit]
  refine ⟨_, aggregateKlines_of_ne_nil klines h, ?_, hN, ?_, ?_, ?_⟩
  · rw [foldl_aggregateStep_QuoteAssetVolume]; simp [aggregateInit]
  · intro hlo hhi
    rw [hN, wrapInt64_of_fits _ hlo hhi]
  · rw [foldl_aggregateStep_TakerBuyBase]; simp [aggregateInit]
  · rw [foldl_aggregateStep_TakerBuyQuote]; simp [aggregateInit]

/-- C3, amended, on two bars with quote volumes 3/2 and 5/2 and trade counts 7 and
8: the reduced bar has quote volume 4 and trade count 15. -/
theorem aggregateKlines_sums_witness :
    tradeBars ≠ [] ∧ ∃ agg : KlineData, aggregateKlines tradeBars = [agg] ∧
      agg.QuoteAssetVolume = 4 ∧ agg.NumberOfTrades = 15 ∧
      agg.TakerBuyBase = 3 ∧ agg.TakerBuyQuote = 7 := by
  have hne : tradeBars ≠ [] := by simp [tradeBars]
  obtain ⟨agg, hagg, hq, hn, -, hb, hbq⟩ := aggregateKlines_sums tradeBars hne
  refine ⟨hne, agg, hagg, ?_, ?_, ?_, ?_⟩
  · rw [hq]; norm_num [tradeBars]
  · rw [hn]; norm_num [tradeBars, wrapInt64]
  · rw [hb]; norm_num [tradeBars]
  · rw [hbq]; norm_num [tradeBars]

/-! ## Flushing (claims C4 to C6) -/

theorem WriteAggregatedData_sink (w : Writer) (exec : Executor) (symbol timeframe : String)
    (data : List KlineData) (σ : World) :
    (w.WriteAggregatedData exec symbol timeframe data σ).2.sink
      = σ.sink ++ [SinkCall.aggregated symbol timeframe data] := by
  unfold Writer.WriteAggregatedData
  simp only []
  split_ifs
  · rfl
  · rfl
  · split <;> rfl

theorem WriteAggregatedData_writes (w : Writer) (exec : Executor) (symbol timeframe : String)
    (data : List KlineData) (σ : World) :
    ∃ ws : List CSMWrite, ws.length ≤ 1 ∧
      (w.WriteAggregatedData exec symbol timeframe data σ).2.writes = σ.writes ++ ws := by
  unfold Writer.WriteAggregatedData
  simp only []
  split_ifs
  · exact ⟨[], by simp, by simp⟩
  · exact ⟨[], by simp, by simp⟩
  · split
    · exact ⟨[_], by simp, rfl⟩
    · exact ⟨[_], by simp, rfl⟩

theorem WriteAggregatedData_errors (w : Writer) (exec : Executor) (symbol timeframe : String)
    (data : List KlineData) (σ : World) :
    (w.WriteAggregatedData exec symbol timeframe data σ).2.errors = σ.errors := by
  unfold Writer.WriteAggregatedData
  simp only []
  split_ifs
  · rfl
  · rfl
  · split <;> rfl

theorem flush_of_empty (a : DataAggregator) (w : Writer) (exec : Executor) (σ : World)
    (h : a.buffer = []) : a.flush w exec σ = (a, σ) := by
  unfold DataAggregator.flush
  simp [h]

theorem flush_fst (a : DataAggregator) (w : Writer) (exec : Executor) (σ : World) :
    (a.flush w exec σ).1 = { a with buffer := [] } := by
  unfold DataAggregator.flush
  by_cases h : a.buffer.length = 0
  · have hb : a.buffer = [] := List.length_eq_zero.mp h
    rw [if_pos h]
    cases a
    simp_all
  · rw [if_neg h]

theorem flush_sink_of_ne_nil (a : DataAggregator) (w : Writer) (exec : Executor) (σ : World)
    (h : a.buffer ≠ []) :
    (a.flush w exec σ).2.sink
      = σ.sink ++ [SinkCall.aggregated a.symbol a.timeframe (aggregateKlines a.buffer)] := by
  unfold DataAggregator.flush
  have hl : ¬ a.buffer.length = 0 := fun hl => h (List.length_eq_zero.mp hl)
  rw [if_neg hl]
  have hs := WriteAggregatedData_sink w exec a.symbol a.timeframe (aggregateKlines a.buffer) σ
  simp only []
  split <;> simpa using hs

theorem aggregateData_config (r : Realtime) (exec : Executor) (symbol : String) (kline : KlineData)
    (σ : World) :
    (r.aggregateData exec symbol kline σ).1.config = r.config ∧
      (r.aggregateData exec symbol kline σ).1.writer = r.writer := by
  unfold Realtime.aggregateData
  simp

/-- Below the threshold `aggregateData` only appends the bar. -/
theorem aggregateData_below (r : Realtime) (exec : Executor) (symbol : String) (kline : KlineData)
    (σ : World) (buf : List KlineData) (hb : r.HoldsBuffer symbol buf)
    (hlt : ((buf.length + 1 : Nat) : Int) < r.config.BufferSize) :
    (r.aggregateData exec symbol kline σ).2 = σ ∧
      (r.aggregateData exec symbol kline σ).1.HoldsBuffer symbol (buf ++ [kline]) := by
  have hcfg := (aggregateData_config r exec symbol kline σ).1
  unfold Realtime.HoldsBuffer at hb ⊢
  rw [hcfg]
  unfold Realtime.key at hb ⊢
  rw [hcfg]
  unfold Realtime.aggregateData Realtime.key
  rcases hb with hb | ⟨rfl, hb⟩
  · simp only [hb]
    have hn : ¬ r.config.BufferSize ≤ (buf.length : Int) + 1 := by push_cast at hlt; omega
    simp [hn]
  · simp only [hb]
    have hn : ¬ r.config.BufferSize ≤ 1 := by simp at hlt; omega
    simp [hn]

/-- At the threshold `aggregateData` forwards the reduction of the whole buffer,
the new bar included, and leaves the buffer empty. -/
theorem aggregateData_at (r : Realtime) (exec : Executor) (symbol : String) (kline : KlineData)
    (σ : World) (buf : List KlineData) (hb : r.HoldsBuffer symbol buf)
    (hge : r.config.BufferSize ≤ ((buf.length + 1 : Nat) : Int)) :
    (r.aggregateData exec symbol kline σ).2.sink
        = σ.sink ++ [SinkCall.aggregated symbol r.config.UpdateFreq
            (aggregateKlines (buf ++ [kline]))] ∧
      (r.aggregateData exec symbol kline σ).1.HoldsBuffer symbol [] := by
  have hcfg := (aggregateData_config r exec symbol kline σ).1
  unfold Realtime.HoldsBuffer at hb ⊢
  rw [hcfg]
  unfold Realtime.key at hb ⊢
  rw [hcfg]
  unfold Realtime.aggregateData Realtime.key
  rcases hb with hb | ⟨rfl, hb⟩
  · simp only [hb]
    have hn : (((buf ++ [kline]).length : Nat) : Int) ≥ r.config.BufferSize := by
      simp only [List.length_append, List.length_singleton]; omega
    rw [if_pos hn]
    constructor
    · rw [flush_sink_of_ne_nil _ _ _ _ (by simp)]
    · left; simp [flush_fst]
  · simp only [hb]
    have hn : ((([] ++ [kline] : List KlineData).length : Nat) : Int) ≥ r.config.BufferSize := by
      simp only [List.length_append, List.length_singleton]; omega
    rw [if_pos hn]
    constructor
    · rw [flush_sink_of_ne_nil _ _ _ _ (by simp)]
    · left; simp [flush_fst]

theorem ingestAll_append (r : Realtime) (exec : Executor) (symbol : String)
    (xs ys : List KlineData) (σ : World) :
    r.ingestAll exec symbol (xs ++ ys) σ
      = (r.ingestAll exec symbol xs σ).1.ingestAll exec symbol ys (r.ingestAll exec symbol xs σ).2 := by
  induction xs generalizing r σ with
  | nil => rfl
  | cons x xs ih => simp only [List.cons_append, Realtime.ingestAll]; exact ih _ _

theorem ingestAll_config (r : Realtime) (exec : Executor) (symbol : String)
    (xs : List KlineData) (σ : World) : (r.ingestAll exec symbol xs σ).1.config = r.config := by
  induction xs generalizing r σ with
  | nil => rfl
  | cons x xs ih =>
    simp only [Realtime.ingestAll]
    rw [ih, (aggregateData_config r exec symbol x σ).1]

/-- While the buffer stays below the threshold, ingesting bars changes nothing in
the world and accumulates the bars in arrival order. -/
theorem ingestAll_below (r : Realtime) (exec : Executor) (symbol : String) (xs : List KlineData)
    (σ : World) (buf : List KlineData) (hb : r.HoldsBuffer symbol buf)
    (hlt : ((buf.length + xs.length : Nat) : Int) < r.config.BufferSize) :
    (r.ingestAll exec symbol xs σ).2 = σ ∧
      (r.ingestAll exec symbol xs σ).1.HoldsBuffer symbol (buf ++ xs) := by
  induction xs generalizing r σ buf with
  | nil => simpa [Realtime.ingestAll] using hb
  | cons x xs ih =>
    simp only [List.length_cons] at hlt
    obtain ⟨h1, h2⟩ := aggregateData_below r exec symbol x σ buf hb (by push_cast at hlt ⊢; omega)
    have hc := (aggregateData_config r exec symbol x σ).1
    have := ih (r.aggregateData exec symbol x σ).1 (r.aggregateData exec symbol x σ).2 (buf ++ [x]) h2
      (by rw [hc]; simp only [List.length_append, List.length_singleton]; push_cast at hlt ⊢; omega)
    simp only [Realtime.ingestAll]
    rw [h1] at this ⊢
    simpa using this

theorem bufferOf_of_HoldsBuffer (r : Realtime) (symbol : String) (buf : List KlineData)
    (hb : r.HoldsBuffer symbol buf) : r.bufferOf symbol = buf := by
  unfold Realtime.bufferOf
  rcases hb with hb | ⟨rfl, hb⟩ <;> simp [hb]

/-- C4: with buffer size `n ≥ 1` and a buffer that starts empty, ingesting `n` bars
of a symbol one at a time through `aggregateData` leaves the world untouched
(nothing reaches the Sink) after each of the first `n - 1` bars, which accumulate in
arrival order; the `n`-th bar forwards exactly one batch to the Sink, the single
bar that `aggregateKlines` computes from those `n` bars in arrival order, and the
buffer is empty afterwards. -/
theorem aggregateData_count_based_flush (r : Realtime) (exec : Executor) (symbol : String)
    (bars : List KlineData) (σ : World) (n : Nat) (hn : 1 ≤ n)
    (hsize : r.config.BufferSize = (n : Int)) (hlen : bars.length = n)
    (hempty : r.HoldsBuffer symbol []) :
    (∀ k, k < n →
      (r.ingestAll exec symbol (bars.take k) σ).2 = σ ∧
      (r.ingestAll exec symbol (bars.take k) σ).1.bufferOf symbol = bars.take k) ∧
    (∃ agg : KlineData, aggregateKlines bars = [agg] ∧
      (r.ingestAll exec symbol bars σ).2.sink
        = σ.sink ++ [SinkCall.aggregated symbol r.config.UpdateFreq [agg]]) ∧
    (r.ingestAll exec symbol bars σ).1.bufferOf symbol = [] := by
  have hne : bars ≠ [] := by
    intro h; rw [h] at hlen; simp at hlen; omega
  have hbelow : ∀ xs : List KlineData, xs.length < n →
      (r.ingestAll exec symbol xs σ).2 = σ ∧
      (r.ingestAll exec symbol xs σ).1.HoldsBuffer symbol xs := by
    intro xs hxs
    have := ingestAll_below r exec symbol xs σ [] hempty
      (by rw [hsize]; simp only [List.length_nil]; push_cast; omega)
    simpa using this
  have hsplit : bars = bars.dropLast ++ [bars.getLast hne] := (List.dropLast_append_getLast hne).symm
  have hd : bars.dropLast.length < n := by simp [List.length_dropLast, hlen]; omega
  obtain ⟨hw, hh⟩ := hbelow bars.dropLast hd
  have hlast : r.ingestAll exec symbol bars σ
      = (r.ingestAll exec symbol bars.dropLast σ).1.aggregateData exec symbol (bars.getLast hne) σ := by
    conv_lhs => rw [hsplit]
    rw [ingestAll_append, hw]
    rfl
  have hat := aggregateData_at (r.ingestAll exec symbol bars.dropLast σ).1 exec symbol
    (bars.getLast hne) σ bars.dropLast hh
    (by rw [ingestAll_config, hsize]; simp only [List.length_dropLast, hlen]; push_cast; omega)
  rw [← hlast, ← hsplit, ingestAll_config] at hat
  refine ⟨?_, ?_, ?_⟩
  · intro k hk
    have hk2 : (bars.take k).length < n := by simp [List.length_take, hlen]; omega
    obtain ⟨h1, h2⟩ := hbelow (bars.take k) hk2
    exact ⟨h1, bufferOf_of_HoldsBuffer _ _ _ h2⟩
  · exact ⟨_, aggregateKlines_of_ne_nil bars hne, by rw [hat.1, aggregateKlines_of_ne_nil bars hne]⟩
  · exact bufferOf_of_HoldsBuffer _ _ _ hat.2

/-- C4 with buffer size 3 and the design document's three bars: nothing is
forwarded after zero, one or two bars, and the third bar forwards one batch of one
bar for "BTCUSDT" at cadence "1m" and empties the buffer. -/
theorem aggregateData_count_based_flush_witness :
    (∀ k, k < 3 →
      ((sampleRealtime 3).ingestAll execOk "BTCUSDT" (specBars.take k) World.empty).2
        = World.empty) ∧
    (∃ agg : KlineData, aggregateKlines specBars = [agg] ∧
      ((sampleRealtime 3).ingestAll execOk "BTCUSDT" specBars World.empty).2.sink
        = [SinkCall.aggregated "BTCUSDT" "1m" [agg]]) ∧
    ((sampleRealtime 3).ingestAll execOk "BTCUSDT" specBars World.empty).1.bufferOf "BTCUSDT"
      = [] := by
  have h := aggregateData_count_based_flush (sampleRealtime 3) execOk "BTCUSDT" specBars
    World.empty 3 (by decide) rfl rfl (Or.inr ⟨rfl, rfl⟩)
  exact ⟨fun k hk => (h.1 k hk).1, h.2.1, h.2.2⟩

/-- C5: `flush` on an empty buffer changes neither the aggregator nor the world
(nothing is forwarded to the Sink, the buffer stays empty), and for every buffer a
second `flush` right after the first changes nothing more. -/
theorem flush_empty_noop (a : DataAggregator) (w : Writer) (exec : Executor) (σ : World) :
    (a.buffer = [] → a.flush w exec σ = (a, σ)) ∧
    (a.flush w exec σ).1.flush w exec (a.flush w exec σ).2 = a.flush w exec σ := by
  refine ⟨flush_of_empty a w exec σ, ?_⟩
  exact flush_of_empty _ w exec _ (by rw [flush_fst])

/-- C5 on an aggregator with an empty buffer and a world that already holds one
forwarded batch: the flush returns both unchanged. -/
theorem flush_empty_noop_witness :
    (DataAggregator.mk "BTCUSDT" "1m" []).flush sampleWriter execFail
        { sink := [SinkCall.klines "BTCUSDT" specBars], writes := [], errors := [] }
      = (DataAggregator.mk "BTCUSDT" "1m" [],
          { sink := [SinkCall.klines "BTCUSDT" specBars], writes := [], errors := [] }) :=
  (flush_empty_noop (DataAggregator.mk "BTCUSDT" "1m" []) sampleWriter execFail
    { sink := [SinkCall.klines "BTCUSDT" specBars], writes := [], errors := [] }).1 rfl

/-- C6: for every buffer, writer and storage engine, whether the write succeeds or
fails, the buffer is empty after `flush`; the reduced bar is forwarded at most once
and reaches the storage engine at most once (no retry), and a non-empty buffer
whose write fails adds exactly one line to the error log. -/
theorem flush_clears_buffer (a : DataAggregator) (w : Writer) (exec : Executor) (σ : World) :
    (a.flush w exec σ).1.buffer = [] ∧
    (∃ calls : List SinkCall, calls.length ≤ 1 ∧ (a.flush w exec σ).2.sink = σ.sink ++ calls) ∧
    (∃ ws : List CSMWrite, ws.length ≤ 1 ∧ (a.flush w exec σ).2.writes = σ.writes ++ ws) ∧
    (∃ lines : List String, lines.length ≤ 1 ∧ (a.flush w exec σ).2.errors = σ.errors ++ lines ∧
      (lines.length = 1 ↔ a.buffer ≠ [] ∧
        (w.WriteAggregatedData exec a.symbol a.timeframe (aggregateKlines a.buffer) σ).1 ≠ none))
    := by
  refine ⟨by rw [flush_fst], ?_, ?_, ?_⟩
  · by_cases h : a.buffer = []
    · exact ⟨[], by simp, by rw [flush_of_empty a w exec σ h]; simp⟩
    · exact ⟨[_], by simp, flush_sink_of_ne_nil a w exec σ h⟩
  · by_cases h : a.buffer = []
    · exact ⟨[], by simp, by rw [flush_of_empty a w exec σ h]; simp⟩
    · obtain ⟨ws, hws, hw⟩ :=
        WriteAggregatedData_writes w exec a.symbol a.timeframe (aggregateKlines a.buffer) σ
      refine ⟨ws, hws, ?_⟩
      unfold DataAggregator.flush
      rw [if_neg (fun hl => h (List.length_eq_zero.mp hl))]
      simp only []
      split <;> simpa using hw
  · by_cases h : a.buffer = []
    · exact ⟨[], by simp, by rw [flush_of_empty a w exec σ h]; simp, by simp [h]⟩
    · have he := WriteAggregatedData_errors w exec a.symbol a.timeframe (aggregateKlines a.buffer) σ
      unfold DataAggregator.flush
      rw [if_neg (fun hl => h (List.length_eq_zero.mp hl))]
      simp only []
      split
      · rename_i e heq
        exact ⟨["Failed to write aggregated data for " ++ a.symbol ++ "/" ++ a.timeframe ++ ": " ++ e],
          by simp, by simp [he], by simp [h, heq]⟩
      · rename_i heq
        exact ⟨[], by simp, by simp [he], by simp [h, heq]⟩

/-! ## Symbol manager (claims C7 to C10) -/

theorem foldl_excludeMap (S : Strings) (l : List String) (init : String → Bool) (key : String) :
    l.foldl (fun excludeMap symbol => fun key =>
        if key = S.ToUpper symbol then true else excludeMap key) init key = true
      ↔ init key = true ∨ key ∈ l.map S.ToUpper := by
  induction l generalizing init with
  | nil => simp
  | cons x xs ih =>
    rw [List.foldl_cons, ih]
    by_cases h : key = S.ToUpper x
    · simp [h]
    · simp [h]

theorem excludeMap_eq_true (S : Strings) (m : Manager) (key : String) :
    m.excludeMap S key = true ↔ key ∈ m.excludeSymbols.map S.ToUpper := by
  unfold Manager.excludeMap
  rw [foldl_excludeMap]
  simp

theorem foldl_append_if {α : Type} (p : α → Bool) (l init : List α) :
    l.foldl (fun acc x => if p x then acc ++ [x] else acc) init = init ++ l.filter p := by
  induction l generalizing init with
  | nil => simp
  | cons x xs ih =>
    rw [List.foldl_cons, ih]
    by_cases h : p x <;> simp [h, List.filter_cons]

/-- The loop of `filterSymbols` is a filter: it keeps, in order, the symbols whose
upper-cased form is not the upper-cased form of an exclude entry. -/
theorem filterSymbols_eq_filter (S : Strings) (m : Manager) (symbols : List String) :
    m.filterSymbols S symbols
      = symbols.filter (fun s => decide (∀ e ∈ m.excludeSymbols, S.ToUpper s ≠ S.ToUpper e)) := by
  unfold Manager.filterSymbols
  by_cases h : m.excludeSymbols.length = 0
  · rw [if_pos h]
    have he : m.excludeSymbols = [] := List.length_eq_zero.mp h
    simp [he]
  · rw [if_neg h, foldl_append_if (fun symbol => !(m.excludeMap S (S.ToUpper symbol)))]
    simp only [List.nil_append]
    apply List.filter_congr
    intro s _
    have hm := excludeMap_eq_true S m (S.ToUpper s)
    by_cases hx : m.excludeMap S (S.ToUpper s) = true
    · have := hm.mp hx
      simp only [List.mem_map] at this
      obtain ⟨e, he, heq⟩ := this
      simp only [hx, Bool.not_true]
      symm
      rw [decide_eq_false_iff_not]
      intro hall
      exact hall e he heq.symm
    · have hx2 : m.excludeMap S (S.ToUpper s) = false := by simpa using hx
      simp only [hx2, Bool.not_false]
      symm
      rw [decide_eq_true_iff]
      intro e he heq
      exact hx (hm.mpr (List.mem_map.mpr ⟨e, he, heq.symm⟩))

theorem foldl_append_map_if {α β : Type} (p : α → Bool) (f : α → β) (l : List α)
    (init : List β) :
    l.foldl (fun acc x => if p x then acc ++ [f x] else acc) init
      = init ++ (l.filter p).map f := by
  induction l generalizing init with
  | nil => simp
  | cons x xs ih =>
    rw [List.foldl_cons, ih]
    by_cases h : p x <;> simp [h, List.filter_cons]

theorem filterSymbols_of_no_excludes (S : Strings) (m : Manager) (symbols : List String)
    (h : m.excludeSymbols = []) : m.filterSymbols S symbols = symbols := by
  unfold Manager.filterSymbols
  simp [h]

/-- C7: `GetAllSymbols` returns the include list filtered by the exclude set when
the include list is non-empty, and the cached catalog filtered by the exclude set
otherwise; a non-empty include list all of whose entries are excluded gives the
empty list, whatever the catalog holds. -/
theorem GetAllSymbols_working_set (S : Strings) (m : Manager) :
    (m.symbols ≠ [] → m.GetAllSymbols S
      = m.symbols.filter (fun s => decide (∀ e ∈ m.excludeSymbols, S.ToUpper s ≠ S.ToUpper e))) ∧
    (m.symbols = [] → m.GetAllSymbols S
      = m.allSymbols.filter (fun s => decide (∀ e ∈ m.excludeSymbols, S.ToUpper s ≠ S.ToUpper e))) ∧
    (m.symbols ≠ [] → (∀ s ∈ m.symbols, ∃ e ∈ m.excludeSymbols, S.ToUpper s = S.ToUpper e) →
      m.GetAllSymbols S = []) := by
  have hpos : m.symbols ≠ [] → m.GetAllSymbols S = m.filterSymbols S m.symbols := by
    intro h
    unfold Manager.GetAllSymbols
    rw [if_pos (List.length_pos.mpr h)]
  refine ⟨?_, ?_, ?_⟩
  · intro h
    rw [hpos h, filterSymbols_eq_filter]
  · intro h
    unfold Manager.GetAllSymbols
    rw [if_neg (by simp [h]), filterSymbols_eq_filter]
  · intro h hall
    rw [hpos h, filterSymbols_eq_filter, List.filter_eq_nil_iff]
    intro s hs
    obtain ⟨e, he, heq⟩ := hall s hs
    simp only [decide_eq_true_eq, not_forall]
    exact ⟨e, he, fun hne => hne heq⟩

/-- C7 on the design document's example (includes BTCUSDT and ETHUSDT, excludes
ETHUSDT: exactly BTCUSDT), and on an include list that is entirely excluded while
the catalog is not empty: the empty list. -/
theorem GetAllSymbols_working_set_witness :
    specManager.GetAllSymbols goStrings = ["BTCUSDT"] ∧
    shadowedManager.GetAllSymbols goStrings = [] := by
  constructor
  · rw [(GetAllSymbols_working_set goStrings specManager).1 (by decide)]
    decide
  · exact (GetAllSymbols_working_set goStrings shadowedManager).2.2 (by decide) (by decide)

/-- C8: `filterSymbols` returns exactly the input symbols whose upper-cased form
differs from the upper-cased form of every exclude entry, in their original order
and spelling (the result is a sublist of the input), and no returned symbol has
the same upper-cased form as an exclude entry. -/
theorem filterSymbols_case_insensitive (S : Strings) (m : Manager) (symbols : List String) :
    m.filterSymbols S symbols
      = symbols.filter (fun s => decide (∀ e ∈ m.excludeSymbols, S.ToUpper s ≠ S.ToUpper e)) ∧
    (m.filterSymbols S symbols).Sublist symbols ∧
    ∀ r ∈ m.filterSymbols S symbols, ∀ e ∈ m.excludeSymbols, S.ToUpper r ≠ S.ToUpper e := by
  refine ⟨filterSymbols_eq_filter S m symbols, ?_, ?_⟩
  · rw [filterSymbols_eq_filter]
    exact List.filter_sublist _
  · intro r hr
    rw [filterSymbols_eq_filter, List.mem_filter] at hr
    simpa using hr.2

/-- C9: when the catalog request succeeds, `LoadAllSymbols` returns no error and
caches exactly the symbols of the catalog entries whose status is "TRADING" and
whose spot-trading flag is set, in catalog order, leaving includes and excludes
alone; with empty includes and excludes `GetAllSymbols` then returns that
sequence. -/
theorem LoadAllSymbols_caches_trading_spot (S : Strings) (m : Manager) (client : Client)
    (info : ExchangeInfo) (hclient : m.apiClient = some client)
    (hinfo : client.GetExchangeInfo = .ok info) :
    m.LoadAllSymbols.1 = none ∧
    m.LoadAllSymbols.2.allSymbols
      = (info.Symbols.filter
          (fun s => decide (s.Status = "TRADING") && s.IsSpotTradingAllowed)).map (·.Symbol) ∧
    m.LoadAllSymbols.2.symbols = m.symbols ∧
    m.LoadAllSymbols.2.excludeSymbols = m.excludeSymbols ∧
    (m.symbols = [] → m.excludeSymbols = [] →
      m.LoadAllSymbols.2.GetAllSymbols S
        = (info.Symbols.filter
            (fun s => decide (s.Status = "TRADING") && s.IsSpotTradingAllowed)).map (·.Symbol)) := by
  have hload : m.LoadAllSymbols = (none, { m with allSymbols := (info.Symbols.filter
      (fun s => decide (s.Status = "TRADING") && s.IsSpotTradingAllowed)).map (·.Symbol) }) := by
    unfold Manager.LoadAllSymbols
    rw [hclient]
    simp only [hinfo]
    have hf := foldl_append_map_if
      (fun s : SymbolInfo => decide (s.Status = "TRADING") && s.IsSpotTradingAllowed)
      (fun s : SymbolInfo => s.Symbol) info.Symbols []
    simp only [List.nil_append] at hf
    rw [hf]
  rw [hload]
  refine ⟨rfl, rfl, rfl, rfl, ?_⟩
  intro hs he
  unfold Manager.GetAllSymbols
  simp only [hs, List.length_nil, gt_iff_lt, lt_self_iff_false, if_false]
  exact filterSymbols_of_no_excludes S _ _ he

/-- C9 on the design document's catalog `[{BTCUSDT,TRADING,true},{FOOBAR,BREAK,true}]`
with empty includes and excludes: the load succeeds, the cache and the working set
are exactly `[BTCUSDT]`. -/
theorem LoadAllSymbols_caches_trading_spot_witness :
    catalogManager.LoadAllSymbols.1 = none ∧
    catalogManager.LoadAllSymbols.2.allSymbols = ["BTCUSDT"] ∧
    catalogManager.LoadAllSymbols.2.GetAllSymbols goStrings = ["BTCUSDT"] := by
  have h := LoadAllSymbols_caches_trading_spot goStrings catalogManager specClient specCatalog
    rfl rfl
  refine ⟨h.1, ?_, ?_⟩
  · rw [h.2.1]; decide
  · rw [h.2.2.2.2 rfl rfl]; decide

theorem addFolded_of_mem (S : Strings) (list : List String) (s : String)
    (h : ∃ e ∈ list, S.EqualFold e s = true) : addFolded S list s = list := by
  unfold addFolded
  rw [if_pos (List.any_eq_true.mpr h)]

theorem addFolded_of_not_mem (S : Strings) (list : List String) (s : String)
    (h : ∀ e ∈ list, S.EqualFold e s = false) : addFolded S list s = list ++ [S.ToUpper s] := by
  unfold addFolded
  rw [if_neg]
  intro hany
  obtain ⟨e, he, heq⟩ := List.any_eq_true.mp hany
  rw [h e he] at heq
  exact Bool.false_ne_true heq

theorem addFolded_twice (S : Strings) (list : List String) (s : String)
    (h : S.EqualFold (S.ToUpper s) s = true) :
    addFolded S (addFolded S list s) s = addFolded S list s := by
  by_cases hany : list.any (fun e => S.EqualFold e s) = true
  · have h1 : addFolded S list s = list := by unfold addFolded; rw [if_pos hany]
    rw [h1, h1]
  · have h1 : addFolded S list s = list ++ [S.ToUpper s] := by unfold addFolded; rw [if_neg hany]
    rw [h1]
    exact addFolded_of_mem S _ s ⟨S.ToUpper s, by simp, h⟩

/-- On ASCII runes Go's upper-casing and case folding agree: a rune matches its own
upper case. -/
theorem runeEqualFold_unicodeToUpper_ascii :
    ∀ n : Fin 128, runeEqualFold (unicodeToUpper (Char.ofNat n)) (Char.ofNat n) = true := by
  decide

theorem equalFoldRunes_map_unicodeToUpper (l : List Char) (h : ∀ c ∈ l, c.toNat < 128) :
    equalFoldRunes (l.map unicodeToUpper) l = true := by
  induction l with
  | nil => rfl
  | cons c cs ih =>
    have hc : c.toNat < 128 := h c (List.mem_cons_self _ _)
    have hr := runeEqualFold_unicodeToUpper_ascii ⟨c.toNat, hc⟩
    simp only [Char.ofNat_toNat] at hr
    simp only [List.map_cons, equalFoldRunes, hr, Bool.true_and]
    exact ih (fun x hx => h x (List.mem_cons_of_mem _ hx))

/-- Every ASCII string matches its own upper-cased form under Go's `EqualFold`. -/
theorem goStrings_EqualFold_ToUpper_ascii (s : String) (h : ∀ c ∈ s.data, c.toNat < 128) :
    goStrings.EqualFold (goStrings.ToUpper s) s = true :=
  equalFoldRunes_map_unicodeToUpper s.data h

/-- C10 as stated fails on the code: adding U+0131 (dotless i) to an empty include
list appends its upper case "I", and adding it again appends "I" once more, because
`strings.EqualFold("I", "ı")` is false; the exclude list behaves the same. -/
theorem AddSymbol_twice_differs_on_dotlessI :
    ((NewManager [] []).AddSymbol goStrings dotlessI).symbols = ["I"] ∧
    (((NewManager [] []).AddSymbol goStrings dotlessI).AddSymbol goStrings dotlessI).symbols
      = ["I", "I"] ∧
    ((NewManager [] []).AddExcludeSymbol goStrings dotlessI).excludeSymbols = ["I"] ∧
    (((NewManager [] []).AddExcludeSymbol goStrings dotlessI).AddExcludeSymbol goStrings
      dotlessI).excludeSymbols = ["I", "I"] := by
  decide

/-- C10, amended: for `AddSymbol` on the include list and `AddExcludeSymbol` on the
exclude list alike, if the list already holds an entry equal to `s` under
`strings.EqualFold` the manager is unchanged; otherwise exactly one entry, the
upper-cased `s`, is appended at the end of that list and nothing else changes; and
whenever the upper-cased `s` equals `s` under `strings.EqualFold` (as for every
ASCII `s`), adding `s` twice gives the same manager as adding it once. -/
theorem AddSymbol_idempotent_normalising (S : Strings) (m : Manager) (s : String) :
    ((∃ e ∈ m.symbols, S.EqualFold e s = true) → m.AddSymbol S s = m) ∧
    ((∀ e ∈ m.symbols, S.EqualFold e s = false) →
      m.AddSymbol S s = { m with symbols := m.symbols ++ [S.ToUpper s] }) ∧
    ((∃ e ∈ m.excludeSymbols, S.EqualFold e s = true) → m.AddExcludeSymbol S s = m) ∧
    ((∀ e ∈ m.excludeSymbols, S.EqualFold e s = false) →
      m.AddExcludeSymbol S s = { m with excludeSymbols := m.excludeSymbols ++ [S.ToUpper s] }) ∧
    (S.EqualFold (S.ToUpper s) s = true →
      (m.AddSymbol S s).AddSymbol S s = m.AddSymbol S s ∧
      (m.AddExcludeSymbol S s).AddExcludeSymbol S s = m.AddExcludeSymbol S s) := by
  refine ⟨?_, ?_, ?_, ?_, ?_⟩
  · intro h
    unfold Manager.AddSymbol
    rw [addFolded_of_mem S _ s h]
  · intro h
    unfold Manager.AddSymbol
    rw [addFolded_of_not_mem S _ s h]
  · intro h
    unfold Manager.AddExcludeSymbol
    rw [addFolded_of_mem S _ s h]
  · intro h
    unfold Manager.AddExcludeSymbol
    rw [addFolded_of_not_mem S _ s h]
  · intro h
    constructor
    · unfold Manager.AddSymbol
      simp only [addFolded_twice S _ s h]
    · unfold Manager.AddExcludeSymbol
      simp only [addFolded_twice S _ s h]

/-- C10, amended, on the design document's manager (includes BTCUSDT and ETHUSDT):
adding "btcusdt" changes nothing, adding "solusdt" appends "SOLUSDT", and adding
"solusdt" twice is the same as adding it once. -/
theorem AddSymbol_idempotent_normalising_witness :
    (specManager.AddSymbol goStrings "btcusdt").symbols = ["BTCUSDT", "ETHUSDT"] ∧
    (specManager.AddSymbol goStrings "solusdt").symbols = ["BTCUSDT", "ETHUSDT", "SOLUSDT"] ∧
    (specManager.AddSymbol goStrings "solusdt").AddSymbol goStrings "solusdt"
      = specManager.AddSymbol goStrings "solusdt" := by
  refine ⟨?_, ?_, ?_⟩
  · rw [(AddSymbol_idempotent_normalising goStrings specManager "btcusdt").1 (by decide)]
    rfl
  · rw [(AddSymbol_idempotent_normalising goStrings specManager "solusdt").2.1 (by decide)]
    decide
  · exact ((AddSymbol_idempotent_normalising goStrings specManager "solusdt").2.2.2.2
      (by decide)).1

/-! ## Removing symbols (claim C11) -/

theorem removeFolded_eq_eraseP (S : Strings) (list : List String) (s : String) :
    removeFolded S list s = list.eraseP (fun e => S.EqualFold e s) := by
  induction list with
  | nil => rfl
  | cons x xs ih =>
    by_cases h : S.EqualFold x s = true
    · simp [removeFolded, h]
    · simp [removeFolded, h, ih]

theorem removeFolded_of_not_mem (S : Strings) (list : List String) (s : String)
    (h : ∀ e ∈ list, S.EqualFold e s = false) : removeFolded S list s = list := by
  induction list with
  | nil => rfl
  | cons x xs ih =>
    have hx : S.EqualFold x s = false := h x (List.mem_cons_self _ _)
    simp only [removeFolded, hx, Bool.false_eq_true, if_false]
    rw [ih (fun e he => h e (List.mem_cons_of_mem _ he))]

theorem removeFolded_clears (S : Strings) (list : List String) (s : String)
    (h : list.countP (fun e => S.EqualFold e s) ≤ 1) :
    ∀ e ∈ removeFolded S list s, S.EqualFold e s = false := by
  induction list with
  | nil => intro e he; simp [removeFolded] at he
  | cons x xs ih =>
    by_cases hx : S.EqualFold x s = true
    · have hc : xs.countP (fun e => S.EqualFold e s) = 0 := by
        rw [List.countP_cons] at h
        simp only [hx, if_true] at h
        omega
      intro e he
      simp only [removeFolded, hx, if_true] at he
      have := (List.countP_eq_zero.mp hc) e he
      simpa using this
    · have hx2 : S.EqualFold x s = false := by simpa using hx
      rw [List.countP_cons] at h
      simp only [hx2, Bool.false_eq_true, if_false, Nat.add_zero] at h
      intro e he
      simp only [removeFolded, hx2, Bool.false_eq_true, if_false] at he
      rcases List.mem_cons.mp he with rfl | he
      · exact hx2
      · exact ih h e he

/-- C11 as stated fails on the code: with the include list `["BTCUSDT", "btcusdt"]`
one `RemoveSymbol("BTCUSDT")` leaves `["btcusdt"]`, which still equals the symbol
ignoring case, and a second removal gives `[]`; the exclude list behaves the same. -/
theorem RemoveSymbol_twice_differs_on_duplicates :
    (duplicateManager.RemoveSymbol goStrings "BTCUSDT").symbols = ["btcusdt"] ∧
    goStrings.EqualFold "btcusdt" "BTCUSDT" = true ∧
    ((duplicateManager.RemoveSymbol goStrings "BTCUSDT").RemoveSymbol goStrings "BTCUSDT").symbols
      = [] ∧
    (duplicateManager.RemoveExcludeSymbol goStrings "ETHUSDT").excludeSymbols = ["ethusdt"] ∧
    ((duplicateManager.RemoveExcludeSymbol goStrings "ETHUSDT").RemoveExcludeSymbol goStrings
      "ETHUSDT").excludeSymbols = [] := by
  decide

/-- C11, amended: `RemoveSymbol` on the include list and `RemoveExcludeSymbol` on the
exclude list delete the first entry that equals `s` under `strings.EqualFold` and
keep every other entry in order; when the list holds at most one such entry, no
entry of the list equals `s` after one removal and removing `s` twice gives the
same manager as removing it once. -/
theorem RemoveSymbol_removes_first_match (S : Strings) (m : Manager) (s : String) :
    m.RemoveSymbol S s = { m with symbols := m.symbols.eraseP (fun e => S.EqualFold e s) } ∧
    m.RemoveExcludeSymbol S s
      = { m with excludeSymbols := m.excludeSymbols.eraseP (fun e => S.EqualFold e s) } ∧
    (m.symbols.countP (fun e => S.EqualFold e s) ≤ 1 →
      (∀ e ∈ (m.RemoveSymbol S s).symbols, S.EqualFold e s = false) ∧
      (m.RemoveSymbol S s).RemoveSymbol S s = m.RemoveSymbol S s) ∧
    (m.excludeSymbols.countP (fun e => S.EqualFold e s) ≤ 1 →
      (∀ e ∈ (m.RemoveExcludeSymbol S s).excludeSymbols, S.EqualFold e s = false) ∧
      (m.RemoveExcludeSymbol S s).RemoveExcludeSymbol S s = m.RemoveExcludeSymbol S s) := by
  refine ⟨?_, ?_, ?_, ?_⟩
  · unfold Manager.RemoveSymbol
    rw [removeFolded_eq_eraseP]
  · unfold Manager.RemoveExcludeSymbol
    rw [removeFolded_eq_eraseP]
  · intro h
    have hc := removeFolded_clears S m.symbols s h
    refine ⟨hc, ?_⟩
    unfold Manager.RemoveSymbol
    simp only [removeFolded_of_not_mem S _ s hc]
  · intro h
    have hc := removeFolded_clears S m.excludeSymbols s h
    refine ⟨hc, ?_⟩
    unfold Manager.RemoveExcludeSymbol
    simp only [removeFolded_of_not_mem S _ s hc]

/-- C11, amended, on the design document's manager (includes BTCUSDT and ETHUSDT,
each once): removing "btcusdt" leaves `["ETHUSDT"]`, and removing it again changes
nothing. -/
theorem RemoveSymbol_removes_first_match_witness :
    (specManager.RemoveSymbol goStrings "btcusdt").symbols = ["ETHUSDT"] ∧
    (specManager.RemoveSymbol goStrings "btcusdt").RemoveSymbol goStrings "btcusdt"
      = specManager.RemoveSymbol goStrings "btcusdt" := by
  refine ⟨?_, ?_⟩
  · rw [(RemoveSymbol_removes_first_match goStrings specManager "btcusdt").1]
    decide
  · exact ((RemoveSymbol_removes_first_match goStrings specManager "btcusdt").2.2.1
      (by decide)).2

/-! ## Cadence mapping in the writer (claims C17 and C18) -/

theorem lookup_of_not_mem_keys (table : List (String × String)) (s : String)
    (h : s ∉ table.map Prod.fst) : table.lookup s = none := by
  induction table with
  | nil => rfl
  | cons p ps ih =>
    obtain ⟨k, v⟩ := p
    simp only [List.map_cons, List.mem_cons, not_or] at h
    have hk : (s == k) = false := by simpa using h.1
    simp only [List.lookup, hk]
    exact ih h.2

theorem ConvertTimeframe_of_not_code (w : Writer) (s : String) (h : s ∉ exchangeCodes) :
    w.ConvertTimeframe s = s := by
  unfold Writer.ConvertTimeframe
  rw [lookup_of_not_mem_keys _ s (by simpa [exchangeCodes] using h)]

theorem ValidateTimeframe_iff (w : Writer) (s : String) :
    w.ValidateTimeframe s = true ↔ s ∈ canonicalLabels := by
  simp [Writer.ValidateTimeframe, canonicalLabels]

/-- C18: `ConvertTimeframe` maps the fifteen exchange codes, in order, to the
fifteen canonical labels (1m to 1Min, 3m to 3Min, ..., 1w to 1W, 1M to 1M); two
different codes never get the same label; and `ValidateTimeframe` accepts every
label so obtained. -/
theorem ConvertTimeframe_on_exchange_codes (w : Writer) :
    exchangeCodes.map w.ConvertTimeframe = canonicalLabels ∧
    (∀ a ∈ exchangeCodes, ∀ b ∈ exchangeCodes,
      w.ConvertTimeframe a = w.ConvertTimeframe b → a = b) ∧
    (∀ a ∈ exchangeCodes, w.ValidateTimeframe (w.ConvertTimeframe a) = true) := by
  have hc : w.ConvertTimeframe = (Writer.mk "" "").ConvertTimeframe := rfl
  have hv : w.ValidateTimeframe = (Writer.mk "" "").ValidateTimeframe := rfl
  rw [hc, hv]
  refine ⟨by decide, by decide, by decide⟩

/-- C17 as stated fails on the code: "1Min" is not one of the fifteen exchange codes,
yet `ConvertTimeframe` passes it through and `ValidateTimeframe` accepts it, so both
`WriteAggregatedData` (cadence argument "1Min") and `WriteKlines` (writer cadence
"1Min") return no error and hand one write to the storage engine. -/
theorem unmapped_canonical_label_is_written :
    "1Min" ∉ exchangeCodes ∧
    sampleWriter.ValidateTimeframe (sampleWriter.ConvertTimeframe "1Min") = true ∧
    (sampleWriter.WriteAggregatedData execOk "BTCUSDT" "1Min" specBars World.empty).1 = none ∧
    (sampleWriter.WriteAggregatedData execOk "BTCUSDT" "1Min" specBars
      World.empty).2.writes.length = 1 ∧
    sampleWriter.timeframe = "1Min" ∧
    (sampleWriter.WriteKlines execOk "BTCUSDT" specBars World.empty).1 = none ∧
    (sampleWriter.WriteKlines execOk "BTCUSDT" specBars World.empty).2.writes.length = 1 := by
  refine ⟨by decide, by decide, by decide, by decide, rfl, by decide, by decide⟩

/-- C17, amended: for every cadence string that is neither one of the fifteen
exchange codes nor one of the fifteen canonical labels,
`ValidateTimeframe(ConvertTimeframe(s))` is false, and `WriteAggregatedData` with
that cadence and `WriteKlines` on a writer configured with that cadence, given a
non-empty batch, return an error without handing any write to the storage engine.
(A canonical label is passed through by `ConvertTimeframe` and accepted.) -/
theorem unmapped_cadence_rejected (w : Writer) (exec : Executor) (symbol s : String)
    (data : List KlineData) (σ : World) (hcode : s ∉ exchangeCodes)
    (hlabel : s ∉ canonicalLabels) (hdata : data ≠ []) :
    w.ValidateTimeframe (w.ConvertTimeframe s) = false ∧
    (∃ err, (w.WriteAggregatedData exec symbol s data σ).1 = some err) ∧
    (w.WriteAggregatedData exec symbol s data σ).2.writes = σ.writes ∧
    (∃ err, ((Writer.mk s w.timezone).WriteKlines exec symbol data σ).1 = some err) ∧
    ((Writer.mk s w.timezone).WriteKlines exec symbol data σ).2.writes = σ.writes := by
  have hconv : ∀ w2 : Writer, w2.ValidateTimeframe (w2.ConvertTimeframe s) = false := by
    intro w2
    rw [ConvertTimeframe_of_not_code w2 s hcode]
    cases hv : w2.ValidateTimeframe s
    · rfl
    · exact absurd ((ValidateTimeframe_iff w2 s).mp hv) hlabel
  have hlen : ¬ data.length = 0 := fun h => hdata (List.length_eq_zero.mp h)
  refine ⟨hconv w, ?_, ?_, ?_, ?_⟩
  · unfold Writer.WriteAggregatedData
    simp only [hlen, if_false, hconv w, Bool.not_false, if_true]
    exact ⟨_, rfl⟩
  · unfold Writer.WriteAggregatedData
    simp only [hlen, if_false, hconv w, Bool.not_false, if_true]
  · unfold Writer.WriteKlines
    simp only [hlen, if_false, hconv, Bool.not_false, if_true]
    exact ⟨_, rfl⟩
  · unfold Writer.WriteKlines
    simp only [hlen, if_false, hconv, Bool.not_false, if_true]

/-- C17, amended, on the cadence "1s": it is neither a code nor a label, and
writing the design document's three bars with it fails before any write. -/
theorem unmapped_cadence_rejected_witness :
    sampleWriter.ValidateTimeframe (sampleWriter.ConvertTimeframe "1s") = false ∧
    (∃ err, (sampleWriter.WriteAggregatedData execOk "BTCUSDT" "1s" specBars World.empty).1
      = some err) ∧
    (sampleWriter.WriteAggregatedData execOk "BTCUSDT" "1s" specBars World.empty).2.writes = [] := by
  have h := unmapped_cadence_rejected sampleWriter execOk "BTCUSDT" "1s" specBars World.empty
    (by decide) (by decide) (by simp [specBars])
  exact ⟨h.1, h.2.1, h.2.2.1⟩

/-! ## Bar decoding (claims C14 to C16) -/

theorem decodeKlines_length (P : Strconv) (rawData : List (List JsonValue)) :
    (decodeKlines P rawData).length = rawData.length := by
  simp [decodeKlines]

theorem decodeKlines_getElem? (P : Strconv) (rawData : List (List JsonValue)) (i : Nat) :
    (decodeKlines P rawData)[i]?
      = (rawData[i]?).map
          (fun data => if data.length < 11 then KlineData.zero else decodeRow P data) := by
  simp [decodeKlines]

/-- C14: whenever the HTTP exchange delivers a raw array, `GetKlines` returns it
decoded with a `nil` error: the result has exactly one record per raw row, the
record at the position of a row with fewer than 11 fields is the all-zero record,
and the record at the position of any other row is that row decoded. -/
theorem GetKlines_short_rows (P : Strconv) (http : KlinesEndpoint)
    (history : List KlinesRequest) (req : KlinesRequest) (rawData : List (List JsonValue))
    (h : http history req = .ok rawData) :
    ∃ klines : List KlineData, GetKlines P http history req = .ok klines ∧
      klines.length = rawData.length ∧
      ∀ (i : Nat) (data : List JsonValue), rawData[i]? = some data →
        (data.length < 11 → klines[i]? = some KlineData.zero) ∧
        (11 ≤ data.length → klines[i]? = some (decodeRow P data)) := by
  refine ⟨decodeKlines P rawData, ?_, decodeKlines_length P rawData, ?_⟩
  · unfold GetKlines
    rw [h]
  · intro i data hi
    rw [decodeKlines_getElem?, hi]
    constructor
    · intro hlt
      simp [hlt]
    · intro hge
      have : ¬ data.length < 11 := by omega
      simp [this]

/-- C14 on a short row followed by a full row: two records come back, the first
all zero, the second the decoded full row. -/
theorem GetKlines_short_rows_witness :
    GetKlines goStrconv shortRowEndpoint [] sampleRequest = .ok [KlineData.zero, restBar] := by
  obtain ⟨klines, hk, hlen, hrow⟩ :=
    GetKlines_short_rows goStrconv shortRowEndpoint [] sampleRequest [shortRow, restRow] rfl
  rw [hk]
  have h0 := (hrow 0 shortRow rfl).1 (by decide)
  have h1 := (hrow 1 restRow rfl).2 (by decide)
  have hr : decodeRow goStrconv restRow = restBar := by decide!
  rw [hr] at h1
  have hk2 : klines = [KlineData.zero, restBar] := by
    apply List.ext_getElem?
    intro i
    match i with
    | 0 => rw [h0]; rfl
    | 1 => rw [h1]; rfl
    | n + 2 =>
      have hl : klines.length = 2 := hlen
      rw [List.getElem?_eq_none (by omega), List.getElem?_eq_none (by simp)]
  rw [hk2]

theorem getD_set (data : List JsonValue) (i j : Nat) (x : JsonValue) :
    (data.set i x).getD j .null
      = if i = j ∧ i < data.length then x else data.getD j .null := by
  simp only [List.getD_eq_getElem?_getD, List.getElem?_set]
  by_cases hij : i = j
  · subst hij
    by_cases hl : i < data.length
    · simp [hl]
    · simp [hl, List.getElem?_eq_none (not_lt.mp hl)]
  · simp [hij]

/-- Replacing the value at a float position changes the decoded row only through
`decodeFloat`. -/
theorem decodeRow_set_float (P : Strconv) (data : List JsonValue) (i : Nat) (x y : JsonValue)
    (hi : i ∈ floatPositions) (h : decodeFloat P x = decodeFloat P y) :
    decodeRow P (data.set i x) = decodeRow P (data.set i y) := by
  simp only [floatPositions, List.mem_cons, List.mem_singleton, List.not_mem_nil, or_false] at hi
  by_cases hl : i < data.length
  · rcases hi with rfl | rfl | rfl | rfl | rfl | rfl | rfl | rfl <;>
      simp [decodeRow, getD_set, hl, h]
  · rw [List.set_eq_of_length_le (not_lt.mp hl), List.set_eq_of_length_le (not_lt.mp hl)]

/-- Replacing the value at an integer position changes the decoded row only through
`decodeInt`. -/
theorem decodeRow_set_int (P : Strconv) (data : List JsonValue) (i : Nat) (x y : JsonValue)
    (hi : i ∈ intPositions) (h : decodeInt x = decodeInt y) :
    decodeRow P (data.set i x) = decodeRow P (data.set i y) := by
  simp only [intPositions, List.mem_cons, List.mem_singleton, List.not_mem_nil, or_false] at hi
  by_cases hl : i < data.length
  · rcases hi with rfl | rfl | rfl <;> simp [decodeRow, getD_set, hl, h]
  · rw [List.set_eq_of_length_le (not_lt.mp hl), List.set_eq_of_length_le (not_lt.mp hl)]

theorem float64ToInt64_intCast (n : Int) (hlo : -(2 ^ 63) ≤ n) (hhi : n < 2 ^ 63) :
    float64ToInt64 (n : ℚ) = n := by
  unfold float64ToInt64
  simp only [Rat.intCast_num, Rat.intCast_den, Nat.cast_one, Int.tdiv_one]
  rw [if_pos ⟨hlo, hhi⟩]

theorem ParseInt_cases (s : String) :
    ((ParseInt s).2 = some NumError.ErrSyntax → (ParseInt s).1 = 0) ∧
    ((ParseInt s).2 = some NumError.ErrRange →
      (ParseInt s).1 = 2 ^ 63 - 1 ∨ (ParseInt s).1 = -(2 ^ 63)) := by
  unfold ParseInt
  cases s.data with
  | nil => simp
  | cons c cs =>
    simp only []
    generalize ParseUint (if c = '+' ∨ c = '-' then cs else c :: cs) = r
    obtain ⟨un, err⟩ := r
    simp only []
    split_ifs <;> simp_all

/-- The field decoded from position `i` of a row after that position is set to `x`. -/
theorem decodeRow_set_field (P : Strconv) (data : List JsonValue) (i : Nat) (x : JsonValue)
    (hi : i < 11) (hl : i < data.length) :
    (decodeRow P (data.set i x)).field i
      = if i ∈ intPositions then (decodeInt x : ℚ) else decodeFloat P x := by
  interval_cases i <;> simp [decodeRow, KlineData.field, getD_set, hl, intPositions]

/-- C15 as stated fails on the code for the integer fields: the wire value 3/2 sent
as a number is truncated to openTime 1 by `int64(v)`, while its numeric string
"1.5" is rejected by `strconv.ParseInt` and leaves openTime 0. -/
theorem decode_openTime_differs_on_fraction :
    goStrconv.ParseFloat "1.5" = (3 / 2, none) ∧
    (decodeRow goStrconv (restRow.set 0 (.number (3 / 2)))).OpenTime = 1 ∧
    (decodeRow goStrconv (restRow.set 0 (.string "1.5"))).OpenTime = 0 := by
  decide!

/-- C15, amended: for every float field (positions 1, 2, 3, 4, 5, 7, 9, 10) a value
sent as a number and sent as a string that `strconv.ParseFloat` parses to that
value decode to the same record; for every integer field (positions 0, 6, 8) the
same holds for whole numbers of magnitude at most `2^53`, the integers a `float64`
holds exactly, sent as a number and as a string that `strconv.ParseInt` parses to
that number. -/
theorem decodeRow_encoding_independent (P : Strconv) (data : List JsonValue) (i : Nat)
    (s : String) :
    (i ∈ floatPositions → ∀ v : ℚ, P.ParseFloat s = (v, none) →
      decodeRow P (data.set i (.string s)) = decodeRow P (data.set i (.number v))) ∧
    (i ∈ intPositions → ∀ n : Int, ParseInt s = (n, none) → -(2 ^ 53) ≤ n → n ≤ 2 ^ 53 →
      decodeRow P (data.set i (.string s)) = decodeRow P (data.set i (.number (n : ℚ)))) := by
  constructor
  · intro hi v hv
    apply decodeRow_set_float P data i _ _ hi
    simp [decodeFloat, hv]
  · intro hi n hn hlo hhi
    apply decodeRow_set_int P data i _ _ hi
    simp only [decodeInt, hn]
    rw [float64ToInt64_intCast n (by linarith) (by linarith)]

/-- C15, amended, on the REST row: the open price sent as the string "5" or as the
number 5, and the open time sent as the number 1700000000000 or as its decimal
string, decode to the same record, `restBar`. -/
theorem decodeRow_encoding_independent_witness :
    decodeRow goStrconv (restRow.set 1 (.string "5")) = restBar ∧
    decodeRow goStrconv (restRow.set 1 (.number 5)) = restBar ∧
    decodeRow goStrconv (restRow.set 0 (.string "1700000000000")) = restBar ∧
    decodeRow goStrconv (restRow.set 0 (.number 1700000000000)) = restBar := by
  have hf := (decodeRow_encoding_independent goStrconv restRow 1 "5").1 (by decide) 5
    (by decide!)
  have hn := (decodeRow_encoding_independent goStrconv restRow 0 "1700000000000").2 (by decide)
    1700000000000 (by decide) (by decide) (by decide)
  have h1 : decodeRow goStrconv (restRow.set 1 (.string "5")) = restBar := by decide!
  have h0 : decodeRow goStrconv (restRow.set 0 (.string "1700000000000")) = restBar := by decide!
  refine ⟨h1, ?_, h0, ?_⟩
  · rw [← hf]; exact h1
  · rw [h0] at hn
    rw [hn]
    norm_num

/-- C16 as stated fails on the code: a trade count sent as the string
"9223372036854775808" is out of range for `int64`; `strconv.ParseInt` reports a range
error together with the value `2^63 - 1`, the decoder drops the error, and the
decoded field is `2^63 - 1`, not zero. -/
theorem decode_out_of_range_is_not_zero :
    (ParseInt "9223372036854775808").2 = some NumError.ErrRange ∧
    (decodeRow goStrconv (restRow.set 8 (.string "9223372036854775808"))).NumberOfTrades
      = 9223372036854775807 := by
  decide!

/-- C16, amended: for every field position of a row, when the wire value is
neither a number nor a string, or is a string that `strconv` rejects with a syntax
error, the decoded field is zero. A string that is out of range is not zeroed: for
the integer fields the decoded field is then `2^63 - 1` or `-2^63`, the value
`strconv.ParseInt` returns with its range error. -/
theorem decodeRow_zero_default (P : Strconv) (data : List JsonValue) (i : Nat) (x : JsonValue)
    (hi : i < 11) (hl : i < data.length) :
    ((∀ v, x ≠ .number v) → (∀ s, x ≠ .string s) →
      (decodeRow P (data.set i x)).field i = 0) ∧
    (∀ s, x = .string s → i ∈ intPositions → (ParseInt s).2 = some NumError.ErrSyntax →
      (decodeRow P (data.set i x)).field i = 0) ∧
    (∀ s, x = .string s → i ∉ intPositions → (P.ParseFloat s).2 = some NumError.ErrSyntax →
      (decodeRow P (data.set i x)).field i = 0) ∧
    (∀ s, x = .string s → i ∈ intPositions → (ParseInt s).2 = some NumError.ErrRange →
      (decodeRow P (data.set i x)).field i = 2 ^ 63 - 1 ∨
      (decodeRow P (data.set i x)).field i = -(2 ^ 63)) := by
  rw [decodeRow_set_field P data i x hi hl]
  refine ⟨?_, ?_, ?_, ?_⟩
  · intro hnum hstr
    cases x with
    | number v => exact absurd rfl (hnum v)
    | string s => exact absurd rfl (hstr s)
    | bool b => simp [decodeInt, decodeFloat]
    | null => simp [decodeInt, decodeFloat]
    | composite => simp [decodeInt, decodeFloat]
  · intro s hx hpos herr
    subst hx
    simp [hpos, decodeInt, (ParseInt_cases s).1 herr]
  · intro s hx hpos herr
    subst hx
    simp [hpos, decodeFloat, P.zero_of_ErrSyntax s herr]
  · intro s hx hpos herr
    subst hx
    simp only [hpos, if_true, decodeInt]
    rcases (ParseInt_cases s).2 herr with h | h
    · left; rw [h]; norm_num
    · right; rw [h]; norm_num

/-- C16, amended, on the REST row: `null` as the open time, the string "abc" as the
trade count and the string "n/a" as the open price each decode to zero. -/
theorem decodeRow_zero_default_witness :
    (decodeRow goStrconv (restRow.set 0 .null)).field 0 = 0 ∧
    (decodeRow goStrconv (restRow.set 8 (.string "abc"))).field 8 = 0 ∧
    (decodeRow goStrconv (restRow.set 1 (.string "n/a"))).field 1 = 0 := by
  refine ⟨?_, ?_, ?_⟩
  · exact (decodeRow_zero_default goStrconv restRow 0 .null (by decide) (by decide)).1
      (fun v h => by cases h) (fun s h => by cases h)
  · exact (decodeRow_zero_default goStrconv restRow 8 (.string "abc") (by decide)
      (by decide)).2.1 "abc" rfl (by decide) (by decide)
  · exact (decodeRow_zero_default goStrconv restRow 1 (.string "n/a") (by decide)
      (by decide)).2.2.1 "n/a" rfl (by decide) (by decide!)

/-! ## Backfill windows (claims C12 and C13) -/

/-- When the loop condition fails the loop ends with the state it has. -/
theorem loop_done (b : Backfill) (env : BackfillEnv) (symbol : String) (fuel : Nat)
    (currentTime : Int) (st : BackfillState) (h : ¬ currentTime < b.config.EndTime) :
    b.loop env symbol (fuel + 1) currentTime st = some st := by
  simp [Backfill.loop, h]

/-- One iteration without cancellation: whatever the fetch and the write do, the
loop goes on from the end of the window with exactly one more request. -/
theorem loop_iterate (b : Backfill) (env : BackfillEnv) (symbol : String) (fuel : Nat)
    (currentTime : Int) (st : BackfillState) (h : currentTime < b.config.EndTime)
    (hctx : env.ctxDone st.requests = false) :
    ∃ σ : World,
      b.loop env symbol (fuel + 1) currentTime st
        = b.loop env symbol fuel (min (currentTime + b.step) b.config.EndTime)
            { requests := st.requests ++
                [{ symbol := symbol, interval := b.config.Interval, startTime := currentTime,
                   endTime := min (currentTime + b.step) b.config.EndTime,
                   limit := b.config.BatchSize }]
              world := σ } := by
  have hmin : (if currentTime + b.step > b.config.EndTime then b.config.EndTime
      else currentTime + b.step) = min (currentTime + b.step) b.config.EndTime := by
    by_cases hgt : currentTime + b.step > b.config.EndTime
    · rw [if_pos hgt, min_eq_right (le_of_lt hgt)]
    · rw [if_neg hgt, min_eq_left (not_lt.mp hgt)]
  simp only [Backfill.loop, h, hctx, if_true, Bool.false_eq_true, if_false, hmin]
  split
  · exact ⟨_, rfl⟩
  · exact ⟨_, rfl⟩

/-- The windows of a run, by induction on their number `n`: if `n` steps from
`currentTime` reach the end of the range and fewer do not, the loop ends within
`n + 1` evaluations of its condition and has requested exactly the `n` windows
`[currentTime + i * step, min(currentTime + (i + 1) * step, end))`. -/
theorem loop_windows (b : Backfill) (env : BackfillEnv) (symbol : String)
    (hctx : ∀ h, env.ctxDone h = false) (n : Nat) :
    ∀ (currentTime : Int) (st : BackfillState) (fuel : Nat), n < fuel →
      b.config.EndTime ≤ currentTime + n * b.step →
      (∀ i : Nat, i < n → currentTime + i * b.step < b.config.EndTime) →
      ∃ st' : BackfillState, b.loop env symbol fuel currentTime st = some st' ∧
        st'.requests.map KlinesRequest.window
          = st.requests.map KlinesRequest.window ++
            (List.range n).map (fun i : Nat =>
              (currentTime + i * b.step, min (currentTime + (i + 1) * b.step) b.config.EndTime))
    := by
  induction n with
  | zero =>
    intro currentTime st fuel hfuel hend _
    obtain ⟨f, rfl⟩ : ∃ f, fuel = f + 1 := ⟨fuel - 1, by omega⟩
    refine ⟨st, loop_done b env symbol f currentTime st (by simp at hend; omega), by simp⟩
  | succ n ih =>
    intro currentTime st fuel hfuel hend hbelow
    obtain ⟨f, rfl⟩ : ∃ f, fuel = f + 1 := ⟨fuel - 1, by omega⟩
    have hlt : currentTime < b.config.EndTime := by simpa using hbelow 0 (by omega)
    obtain ⟨σ, hσ⟩ := loop_iterate b env symbol f currentTime st hlt (hctx _)
    rw [hσ]
    have hnext : (n = 0 ∧ min (currentTime + b.step) b.config.EndTime = b.config.EndTime) ∨
        (0 < n ∧ min (currentTime + b.step) b.config.EndTime = currentTime + b.step) := by
      rcases Nat.eq_zero_or_pos n with hn | hn
      · left
        refine ⟨hn, min_eq_right ?_⟩
        subst hn
        simpa using hend
      · right
        have := hbelow 1 (by omega)
        refine ⟨hn, min_eq_left ?_⟩
        push_cast at this
        linarith
    rcases hnext with ⟨hn, hm⟩ | ⟨hn, hm⟩
    · subst hn
      obtain ⟨st', hst', hw⟩ := ih (min (currentTime + b.step) b.config.EndTime) _ f (by omega)
        (by rw [hm]; simp) (by intro i hi; omega)
      refine ⟨st', hst', ?_⟩
      rw [hw]
      simp [KlinesRequest.window, List.range_succ]
    · obtain ⟨st', hst', hw⟩ := ih (min (currentTime + b.step) b.config.EndTime) _ f (by omega)
        (by rw [hm]; push_cast at hend; linarith)
        (by
          intro i hi
          have := hbelow (i + 1) (by omega)
          rw [hm]
          push_cast at this
          linarith)
      refine ⟨st', hst', ?_⟩
      rw [hw, List.range_succ_eq_map]
      simp only [List.map_append, List.map_cons, List.map_nil, List.append_assoc,
        List.singleton_append, List.map_map, KlinesRequest.window]
      congr 2
      · simp
      · apply List.map_congr_left
        intro i _
        simp only [Function.comp, hm]
        push_cast
        congr 1
        · ring
        · congr 1
          ring

/-- The window count is the least number of steps that cover the range. -/
theorem windowCount_spec (start stop step : Int) (hrange : start < stop) (hpos : 0 < step) :
    stop ≤ start + (windowCount start stop step : Int) * step ∧
    (∀ i : Nat, i < windowCount start stop step → start + i * step < stop) ∧
    0 < windowCount start stop step := by
  have hq0 : 0 ≤ (stop - start + step - 1) / step := Int.ediv_nonneg (by linarith) (le_of_lt hpos)
  have hcast : ((windowCount start stop step : Nat) : Int) = (stop - start + step - 1) / step := by
    unfold windowCount
    exact Int.toNat_of_nonneg hq0
  have h1 := Int.ediv_mul_le (stop - start + step - 1) (ne_of_gt hpos)
  have h2 := Int.lt_ediv_add_one_mul_self (stop - start + step - 1) hpos
  rw [← hcast] at h1 h2
  have hcover : stop ≤ start + (windowCount start stop step : Int) * step := by
    have : (↑(windowCount start stop step) + 1) * step
        = ↑(windowCount start stop step) * step + step := by ring
    linarith
  refine ⟨hcover, ?_, ?_⟩
  · intro i hi
    have hi2 : (i : Int) + 1 ≤ (windowCount start stop step : Int) := by exact_mod_cast hi
    have hmul : ((i : Int) + 1) * step ≤ (windowCount start stop step : Int) * step :=
      mul_le_mul_of_nonneg_right hi2 (le_of_lt hpos)
    have : ((i : Int) + 1) * step = i * step + step := by ring
    linarith
  · by_contra h0
    have hz : windowCount start stop step = 0 := by omega
    rw [hz] at hcover
    simp at hcover
    linarith

/-- The windows of the design document tile the range: there are `n` of them, the
first starts at the start, each ends at the minimum of its start plus one step and
the end of the range and is not empty, each next one starts where the previous one
ended, and the last ends at the end of the range. -/
theorem partitionWindows_tiles (start stop step : Int) (n : Nat) (hpos : 0 < step)
    (hn : 0 < n) (hcover : stop ≤ start + (n : Int) * step)
    (hbelow : ∀ i : Nat, i < n → start + i * step < stop) :
    (partitionWindows start stop step n).length = n ∧
    (partitionWindows start stop step n).head? = some (start, min (start + step) stop) ∧
    (∃ s, (partitionWindows start stop step n).getLast? = some (s, stop)) ∧
    List.Chain' (fun w1 w2 : Int × Int => w1.2 = w2.1) (partitionWindows start stop step n) ∧
    (∀ w ∈ partitionWindows start stop step n, w.1 < w.2 ∧ w.2 = min (w.1 + step) stop) := by
  obtain ⟨m, rfl⟩ : ∃ m, n = m + 1 := ⟨n - 1, by omega⟩
  refine ⟨by simp [partitionWindows], ?_, ?_, ?_, ?_⟩
  · simp [partitionWindows, List.range_succ_eq_map]
  · refine ⟨start + m * step, ?_⟩
    have hm : min (start + ((m : Int) + 1) * step) stop = stop := by
      apply min_eq_right
      push_cast at hcover
      linarith
    simp only [partitionWindows, List.range_succ, List.map_append, List.map_cons, List.map_nil,
      List.getLast?_append, List.getLast?_singleton, hm]
    rfl
  · unfold partitionWindows
    rw [List.chain'_map, List.chain'_range_succ]
    intro i hi
    simp only
    have := hbelow (i + 1) (by omega)
    push_cast at this ⊢
    rw [min_eq_left (le_of_lt this)]
  · intro w hw
    simp only [partitionWindows, List.mem_map, List.mem_range] at hw
    obtain ⟨i, hi, rfl⟩ := hw
    have hlt := hbelow i hi
    have hstep : start + ((i : Int) + 1) * step = start + i * step + step := by ring
    refine ⟨?_, by simp only [hstep]⟩
    simp only [hstep]
    exact lt_min (by linarith) hlt

/-- C12: for a range with start before end and a positive step
`batchSize * cadenceDuration` that fits `int64`, a run of `backfillSymbol` without
cancellation ends (any fuel above the window count suffices) and has requested, in
this order, exactly `ceil((end - start) / step)` windows that tile the range: the
first starts at the start, each ends at the minimum of its start plus the step and
the end, each next one starts where the previous one ended, and the last one ends
at the end of the range. -/
theorem backfillSymbol_windows_partition (b : Backfill) (env : BackfillEnv) (symbol : String)
    (st : BackfillState) (step : Int) (fuel : Nat)
    (hctx : ∀ h, env.ctxDone h = false)
    (hrange : b.config.StartTime < b.config.EndTime)
    (hstep : step = b.config.BatchSize * getIntervalDuration b.config.Interval)
    (hpos : 0 < step) (hfit : step < 2 ^ 63)
    (hfuel : windowCount b.config.StartTime b.config.EndTime step < fuel) :
    ∃ (st' : BackfillState) (windows : List (Int × Int)),
      b.backfillSymbol env symbol fuel st = some st' ∧
      st'.requests.map KlinesRequest.window = st.requests.map KlinesRequest.window ++ windows ∧
      windows = partitionWindows b.config.StartTime b.config.EndTime step
        (windowCount b.config.StartTime b.config.EndTime step) ∧
      windows.length = windowCount b.config.StartTime b.config.EndTime step ∧
      windows.head? = some (b.config.StartTime, min (b.config.StartTime + step) b.config.EndTime) ∧
      (∃ s, windows.getLast? = some (s, b.config.EndTime)) ∧
      List.Chain' (fun w1 w2 : Int × Int => w1.2 = w2.1) windows ∧
      (∀ w ∈ windows, w.1 < w.2 ∧ w.2 = min (w.1 + step) b.config.EndTime) := by
  have hbstep : b.step = step := by
    unfold Backfill.step
    rw [← hstep]
    exact wrapInt64_of_fits step (by linarith) hfit
  obtain ⟨hcover, hbelow, hn⟩ :=
    windowCount_spec b.config.StartTime b.config.EndTime step hrange hpos
  obtain ⟨st', hst', hw⟩ := loop_windows b env symbol hctx
    (windowCount b.config.StartTime b.config.EndTime step) b.config.StartTime st fuel hfuel
    (by rw [hbstep]; exact hcover) (by rw [hbstep]; exact hbelow)
  rw [hbstep] at hw
  obtain ⟨t1, t2, t3, t4, t5⟩ := partitionWindows_tiles b.config.StartTime b.config.EndTime step
    (windowCount b.config.StartTime b.config.EndTime step) hpos hn hcover hbelow
  exact ⟨st', _, hst', hw, rfl, t1, t2, t3, t4, t5⟩

/-- C12 on two and a half hours of one-minute bars in batches of 60, with every
fetch failing: the run ends and has requested the three windows `[0, 1h)`,
`[1h, 2h)`, `[2h, 2h30)`. -/
theorem backfillSymbol_windows_partition_witness :
    ∃ st' : BackfillState,
      sampleBackfill.backfillSymbol envFetchFails "BTCUSDT" 4 BackfillState.empty = some st' ∧
      st'.requests.map KlinesRequest.window
        = [(0, 60 * minute), (60 * minute, 120 * minute), (120 * minute, 150 * minute)] := by
  obtain ⟨st', windows, h1, h2, h3, -⟩ :=
    backfillSymbol_windows_partition sampleBackfill envFetchFails "BTCUSDT" BackfillState.empty
      (60 * minute) 4 (fun _ => rfl) (by decide) (by decide) (by decide) (by decide) (by decide)
  refine ⟨st', h1, ?_⟩
  rw [h2, h3]
  decide

/-- The requests of a run do not depend on what the fetches and the writes do:
two runs without cancellation that start from the same requests make the same
requests, and one ends exactly when the other does. -/
theorem loop_requests_independent (b : Backfill) (env1 env2 : BackfillEnv) (symbol : String)
    (h1 : ∀ h, env1.ctxDone h = false) (h2 : ∀ h, env2.ctxDone h = false) (fuel : Nat) :
    ∀ (currentTime : Int) (st1 st2 : BackfillState), st1.requests = st2.requests →
      (b.loop env1 symbol fuel currentTime st1).map (·.requests)
        = (b.loop env2 symbol fuel currentTime st2).map (·.requests) := by
  induction fuel with
  | zero => intro currentTime st1 st2 _; rfl
  | succ fuel ih =>
    intro currentTime st1 st2 hreq
    by_cases hlt : currentTime < b.config.EndTime
    · obtain ⟨σ1, e1⟩ := loop_iterate b env1 symbol fuel currentTime st1 hlt (h1 _)
      obtain ⟨σ2, e2⟩ := loop_iterate b env2 symbol fuel currentTime st2 hlt (h2 _)
      rw [e1, e2]
      apply ih
      simp only [hreq]
    · rw [loop_done b env1 symbol fuel currentTime st1 hlt,
        loop_done b env2 symbol fuel currentTime st2 hlt]
      simp [hreq]

/-- C13: without cancellation the sequence of requests, and so of windows, that
`backfillSymbol` makes for a symbol is the same for every behaviour of the exchange
and of the storage engine: failed fetches and failed writes neither repeat a window
nor drop a later one, and the run ends exactly when a run without failures ends. -/
theorem backfillSymbol_requests_independent_of_failures (b : Backfill)
    (env1 env2 : BackfillEnv) (symbol : String) (fuel : Nat) (st : BackfillState)
    (h1 : ∀ h, env1.ctxDone h = false) (h2 : ∀ h, env2.ctxDone h = false) :
    (b.backfillSymbol env1 symbol fuel st).map (·.requests)
      = (b.backfillSymbol env2 symbol fuel st).map (·.requests) ∧
    (b.backfillSymbol env1 symbol fuel st).map (fun s => s.requests.map KlinesRequest.window)
      = (b.backfillSymbol env2 symbol fuel st).map
          (fun s => s.requests.map KlinesRequest.window) := by
  have h := loop_requests_independent b env1 env2 symbol h1 h2 fuel b.config.StartTime st st rfl
  refine ⟨h, ?_⟩
  unfold Backfill.backfillSymbol
  cases ha : b.loop env1 symbol fuel b.config.StartTime st <;>
    cases hb : b.loop env2 symbol fuel b.config.StartTime st <;>
    simp_all

/-- C13 on the sample backfill: a run in which every fetch fails and a run in which
every fetch succeeds and every write fails make the same requests. -/
theorem backfillSymbol_requests_independent_of_failures_witness :
    (sampleBackfill.backfillSymbol envFetchFails "BTCUSDT" 4 BackfillState.empty).map
        (·.requests)
      = (sampleBackfill.backfillSymbol envWriteFails "BTCUSDT" 4 BackfillState.empty).map
        (·.requests) :=
  (backfillSymbol_requests_independent_of_failures sampleBackfill envFetchFails envWriteFails
    "BTCUSDT" 4 BackfillState.empty (fun _ => rfl) (fun _ => rfl)).1

/-! ## Rate limiter (claim C19) -/

/-- One `Wait` on a limiter whose last call is not in the clock's future records a
time at least `interval` after the last call and not before the clock reading. -/
theorem Wait_spacing (r : RateLimiter) (clock : Int) (c : ClockRun)
    (hmono : r.lastCall ≤ clock) (hint : r.interval < 2 ^ 63) :
    r.lastCall + r.interval ≤ (r.Wait clock c).2.1 ∧
    clock ≤ (r.Wait clock c).2.1 ∧
    (r.Wait clock c).1.lastCall = (r.Wait clock c).2.1 ∧
    (r.Wait clock c).1.interval = r.interval := by
  have hb : (0 : Int) ≤ c.beforeNow := Int.ofNat_nonneg _
  have ho : (0 : Int) ≤ c.oversleep := Int.ofNat_nonneg _
  have hr : (0 : Int) ≤ c.beforeRecord := Int.ofNat_nonneg _
  unfold RateLimiter.Wait
  simp only []
  by_cases hlt : timeSub (clock + c.beforeNow) r.lastCall < r.interval
  · rw [if_pos hlt]
    have hd : timeSub (clock + c.beforeNow) r.lastCall = clock + c.beforeNow - r.lastCall := by
      unfold timeSub maxDuration minDuration at hlt ⊢
      split_ifs at hlt ⊢ <;> first | rfl | omega
    rw [hd] at hlt ⊢
    have hw : wrapInt64 (r.interval - (clock + c.beforeNow - r.lastCall))
        = r.interval - (clock + c.beforeNow - r.lastCall) :=
      wrapInt64_of_fits _ (by linarith) (by linarith)
    rw [hw]
    have hpos : ¬ r.interval - (clock + c.beforeNow - r.lastCall) ≤ 0 := by linarith
    rw [if_neg hpos]
    refine ⟨?_, ?_, rfl, rfl⟩ <;> simp only [] <;> linarith
  · rw [if_neg hlt]
    have hd : r.interval ≤ clock + c.beforeNow - r.lastCall := by
      unfold timeSub maxDuration minDuration at hlt
      split_ifs at hlt <;> omega
    refine ⟨?_, ?_, rfl, rfl⟩ <;> simp only [] <;> linarith

/-- The call times recorded by a sequence of `Wait` calls are spaced by at least
`interval`, the first of them from the limiter's last call. -/
theorem waitAll_spacing (runs : List ClockRun) :
    ∀ (r : RateLimiter) (clock : Int), r.lastCall ≤ clock → r.interval < 2 ^ 63 →
      List.Chain (fun a b : Int => a + r.interval ≤ b) r.lastCall (r.waitAll clock runs) := by
  induction runs with
  | nil => intro r clock _ _; exact List.Chain.nil
  | cons c cs ih =>
    intro r clock hmono hint
    obtain ⟨h1, h2, h3, h4⟩ := Wait_spacing r clock c hmono hint
    simp only [RateLimiter.waitAll]
    refine List.Chain.cons h1 ?_
    have := ih (r.Wait clock c).1 (r.Wait clock c).2.1 (le_of_eq h3) (by rw [h4]; exact hint)
    rw [h3, h4] at this
    exact this

/-- C19: with an explicit clock that never runs backwards and sleeps that never
end early, for every sequence of `Wait` calls on a fresh limiter the call time
recorded by each `Wait` is at least `interval` later than the one recorded by the
previous `Wait`; and the first `Wait` does not sleep, given a clock that reads at
least `interval` past Go's zero time (every present-day clock does, for every
interval). -/
theorem Wait_spaces_calls (interval clock : Int) (runs : List ClockRun)
    (hclock : 0 ≤ clock) (hint : interval < 2 ^ 63) :
    List.Chain' (fun a b : Int => a + interval ≤ b)
      ((NewRateLimiter interval).waitAll clock runs) ∧
    (interval ≤ clock → ∀ c : ClockRun, ((NewRateLimiter interval).Wait clock c).2.2 = none) := by
  constructor
  · have h := waitAll_spacing runs (NewRateLimiter interval) clock hclock hint
    exact List.Chain'.tail (l := (0 : Int) :: _) h
  · intro hle c
    have hb : (0 : Int) ≤ c.beforeNow := Int.ofNat_nonneg _
    unfold RateLimiter.Wait NewRateLimiter
    simp only []
    have hnot : ¬ timeSub (clock + c.beforeNow) 0 < interval := by
      unfold timeSub maxDuration minDuration
      split_ifs <;> omega
    rw [if_neg hnot]

/-- C19 on a limiter of 60 ms (the feeder's `requestInterval`) and a clock of the
year 2023: the first call records its time without sleeping, the second, made 10 ms
later, sleeps 50 ms (and overruns by 1 ms), the third, made two seconds later, does
not wait; consecutive recorded times are at least 60 ms apart. -/
theorem Wait_spaces_calls_witness :
    (NewRateLimiter 60000000).waitAll clock2023 sampleRuns
      = [clock2023 + 100, clock2023 + 61000200, clock2023 + 2061000300] ∧
    List.Chain' (fun a b : Int => a + 60000000 ≤ b)
      ((NewRateLimiter 60000000).waitAll clock2023 sampleRuns) ∧
    ((NewRateLimiter 60000000).Wait clock2023 ⟨0, 0, 100⟩).2.2 = none := by
  have h := Wait_spaces_calls 60000000 clock2023 sampleRuns (by decide) (by decide)
  exact ⟨by decide, h.1, h.2 (by decide) ⟨0, 0, 100⟩⟩

/-! ## Bar stream (claim C20) -/

theorem WriteKlines_sink (w : Writer) (exec : Executor) (symbol : String)
    (klines : List KlineData) (σ : World) :
    (w.WriteKlines exec symbol klines σ).2.sink = σ.sink ++ [SinkCall.klines symbol klines] := by
  unfold Writer.WriteKlines
  simp only []
  split_ifs
  · rfl
  · rfl
  · split <;> rfl

/-- The world just before `processKlineData` calls `aggregateData`: the single bar
has been forwarded, once. -/
theorem processKlineData_eq (r : Realtime) (P : Strconv) (exec : Executor) (symbol : String)
    (klineData : KlineFrame) (σ : World) :
    ∃ σ1 : World, σ1.sink = σ.sink ++ [SinkCall.klines symbol [klineData.toKline P]] ∧
      r.processKlineData P exec symbol klineData σ
        = r.aggregateData exec symbol (klineData.toKline P) σ1 := by
  have hs := WriteKlines_sink r.writer exec symbol [klineData.toKline P] σ
  unfold Realtime.processKlineData
  simp only []
  split
  · exact ⟨_, by simpa using hs, rfl⟩
  · exact ⟨_, by simpa using hs, rfl⟩

theorem aggregateData_other_keys (r : Realtime) (exec : Executor) (symbol : String)
    (kline : KlineData) (σ : World) (k : String) (hk : k ≠ r.key symbol) :
    (r.aggregateData exec symbol kline σ).1.aggregators k = r.aggregators k := by
  unfold Realtime.aggregateData
  simp [hk]

/-- C20 as stated fails on the code: with buffer size 1 a final frame forwards two
single-bar batches for its symbol, the bar itself and the reduced bar of the flush
it triggers, and the aggregation buffer is empty afterwards. -/
theorem final_frame_writes_twice_at_threshold :
    ((sampleRealtime 1).handleKlineFrame goStrconv execOk "BTCUSDT" finalFrame World.empty).2.sink
      = [SinkCall.klines "BTCUSDT" [restBar],
         SinkCall.aggregated "BTCUSDT" "1m" (aggregateKlines [restBar])] ∧
    (aggregateKlines [restBar]).length = 1 ∧
    ((sampleRealtime 1).handleKlineFrame goStrconv execOk "BTCUSDT" finalFrame
      World.empty).1.bufferOf "BTCUSDT" = [] := by
  decide!

/-- C20, amended: a frame whose bar is not final changes nothing, neither the world
nor any buffer. A frame whose bar is final forwards exactly one single-bar batch
for its symbol with `WriteKlines`, leaves the buffers of all other keys alone, and
appends that same bar to the buffer of its symbol: below the configured buffer size
the buffer grows by the bar and nothing else is forwarded; when the buffer reaches
the configured size it is flushed in the same step, so that one reduced bar is
forwarded as a second batch and the buffer is left empty. -/
theorem handleKlineFrame_gates_on_final (r : Realtime) (P : Strconv) (exec : Executor)
    (symbol : String) (klineData : KlineFrame) (σ : World) (buf : List KlineData)
    (hb : r.HoldsBuffer symbol buf) :
    (klineData.IsFinal = false → r.handleKlineFrame P exec symbol klineData σ = (r, σ)) ∧
    (klineData.IsFinal = true →
      (∀ k, k ≠ r.key symbol →
        (r.handleKlineFrame P exec symbol klineData σ).1.aggregators k = r.aggregators k) ∧
      (((buf.length + 1 : Nat) : Int) < r.config.BufferSize →
        (r.handleKlineFrame P exec symbol klineData σ).2.sink
          = σ.sink ++ [SinkCall.klines symbol [klineData.toKline P]] ∧
        (r.handleKlineFrame P exec symbol klineData σ).1.HoldsBuffer symbol
          (buf ++ [klineData.toKline P])) ∧
      (r.config.BufferSize ≤ ((buf.length + 1 : Nat) : Int) →
        (r.handleKlineFrame P exec symbol klineData σ).2.sink
          = σ.sink ++ [SinkCall.klines symbol [klineData.toKline P],
              SinkCall.aggregated symbol r.config.UpdateFreq
                (aggregateKlines (buf ++ [klineData.toKline P]))] ∧
        (r.handleKlineFrame P exec symbol klineData σ).1.HoldsBuffer symbol [])) := by
  constructor
  · intro hf
    simp [Realtime.handleKlineFrame, hf]
  · intro hf
    obtain ⟨σ1, hs1, hp⟩ := processKlineData_eq r P exec symbol klineData σ
    have hh : r.handleKlineFrame P exec symbol klineData σ
        = r.aggregateData exec symbol (klineData.toKline P) σ1 := by
      simp only [Realtime.handleKlineFrame, hf, if_true]
      exact hp
    rw [hh]
    refine ⟨?_, ?_, ?_⟩
    · intro k hk
      exact aggregateData_other_keys r exec symbol _ σ1 k hk
    · intro hlt
      obtain ⟨h1, h2⟩ := aggregateData_below r exec symbol (klineData.toKline P) σ1 buf hb hlt
      exact ⟨by rw [h1, hs1], h2⟩
    · intro hge
      obtain ⟨h1, h2⟩ := aggregateData_at r exec symbol (klineData.toKline P) σ1 buf hb hge
      exact ⟨by rw [h1, hs1]; simp, h2⟩

/-- C20, amended, with buffer size 3 and no aggregator yet: the open frame changes
nothing, and the final frame forwards the single decoded bar once and leaves it as
the only bar in the buffer of "BTCUSDT". -/
theorem handleKlineFrame_gates_on_final_witness :
    ((sampleRealtime 3).handleKlineFrame goStrconv execOk "BTCUSDT" openFrame World.empty).2
      = World.empty ∧
    ((sampleRealtime 3).handleKlineFrame goStrconv execOk "BTCUSDT" finalFrame World.empty).2.sink
      = [SinkCall.klines "BTCUSDT" [restBar]] ∧
    ((sampleRealtime 3).handleKlineFrame goStrconv execOk "BTCUSDT" finalFrame
      World.empty).1.bufferOf "BTCUSDT" = [restBar] := by
  have h := handleKlineFrame_gates_on_final (sampleRealtime 3) goStrconv execOk "BTCUSDT"
  have hopen := (h openFrame World.empty [] (Or.inr ⟨rfl, rfl⟩)).1 rfl
  have hfinal := ((h finalFrame World.empty [] (Or.inr ⟨rfl, rfl⟩)).2 rfl).2.1 (by decide)
  have hbar : finalFrame.toKline goStrconv = restBar := by decide!
  rw [hbar] at hfinal
  refine ⟨by rw [hopen], ?_, ?_⟩
  · rw [hfinal.1]; rfl
  · exact bufferOf_of_HoldsBuffer _ _ _ hfinal.2

/-! ## Well-formedness of the reduced bar (claim C29) -/

/-- C29: for every non-empty buffer of well-formed bars
(`low ≤ min(open, close) ≤ max(open, close) ≤ high`), `aggregateKlines` returns one
bar and that bar is well-formed too. -/
theorem aggregateKlines_preserves_wellFormed (klines : List KlineData) (h : klines ≠ [])
    (hwf : ∀ k ∈ klines, k.WellFormed) :
    ∃ agg : KlineData, aggregateKlines klines = [agg] ∧ agg.WellFormed := by
  refine ⟨_, aggregateKlines_of_ne_nil klines h, ?_⟩
  have hfirst := hwf _ (List.head_mem h)
  have hlast := hwf _ (List.getLast_mem h)
  have hhi := (foldl_aggregateStep_High_ge klines
    (aggregateInit (klines.head h) (klines.getLast h))).2
  have hlo := (foldl_aggregateStep_Low_le klines
    (aggregateInit (klines.head h) (klines.getLast h))).2
  have hhf := hhi _ (List.head_mem h)
  have hhl := hhi _ (List.getLast_mem h)
  have hlf := hlo _ (List.head_mem h)
  have hll := hlo _ (List.getLast_mem h)
  unfold KlineData.WellFormed at hfirst hlast ⊢
  rw [foldl_aggregateStep_Open, foldl_aggregateStep_Close]
  simp only [aggregateInit]
  obtain ⟨f1, -, f3⟩ := hfirst
  obtain ⟨l1, -, l3⟩ := hlast
  refine ⟨le_min ?_ ?_, min_le_max, max_le ?_ ?_⟩
  · exact le_trans hlf (le_trans f1 (min_le_left _ _))
  · exact le_trans hll (le_trans l1 (min_le_right _ _))
  · exact le_trans (le_trans (le_max_left _ _) f3) hhf
  · exact le_trans (le_trans (le_max_right _ _) l3) hhl

/-- C29 on the design document's three bars, each of which is well-formed: the
reduced bar is well-formed. -/
theorem aggregateKlines_preserves_wellFormed_witness :
    ∃ agg : KlineData, aggregateKlines specBars = [agg] ∧ agg.WellFormed :=
  aggregateKlines_preserves_wellFormed specBars (by simp [specBars]) (by
    intro k hk
    simp only [specBars, List.mem_cons, List.mem_singleton, List.not_mem_nil, or_false] at hk
    rcases hk with rfl | rfl | rfl <;>
      (unfold KlineData.WellFormed sampleBar; norm_num))

/-! ## Cancellation of a backfill run (claim C22) -/

/-- C22: if the cancellation signal is set when an iteration of the loop of
`backfillSymbol` begins, the loop returns at once with the state it has: no request
and no Sink write is added in that iteration or later. In particular a task that
starts after cancellation returns the state it was given, without any fetch. -/
theorem backfillSymbol_returns_on_cancellation (b : Backfill) (env : BackfillEnv)
    (symbol : String) (fuel : Nat) (currentTime : Int) (st : BackfillState)
    (hctx : env.ctxDone st.requests = true) :
    b.loop env symbol (fuel + 1) currentTime st = some st ∧
    b.backfillSymbol env symbol (fuel + 1) st = some st := by
  have h : ∀ t : Int, b.loop env symbol (fuel + 1) t st = some st := by
    intro t
    by_cases hlt : t < b.config.EndTime
    · simp [Backfill.loop, hlt, hctx]
    · exact loop_done b env symbol fuel t st hlt
  exact ⟨h currentTime, h b.config.StartTime⟩

/-- C22 on the sample backfill: cancelled from the start, the task returns the
empty state after one look at the signal; cancelled once two requests are made, it
ends with exactly the first two windows requested and two batches forwarded. -/
theorem backfillSymbol_returns_on_cancellation_witness :
    sampleBackfill.backfillSymbol envCancelled "BTCUSDT" 1 BackfillState.empty
      = some BackfillState.empty ∧
    (sampleBackfill.backfillSymbol envCancelledAfterTwo "BTCUSDT" 3 BackfillState.empty).map
      (fun st => (st.requests.map KlinesRequest.window, st.world.sink.length))
      = some ([(0, 60 * minute), (60 * minute, 120 * minute)], 2) := by
  refine ⟨(backfillSymbol_returns_on_cancellation sampleBackfill envCancelled "BTCUSDT" 0 0
    BackfillState.empty rfl).2, by decide!⟩

/-- With a zero step and no cancellation the loop never ends: whatever the fuel, it
runs out. -/
theorem loop_zero_step (b : Backfill) (env : BackfillEnv) (symbol : String)
    (hctx : ∀ h, env.ctxDone h = false) (hstep : b.step = 0) (currentTime : Int)
    (hlt : currentTime < b.config.EndTime) (fuel : Nat) :
    ∀ st : BackfillState, b.loop env symbol fuel currentTime st = none := by
  induction fuel with
  | zero => intro st; rfl
  | succ fuel ih =>
    intro st
    obtain ⟨σ, hσ⟩ := loop_iterate b env symbol fuel currentTime st hlt (hctx _)
    rw [hσ, hstep, add_zero, min_eq_left (le_of_lt hlt)]
    exact ih _

/-! ## Membership and the working set (claim C28) -/

/-- On ASCII runes Go's case folding and upper-casing agree: two runes match under
`EqualFold` exactly when their upper cases are equal. -/
theorem runeEqualFold_iff_ascii :
    ∀ a b : Fin 128, runeEqualFold (Char.ofNat a) (Char.ofNat b)
      = decide (unicodeToUpper (Char.ofNat a) = unicodeToUpper (Char.ofNat b)) := by
  decide!

theorem equalFoldRunes_iff_ascii (l1 : List Char) :
    ∀ l2 : List Char, (∀ c ∈ l1, c.toNat < 128) → (∀ c ∈ l2, c.toNat < 128) →
      (equalFoldRunes l1 l2 = true ↔ l1.map unicodeToUpper = l2.map unicodeToUpper) := by
  induction l1 with
  | nil =>
    intro l2 _ _
    cases l2 <;> simp [equalFoldRunes]
  | cons a as ih =>
    intro l2 h1 h2
    cases l2 with
    | nil => simp [equalFoldRunes]
    | cons b bs =>
      have ha : a.toNat < 128 := h1 a (List.mem_cons_self _ _)
      have hb : b.toNat < 128 := h2 b (List.mem_cons_self _ _)
      have hr := runeEqualFold_iff_ascii ⟨a.toNat, ha⟩ ⟨b.toNat, hb⟩
      simp only [Char.ofNat_toNat] at hr
      have := ih bs (fun c hc => h1 c (List.mem_cons_of_mem _ hc))
        (fun c hc => h2 c (List.mem_cons_of_mem _ hc))
      simp only [equalFoldRunes, hr, Bool.and_eq_true, decide_eq_true_eq, this, List.map_cons,
        List.cons.injEq]

/-- On ASCII strings `strings.EqualFold` is equality of the upper-cased forms. -/
theorem goStrings_EqualFold_iff_ascii (a b : String) (ha : ∀ c ∈ a.data, c.toNat < 128)
    (hb : ∀ c ∈ b.data, c.toNat < 128) :
    goStrings.EqualFold a b = true ↔ goStrings.ToUpper a = goStrings.ToUpper b := by
  have h := equalFoldRunes_iff_ascii a.data b.data ha hb
  simp only [goStrings]
  rw [h]
  constructor
  · intro he; rw [he]
  · intro he; exact congrArg String.data he

/-- C28 as stated fails on the code: with the include "K" and the Kelvin sign
U+212A excluded, `GetAllSymbols` returns `["K"]`, because the upper-cased forms
differ, while `IsValidSymbol("K")` is false, because `strings.EqualFold` matches "K"
with the Kelvin sign. -/
theorem IsValidSymbol_differs_on_kelvin :
    kelvinManager.GetAllSymbols goStrings = ["K"] ∧
    goStrings.EqualFold "K" "K" = true ∧
    kelvinManager.IsValidSymbol goStrings "K" = false := by
  decide

/-- C28, amended: for every manager state and symbol `s` such that, on `s` and the
entries of the manager's three lists, `strings.EqualFold` holds exactly when the
upper-cased forms are equal (as it does on ASCII strings), `IsValidSymbol(s)` is
true if and only if some element of `GetAllSymbols()` equals `s` ignoring case. -/
theorem IsValidSymbol_iff_mem_GetAllSymbols (S : Strings) (m : Manager) (s : String)
    (hagree : ∀ a ∈ s :: (m.symbols ++ m.excludeSymbols ++ m.allSymbols),
      ∀ b ∈ s :: (m.symbols ++ m.excludeSymbols ++ m.allSymbols),
        (S.EqualFold a b = true ↔ S.ToUpper a = S.ToUpper b)) :
    m.IsValidSymbol S s = true ↔ ∃ e ∈ m.GetAllSymbols S, S.EqualFold s e = true := by
  have hs : s ∈ s :: (m.symbols ++ m.excludeSymbols ++ m.allSymbols) := List.mem_cons_self _ _
  have hsym : ∀ x ∈ m.symbols, x ∈ s :: (m.symbols ++ m.excludeSymbols ++ m.allSymbols) := by
    intro x hx; simp [hx]
  have hexc : ∀ x ∈ m.excludeSymbols,
      x ∈ s :: (m.symbols ++ m.excludeSymbols ++ m.allSymbols) := by
    intro x hx; simp [hx]
  have hall : ∀ x ∈ m.allSymbols, x ∈ s :: (m.symbols ++ m.excludeSymbols ++ m.allSymbols) := by
    intro x hx; simp [hx]
  -- the shared argument, for whichever list is in force
  have key : ∀ L : List String,
      (∀ x ∈ L, x ∈ s :: (m.symbols ++ m.excludeSymbols ++ m.allSymbols)) →
      ((m.excludeSymbols.any (fun exclude => S.EqualFold s exclude) = false ∧
          L.any (fun x => S.EqualFold s x) = true) ↔
        ∃ e ∈ L.filter (fun x => decide (∀ e ∈ m.excludeSymbols, S.ToUpper x ≠ S.ToUpper e)),
          S.EqualFold s e = true) := by
    intro L hL
    constructor
    · rintro ⟨hno, hany⟩
      obtain ⟨x, hx, hfx⟩ := List.any_eq_true.mp hany
      refine ⟨x, List.mem_filter.mpr ⟨hx, ?_⟩, hfx⟩
      rw [decide_eq_true_iff]
      intro e he heq
      have h1 : S.ToUpper s = S.ToUpper x := (hagree s hs x (hL x hx)).mp hfx
      have h2 : S.EqualFold s e = true := (hagree s hs e (hexc e he)).mpr (h1.trans heq)
      have h3 : m.excludeSymbols.any (fun exclude => S.EqualFold s exclude) = true :=
        List.any_eq_true.mpr ⟨e, he, h2⟩
      rw [hno] at h3
      exact Bool.false_ne_true h3
    · rintro ⟨x, hx, hfx⟩
      obtain ⟨hxL, hkeep⟩ := List.mem_filter.mp hx
      rw [decide_eq_true_iff] at hkeep
      refine ⟨?_, List.any_eq_true.mpr ⟨x, hxL, hfx⟩⟩
      cases hany : m.excludeSymbols.any (fun exclude => S.EqualFold s exclude)
      · rfl
      · obtain ⟨e, he, hfe⟩ := List.any_eq_true.mp hany
        have h1 : S.ToUpper s = S.ToUpper x := (hagree s hs x (hL x hxL)).mp hfx
        have h2 : S.ToUpper s = S.ToUpper e := (hagree s hs e (hexc e he)).mp hfe
        exact absurd (h1.symm.trans h2) (hkeep e he)
  unfold Manager.IsValidSymbol Manager.GetAllSymbols
  by_cases hlen : m.symbols.length > 0
  · simp only [hlen, if_true]
    rw [filterSymbols_eq_filter, ← key m.symbols hsym]
    cases hany : m.excludeSymbols.any (fun exclude => S.EqualFold s exclude) <;> simp
  · simp only [hlen, if_false]
    rw [filterSymbols_eq_filter, ← key m.allSymbols hall]
    cases hany : m.excludeSymbols.any (fun exclude => S.EqualFold s exclude) <;> simp

/-- C28, amended, on the design document's manager (includes BTCUSDT and ETHUSDT,
excludes ETHUSDT): "btcusdt" is valid and matches the working set, "ethusdt" is
neither. -/
theorem IsValidSymbol_iff_mem_GetAllSymbols_witness :
    (specManager.IsValidSymbol goStrings "btcusdt" = true ↔
      ∃ e ∈ specManager.GetAllSymbols goStrings, goStrings.EqualFold "btcusdt" e = true) ∧
    specManager.IsValidSymbol goStrings "btcusdt" = true ∧
    specManager.IsValidSymbol goStrings "ethusdt" = false := by
  refine ⟨IsValidSymbol_iff_mem_GetAllSymbols goStrings specManager "btcusdt" (by decide),
    by decide, by decide⟩

/-! ## Trade timestamps (claim C25) -/

/-- The `time.Unix` call of `WriteTrades` in closed form: floored seconds and the
remaining milliseconds as nanoseconds. -/
theorem unixTime_trade (t : Int) (hlo : -(2 ^ 63) ≤ t) (hhi : t < 2 ^ 63) :
    unixTime (Int.tdiv t 1000) (wrapInt64 (Int.tmod t 1000 * 1000000))
      = (t / 1000, t % 1000 * 1000000) := by
  have hw : ∀ x : Int, -(2 ^ 63) ≤ x → x < 2 ^ 63 → wrapInt64 x = x := wrapInt64_of_fits
  rcases le_or_lt 0 t with hnn | hneg
  · have hd : Int.tdiv t 1000 = t / 1000 := Int.tdiv_eq_ediv hnn (by decide)
    have hm : Int.tmod t 1000 = t % 1000 := Int.tmod_eq_emod hnn (by decide)
    unfold unixTime
    rw [hd, hm, hw _ (by omega) (by omega)]
    have hno : ¬ (t % 1000 * 1000000 < 0 ∨ t % 1000 * 1000000 ≥ 1000000000) := by omega
    simp only [hno, if_false]
  · obtain ⟨u, rfl⟩ : ∃ u : Int, t = -u := ⟨-t, by ring⟩
    have hu : 0 < u := by omega
    have hd : Int.tdiv (-u) 1000 = -(u / 1000) := by
      rw [Int.neg_tdiv, Int.tdiv_eq_ediv (le_of_lt hu) (by decide)]
    have hm : Int.tmod (-u) 1000 = -(u % 1000) := by
      rw [Int.tmod_def, hd]
      omega
    unfold unixTime
    rw [hd, hm, hw _ (by omega) (by omega)]
    by_cases hz : u % 1000 = 0
    · have hno : ¬ (-(u % 1000) * 1000000 < 0 ∨ -(u % 1000) * 1000000 ≥ 1000000000) := by omega
      simp only [hno, if_false]
      refine Prod.ext ?_ ?_ <;> simp only [] <;> omega
    · have hyes : -(u % 1000) * 1000000 < 0 ∨ -(u % 1000) * 1000000 ≥ 1000000000 := by omega
      have hn : Int.tdiv (-(u % 1000) * 1000000) 1000000000 = 0 := by
        have : -(u % 1000) * 1000000 = -((u % 1000) * 1000000) := by ring
        rw [this, Int.neg_tdiv, Int.tdiv_eq_ediv (by omega) (by decide)]
        omega
      simp only [hyes, if_true, hn, add_zero, zero_mul]
      rw [hw 0 (by decide) (by decide), sub_zero, hw (-(u / 1000)) (by omega) (by omega),
        hw (-(u % 1000) * 1000000) (by omega) (by omega)]
      have hlt : -(u % 1000) * 1000000 < 0 := by omega
      simp only [hlt, if_true]
      rw [hw _ (by omega) (by omega), hw _ (by omega) (by omega)]
      refine Prod.ext ?_ ?_ <;> simp only [] <;> omega

/-- C25: for every trade time `t` in epoch milliseconds (an `int64`), the Epoch and
Nanosecond values that `WriteTrades` computes satisfy `0 ≤ Nanosecond < 10^9`,
Nanosecond is a multiple of `10^6`, `Epoch * 1000 + Nanosecond / 10^6 = t`, Epoch is
the floor of `t / 1000` (also for negative `t`), and the conversion of the
nanoseconds to `int32` does not wrap. -/
theorem tradeTimestamp_split (t : Int) (hlo : -(2 ^ 63) ≤ t) (hhi : t < 2 ^ 63) :
    0 ≤ (tradeTimestamp t).2 ∧ (tradeTimestamp t).2 < 10 ^ 9 ∧
    (tradeTimestamp t).2 % 10 ^ 6 = 0 ∧
    (tradeTimestamp t).1 * 1000 + (tradeTimestamp t).2 / 10 ^ 6 = t ∧
    ((tradeTimestamp t).1 * 1000 ≤ t ∧ t < ((tradeTimestamp t).1 + 1) * 1000) ∧
    (tradeTimestamp t).2
      = (unixTime (Int.tdiv t 1000) (wrapInt64 (Int.tmod t 1000 * 1000000))).2 := by
  have hu := unixTime_trade t hlo hhi
  have hfit : wrapInt32 (t % 1000 * 1000000) = t % 1000 * 1000000 := by
    unfold wrapInt32
    omega
  have h : tradeTimestamp t = (t / 1000, t % 1000 * 1000000) := by
    unfold tradeTimestamp
    simp only [hu, hfit]
  rw [hu, h]
  simp only []
  refine ⟨by omega, by omega, by omega, by omega, ⟨by omega, by omega⟩, trivial⟩

/-- C25 on a trade one millisecond before the epoch and on a trade of 2023: the
first gets Epoch -1 and 999000000 nanoseconds, the second Epoch 1700000000 and
123000000 nanoseconds. -/
theorem tradeTimestamp_split_witness :
    tradeTimestamp (-1) = (-1, 999000000) ∧
    tradeTimestamp 1700000000123 = (1700000000, 123000000) ∧
    (tradeTimestamp (-1)).1 * 1000 + (tradeTimestamp (-1)).2 / 10 ^ 6 = -1 := by
  refine ⟨by decide, by decide, ?_⟩
  exact (tradeTimestamp_split (-1) (by decide) (by decide)).2.2.2.1

/-! ## Configuration (claims C24, C26 and C27) -/

/-- C24 as stated fails on the code in two ways. A configuration with backfill
enabled and start_time equal to end_time is accepted: `validateConfig` tests
`StartTime.After(EndTime)`. And a configuration with start_time after end_time but
without symbols is rejected with another error, because the symbol check comes
first. -/
theorem ParseConfig_accepts_equal_start_and_end :
    (parseFields sampleConfigEnv
      (sampleConf "2023-01-01T00:00:00Z" "2023-01-01T00:00:00Z" 60)).Backfill.Enabled = true ∧
    failure (ParseConfig sampleConfigEnv
      (sampleConf "2023-01-01T00:00:00Z" "2023-01-01T00:00:00Z" 60)) = none ∧
    (parseFields sampleConfigEnv noSymbolsConf).Backfill.EndTime
      < (parseFields sampleConfigEnv noSymbolsConf).Backfill.StartTime ∧
    failure (ParseConfig sampleConfigEnv noSymbolsConf)
      = some "at least one symbol must be specified" := by
  decide!

/-- C24, amended: for every configuration that passes the checks made before (a
valid base timeframe, at least one symbol, a start_time that is set) with backfill
enabled and start_time strictly later than end_time, where an omitted end_time
counts as the current time, `ParseConfig` returns the error
"backfill start_time must be before end_time". -/
theorem ParseConfig_rejects_start_after_end (env : ConfigEnv) (conf : List (String × ConfValue))
    (htf : (parseFields env conf).Timeframe ∈ validTimeframes)
    (hsym : (parseFields env conf).Symbols ≠ [])
    (hen : (parseFields env conf).Backfill.Enabled = true)
    (hstart : (parseFields env conf).Backfill.StartTime ≠ 0)
    (hafter : (if (parseFields env conf).Backfill.EndTime = 0 then env.now
        else (parseFields env conf).Backfill.EndTime)
      < (parseFields env conf).Backfill.StartTime) :
    ParseConfig env conf = .error "backfill start_time must be before end_time" := by
  unfold ParseConfig validateConfig
  generalize parseFields env conf = c at htf hsym hen hstart hafter
  have hlen : ¬ c.Symbols.length = 0 := fun h => hsym (List.length_eq_zero.mp h)
  simp only [htf, not_true_eq_false, if_false, hlen, hen, if_true, hstart]
  by_cases hz : c.Backfill.EndTime = 0
  · simp only [hz, if_true] at hafter ⊢
    simp [hafter]
  · simp only [hz, if_false] at hafter ⊢
    simp [hafter]

/-- C24, amended, on the sample configuration with start on 2 January and end on
1 January 2023. -/
theorem ParseConfig_rejects_start_after_end_witness :
    ParseConfig sampleConfigEnv (sampleConf "2023-01-02T00:00:00Z" "2023-01-01T00:00:00Z" 60)
      = .error "backfill start_time must be before end_time" :=
  ParseConfig_rejects_start_after_end sampleConfigEnv
    (sampleConf "2023-01-02T00:00:00Z" "2023-01-01T00:00:00Z" 60)
    (by decide) (by decide) (by decide) (by decide) (by decide)

/-- A configuration that `validateConfig` accepts keeps its realtime section and
its batch size. -/
theorem validateConfig_ok (now : Int) (c c' : Config) (h : validateConfig now c = .ok c') :
    c'.Realtime = c.Realtime ∧ c'.Backfill.BatchSize = c.Backfill.BatchSize ∧
      c'.Backfill.Parallelism = c.Backfill.Parallelism := by
  unfold validateConfig at h
  by_cases htf : c.Timeframe ∈ validTimeframes
  swap
  · simp [htf] at h
  by_cases hlen : c.Symbols.length = 0
  · simp [htf, hlen] at h
  by_cases hstream : c.Realtime.Enabled = true ∧ c.Realtime.StreamType ∉ validStreamTypes
  · by_cases hen : c.Backfill.Enabled = true <;> by_cases hst : c.Backfill.StartTime = 0 <;>
      by_cases hz : c.Backfill.EndTime = 0 <;>
      by_cases hlt1 : now < c.Backfill.StartTime <;>
      by_cases hlt2 : c.Backfill.EndTime < c.Backfill.StartTime <;>
      by_cases hint : c.Backfill.Interval ∈ validTimeframes <;>
      simp [htf, hlen, hen, hst, hz, hlt1, hlt2, hint, hstream] at h
  · by_cases hen : c.Backfill.Enabled = true <;> by_cases hst : c.Backfill.StartTime = 0 <;>
      by_cases hz : c.Backfill.EndTime = 0 <;>
      by_cases hlt1 : now < c.Backfill.StartTime <;>
      by_cases hlt2 : c.Backfill.EndTime < c.Backfill.StartTime <;>
      by_cases hint : c.Backfill.Interval ∈ validTimeframes <;>
      simp [htf, hlen, hen, hst, hz, hlt1, hlt2, hint, hstream] at h <;>
      (subst h; exact ⟨rfl, rfl, rfl⟩)

/-- A configuration with a valid base timeframe, a symbol, backfill disabled and a
valid stream type is accepted as it is. -/
theorem validateConfig_of_valid (now : Int) (c : Config) (htf : c.Timeframe ∈ validTimeframes)
    (hsym : c.Symbols ≠ []) (hoff : c.Backfill.Enabled = false)
    (hstream : c.Realtime.StreamType ∈ validStreamTypes) : validateConfig now c = .ok c := by
  unfold validateConfig
  have hlen : ¬ c.Symbols.length = 0 := fun h => hsym (List.length_eq_zero.mp h)
  simp [htf, hlen, hoff, hstream]

/-- With a cadence that does not validate, `WriteAggregatedData` of a non-empty
batch fails before the storage engine is reached. -/
theorem WriteAggregatedData_of_invalid (w : Writer) (exec : Executor) (symbol tf : String)
    (data : List KlineData) (σ : World) (hinv : w.ValidateTimeframe (w.ConvertTimeframe tf) = false)
    (hdata : data ≠ []) :
    (∃ err, (w.WriteAggregatedData exec symbol tf data σ).1 = some err) ∧
    (w.WriteAggregatedData exec symbol tf data σ).2.writes = σ.writes := by
  have hlen : ¬ data.length = 0 := fun h => hdata (List.length_eq_zero.mp h)
  unfold Writer.WriteAggregatedData
  simp only [hlen, if_false, hinv, Bool.not_false, if_true]
  exact ⟨⟨_, rfl⟩, trivial⟩

/-- A flush under a cadence that does not validate stores nothing and still clears
the buffer. -/
theorem flush_of_invalid (a : DataAggregator) (w : Writer) (exec : Executor) (σ : World)
    (hinv : w.ValidateTimeframe (w.ConvertTimeframe a.timeframe) = false) :
    (a.flush w exec σ).1.buffer = [] ∧ (a.flush w exec σ).2.writes = σ.writes := by
  refine ⟨by rw [flush_fst], ?_⟩
  by_cases hb : a.buffer = []
  · rw [flush_of_empty a w exec σ hb]
  · have hne : aggregateKlines a.buffer ≠ [] := by
      rw [aggregateKlines_of_ne_nil a.buffer hb]; simp
    have hw := (WriteAggregatedData_of_invalid w exec a.symbol a.timeframe
      (aggregateKlines a.buffer) σ hinv hne).2
    unfold DataAggregator.flush
    rw [if_neg (fun hl => hb (List.length_eq_zero.mp hl))]
    simp only []
    split <;> simpa using hw

/-- C26: when the realtime section of the configuration map omits update_freq, the
parsed cadence is "1s", also in every configuration that `ParseConfig` returns, and
`ParseConfig` accepts such a map whenever the base timeframe is valid, a symbol is
given, backfill is off and the stream type is valid. `ConvertTimeframe("1s")` is
"1s" and `ValidateTimeframe` rejects it, so `WriteAggregatedData` with cadence "1s"
and a non-empty batch returns an error without reaching the storage engine, and
every flush of an aggregator of that cadence empties the buffer and stores
nothing. -/
theorem default_realtime_cadence_not_writable (env : ConfigEnv)
    (conf realtimeConf : List (String × ConfValue))
    (hsec : conf.lookup "realtime" = some (.map realtimeConf))
    (homit : lookupString realtimeConf "update_freq" = none) :
    (parseFields env conf).Realtime.UpdateFreq = "1s" ∧
    (∀ config, ParseConfig env conf = .ok config → config.Realtime.UpdateFreq = "1s") ∧
    ((parseFields env conf).Timeframe ∈ validTimeframes → (parseFields env conf).Symbols ≠ [] →
      (parseFields env conf).Backfill.Enabled = false →
      (parseFields env conf).Realtime.StreamType ∈ validStreamTypes →
      ParseConfig env conf = .ok (parseFields env conf)) ∧
    (∀ w : Writer, w.ConvertTimeframe "1s" = "1s" ∧ w.ValidateTimeframe "1s" = false) ∧
    (∀ (w : Writer) (exec : Executor) (symbol : String) (data : List KlineData) (σ : World),
      data ≠ [] →
      (∃ err, (w.WriteAggregatedData exec symbol "1s" data σ).1 = some err) ∧
      (w.WriteAggregatedData exec symbol "1s" data σ).2.writes = σ.writes) ∧
    (∀ (a : DataAggregator) (w : Writer) (exec : Executor) (σ : World), a.timeframe = "1s" →
      (a.flush w exec σ).1.buffer = [] ∧ (a.flush w exec σ).2.writes = σ.writes) := by
  have hfreq : (parseFields env conf).Realtime.UpdateFreq = "1s" := by
    simp [parseFields, hsec, toStringMap, parseRealtime, homit]
  have hconv : ∀ w : Writer, w.ConvertTimeframe "1s" = "1s" :=
    fun w => ConvertTimeframe_of_not_code w "1s" (by decide)
  have hval : ∀ w : Writer, w.ValidateTimeframe "1s" = false := by
    intro w
    cases hv : w.ValidateTimeframe "1s"
    · rfl
    · exact absurd ((ValidateTimeframe_iff w "1s").mp hv) (by decide)
  have hinv : ∀ w : Writer, w.ValidateTimeframe (w.ConvertTimeframe "1s") = false := by
    intro w; rw [hconv w]; exact hval w
  refine ⟨hfreq, ?_, ?_, fun w => ⟨hconv w, hval w⟩, ?_, ?_⟩
  · intro config hok
    rw [(validateConfig_ok env.now _ config hok).1, hfreq]
  · intro htf hsym hoff hstream
    exact validateConfig_of_valid env.now _ htf hsym hoff hstream
  · intro w exec symbol data σ hdata
    exact WriteAggregatedData_of_invalid w exec symbol "1s" data σ (hinv w) hdata
  · intro a w exec σ ha
    exact flush_of_invalid a w exec σ (by rw [ha]; exact hinv w)

/-- C26 on a configuration map with one symbol and a realtime section that sets
only `enabled`: it is accepted with cadence "1s", and flushing the design
document's three bars under that cadence empties the buffer, stores nothing and
logs the failure. -/
theorem default_realtime_cadence_not_writable_witness :
    (∃ config, ParseConfig sampleConfigEnv realtimeOnlyConf = .ok config ∧
      config.Realtime.UpdateFreq = "1s") ∧
    (defaultCadenceAggregator.flush sampleWriter execOk World.empty).1.buffer = [] ∧
    (defaultCadenceAggregator.flush sampleWriter execOk World.empty).2.writes = [] ∧
    (defaultCadenceAggregator.flush sampleWriter execOk World.empty).2.errors
      = ["Failed to write aggregated data for BTCUSDT/1s: invalid timeframe 1s after conversion"]
    := by
  have h := default_realtime_cadence_not_writable sampleConfigEnv realtimeOnlyConf
    [("enabled", .bool true)] rfl rfl
  have hf := h.2.2.2.2.2 defaultCadenceAggregator sampleWriter execOk World.empty rfl
  refine ⟨⟨_, h.2.2.1 (by decide) (by decide) (by decide) (by decide), h.1⟩, hf.1, hf.2, ?_⟩
  decide!

/-- The loop of `backfillSymbol` goes through `iteration`: without cancellation and
before the end of the range, one more unit of fuel is one pass through the body. -/
theorem loop_succ_eq_iteration (b : Backfill) (env : BackfillEnv) (symbol : String)
    (fuel : Nat) (currentTime : Int) (st : BackfillState) (h : currentTime < b.config.EndTime)
    (hctx : env.ctxDone st.requests = false) :
    b.loop env symbol (fuel + 1) currentTime st
      = b.loop env symbol fuel (b.iteration env symbol currentTime st).1
          (b.iteration env symbol currentTime st).2 := by
  simp only [Backfill.loop, Backfill.iteration, h, hctx, if_true, Bool.false_eq_true, if_false]
  split <;> rfl

/-- Whenever the loop of `backfillSymbol` ends within the fuel, `iterations` has the
state it ends in. -/
theorem iterations_of_loop (b : Backfill) (env : BackfillEnv) (symbol : String) (fuel : Nat) :
    ∀ (currentTime : Int) (st st' : BackfillState),
      b.loop env symbol fuel currentTime st = some st' →
      (b.iterations env symbol fuel currentTime st).2 = st' := by
  induction fuel with
  | zero =>
    intro currentTime st st' h
    simp [Backfill.loop] at h
  | succ fuel ih =>
    intro currentTime st st' h
    by_cases hlt : currentTime < b.config.EndTime
    · cases hctx : env.ctxDone st.requests
      · rw [loop_succ_eq_iteration b env symbol fuel currentTime st hlt hctx] at h
        simp only [Backfill.iterations, hlt, hctx, if_true, Bool.false_eq_true, if_false]
        exact ih _ _ _ h
      · simp only [Backfill.loop, hlt, hctx, if_true, Option.some.injEq] at h
        simp only [Backfill.iterations, hlt, hctx, if_true]
        exact h
    · simp only [Backfill.loop, hlt, if_false, Option.some.injEq] at h
      simp only [Backfill.iterations, hlt, if_false]
      exact h

/-- With a zero step, a pass through the body of the loop requests the empty window
at `currentTime` and leaves `currentTime` where it was. -/
theorem iteration_zero_step (b : Backfill) (env : BackfillEnv) (symbol : String)
    (hstep : b.step = 0) (currentTime : Int) (hle : currentTime ≤ b.config.EndTime)
    (st : BackfillState) :
    (b.iteration env symbol currentTime st).1 = currentTime ∧
    (b.iteration env symbol currentTime st).2.requests = st.requests ++
      [{ symbol := symbol, interval := b.config.Interval, startTime := currentTime,
         endTime := currentTime, limit := b.config.BatchSize }] := by
  have hgt : ¬ currentTime > b.config.EndTime := not_lt.mpr hle
  simp only [Backfill.iteration, hstep, add_zero, hgt, if_false]
  split <;> exact ⟨rfl, rfl⟩

/-- With a zero step and no cancellation, `n` passes through the body of the loop
request the same empty window `n` times and leave `currentTime` where it was. -/
theorem iterations_zero_step (b : Backfill) (env : BackfillEnv) (symbol : String)
    (hctx : ∀ h, env.ctxDone h = false) (hstep : b.step = 0) (currentTime : Int)
    (hlt : currentTime < b.config.EndTime) (n : Nat) :
    ∀ st : BackfillState,
      (b.iterations env symbol n currentTime st).1 = currentTime ∧
      (b.iterations env symbol n currentTime st).2.requests = st.requests ++
        List.replicate n
          { symbol := symbol, interval := b.config.Interval, startTime := currentTime,
            endTime := currentTime, limit := b.config.BatchSize } := by
  induction n with
  | zero =>
    intro st
    simp [Backfill.iterations]
  | succ n ih =>
    intro st
    obtain ⟨h1, h2⟩ := iteration_zero_step b env symbol hstep currentTime (le_of_lt hlt) st
    simp only [Backfill.iterations, hlt, hctx, if_true, Bool.false_eq_true, if_false, h1]
    obtain ⟨i1, i2⟩ := ih (b.iteration env symbol currentTime st).2
    refine ⟨i1, ?_⟩
    rw [i2, h2, List.replicate_succ, List.append_assoc, List.singleton_append]

/-- C27: a backfill section with batch_size 0 is parsed to batch size 0, stays 0 in
every configuration that `ParseConfig` returns, and `validateConfig` gives the same
verdict whatever the batch size and the parallelism are. With batch size 0, start
before end and no cancellation, every pass through the body of the loop of
`backfillSymbol` computes `batchEndTime = currentTime`: it requests the empty window
from `currentTime` to `currentTime` and leaves `currentTime` where it was. So after
any number `n` of passes `currentTime` is still the start time and the same empty
window has been requested `n` times, and the loop never ends: no amount of fuel
suffices. -/
theorem zero_batch_size_never_terminates (b : Backfill) (env : BackfillEnv) (symbol : String)
    (hzero : b.config.BatchSize = 0) (hrange : b.config.StartTime < b.config.EndTime)
    (hctx : ∀ h, env.ctxDone h = false) :
    (∀ (cenv : ConfigEnv) (conf backfillConf : List (String × ConfValue)),
      conf.lookup "backfill" = some (.map backfillConf) →
      lookupNum backfillConf "batch_size" = some 0 →
      (parseFields cenv conf).Backfill.BatchSize = 0 ∧
      ∀ config, ParseConfig cenv conf = .ok config → config.Backfill.BatchSize = 0) ∧
    (∀ (now : Int) (c : Config) (batchSize parallelism : Int),
      failure (validateConfig now
        { c with Backfill := { c.Backfill with BatchSize := batchSize,
                                               Parallelism := parallelism } })
        = failure (validateConfig now c)) ∧
    (∀ (currentTime : Int) (st : BackfillState), currentTime < b.config.EndTime →
      (b.iteration env symbol currentTime st).1 = currentTime ∧
      (b.iteration env symbol currentTime st).2.requests = st.requests ++
        [{ symbol := symbol, interval := b.config.Interval, startTime := currentTime,
           endTime := currentTime, limit := 0 }]) ∧
    (∀ (n : Nat) (st : BackfillState),
      (b.iterations env symbol n b.config.StartTime st).1 = b.config.StartTime ∧
      (b.iterations env symbol n b.config.StartTime st).2.requests = st.requests ++
        List.replicate n
          { symbol := symbol, interval := b.config.Interval, startTime := b.config.StartTime,
            endTime := b.config.StartTime, limit := 0 }) ∧
    (∀ (fuel : Nat) (st : BackfillState), b.backfillSymbol env symbol fuel st = none) := by
  have hstep : b.step = 0 := by
    unfold Backfill.step
    rw [hzero, zero_mul]
    decide
  refine ⟨?_, ?_, ?_, ?_, ?_⟩
  · intro cenv conf backfillConf hsec hbs
    have hp : (parseFields cenv conf).Backfill.BatchSize = 0 := by
      simp only [parseFields, hsec, toStringMap, parseBackfill, hbs]
      decide!
    refine ⟨hp, ?_⟩
    intro config hok
    rw [(validateConfig_ok cenv.now _ config hok).2.1, hp]
  · intro now c batchSize parallelism
    unfold validateConfig failure
    by_cases htf : c.Timeframe ∈ validTimeframes <;>
      by_cases hlen : c.Symbols.length = 0 <;>
      by_cases hstream : c.Realtime.Enabled = true ∧ c.Realtime.StreamType ∉ validStreamTypes <;>
      by_cases hen : c.Backfill.Enabled = true <;> by_cases hst : c.Backfill.StartTime = 0 <;>
      by_cases hz : c.Backfill.EndTime = 0 <;>
      by_cases hlt1 : now < c.Backfill.StartTime <;>
      by_cases hlt2 : c.Backfill.EndTime < c.Backfill.StartTime <;>
      by_cases hint : c.Backfill.Interval ∈ validTimeframes <;>
      simp [htf, hlen, hen, hst, hz, hlt1, hlt2, hint, hstream]
  · intro currentTime st hlt
    have h := iteration_zero_step b env symbol hstep currentTime (le_of_lt hlt) st
    rw [hzero] at h
    exact h
  · intro n st
    have h := iterations_zero_step b env symbol hctx hstep b.config.StartTime hrange n st
    rw [hzero] at h
    exact h
  · intro fuel st
    exact loop_zero_step b env symbol hctx hstep b.config.StartTime hrange fuel st

/-- C27 on a configuration map with batch_size 0, which `ParseConfig` accepts with
batch size 0, and on a one-day backfill with batch size 0 in which every fetch
fails: after three passes through the body of the loop `currentTime` is still the
start time and the three requests are for the empty window at the start time, and
with fuel 1000 the run has not ended. -/
theorem zero_batch_size_never_terminates_witness :
    ((ParseConfig sampleConfigEnv
      (sampleConf "2023-01-01T00:00:00Z" "2023-01-02T00:00:00Z" 0)).toOption.map
        (fun config => config.Backfill.BatchSize)) = some 0 ∧
    (zeroBatchBackfill.iterations envFetchFails "BTCUSDT" 3 jan1 BackfillState.empty).1 = jan1 ∧
    (zeroBatchBackfill.iterations envFetchFails "BTCUSDT" 3 jan1
      BackfillState.empty).2.requests.map KlinesRequest.window
      = [(jan1, jan1), (jan1, jan1), (jan1, jan1)] ∧
    zeroBatchBackfill.backfillSymbol envFetchFails "BTCUSDT" 1000 BackfillState.empty = none := by
  have h := zero_batch_size_never_terminates zeroBatchBackfill envFetchFails "BTCUSDT" rfl
    (by decide) (fun _ => rfl)
  refine ⟨by decide!, (h.2.2.2.1 3 BackfillState.empty).1, ?_, h.2.2.2.2 1000 BackfillState.empty⟩
  have hreq : (zeroBatchBackfill.iterations envFetchFails "BTCUSDT" 3 jan1
      BackfillState.empty).2.requests
      = BackfillState.empty.requests ++ List.replicate 3
          { symbol := "BTCUSDT", interval := "1m", startTime := jan1, endTime := jan1,
            limit := 0 } :=
    (h.2.2.2.1 3 BackfillState.empty).2
  rw [hreq]
  decide

/-! ## Worker pool (claim C21) -/

/-- The invariant of the worker pool: tokens in the channel plus running tasks make
up the capacity. -/
theorem step_permits_add_running (s s' : PoolState) (event : PoolEvent)
    (h : s.step event = some s')
    (hinv : s.permits + s.running.length = s.capacity) :
    s'.permits + s'.running.length = s'.capacity ∧ s'.capacity = s.capacity := by
  cases event with
  | acquire =>
    cases hp : s.pending with
    | nil => simp [PoolState.step, hp] at h
    | cons symbol rest =>
      cases hq : s.permits with
      | zero => simp [PoolState.step, hp, hq] at h
      | succ permits =>
        simp only [PoolState.step, hp, hq, Option.some.injEq] at h
        subst h
        simp only [List.length_append, List.length_singleton]
        refine ⟨?_, trivial⟩
        omega
  | finish i =>
    simp only [PoolState.step] at h
    split_ifs at h with hc
    simp only [Option.some.injEq] at h
    subst h
    obtain ⟨hc1, hc2⟩ := hc
    have hlen : (s.running.eraseIdx i).length = s.running.length - 1 := by
      rw [List.length_eraseIdx, if_pos hc1]
    simp only [hlen]
    refine ⟨?_, trivial⟩
    omega
  | cancel =>
    simp only [PoolState.step] at h
    split_ifs at h
    simp only [Option.some.injEq] at h
    subst h
    exact ⟨hinv, rfl⟩

theorem trace_permits_add_running (events : List PoolEvent) :
    ∀ s : PoolState, s.permits + s.running.length = s.capacity →
      ∀ t ∈ s.trace events, t.permits + t.running.length = s.capacity ∧ t.capacity = s.capacity
    := by
  induction events with
  | nil =>
    intro s hinv t ht
    simp only [PoolState.trace, List.mem_singleton] at ht
    subst ht
    exact ⟨hinv, rfl⟩
  | cons event events ih =>
    intro s hinv t ht
    simp only [PoolState.trace] at ht
    cases hstep : s.step event with
    | none =>
      rw [hstep] at ht
      rcases List.mem_cons.mp ht with rfl | ht
      · exact ⟨hinv, rfl⟩
      · exact ih s hinv t ht
    | some s' =>
      rw [hstep] at ht
      rcases List.mem_cons.mp ht with rfl | ht
      · exact ⟨hinv, rfl⟩
      · obtain ⟨h1, h2⟩ := step_permits_add_running s s' event hstep hinv
        have := ih s' h1 t ht
        rw [h2] at this
        exact this

/-- C21: for every `parallelism`, every working set and every schedule of launches,
task exits and cancellation, in every state that `Backfill.Run` goes through the
tokens in the worker pool plus the tasks launched and not yet finished equal
`parallelism`, so at most `parallelism` tasks run at any moment; and a running task
can always return its token on exit, the send never blocks. -/
theorem Run_bounded_concurrency (parallelism : Int) (symbols : List String)
    (events : List PoolEvent) (s0 : PoolState)
    (hinit : PoolState.init parallelism symbols = some s0) :
    ∀ t ∈ s0.trace events,
      (t.permits : Int) + t.running.length = parallelism ∧
      (t.running.length : Int) ≤ parallelism ∧
      ∀ i, i < t.running.length → ∃ t', t.step (.finish i) = some t' ∧
        t'.running.length + 1 = t.running.length := by
  unfold PoolState.init at hinit
  split_ifs at hinit with hneg
  simp only [Option.some.injEq] at hinit
  subst hinit
  intro t ht
  have hcap : ((parallelism.toNat : Nat) : Int) = parallelism := Int.toNat_of_nonneg (by omega)
  obtain ⟨h1, h2⟩ := trace_permits_add_running events
    { capacity := parallelism.toNat, permits := parallelism.toNat, running := [],
      pending := symbols } (by simp) t ht
  simp only at h1 h2
  refine ⟨by omega, by omega, ?_⟩
  intro i hi
  have hroom : t.permits < t.capacity := by omega
  refine ⟨{ t with permits := t.permits + 1, running := t.running.eraseIdx i }, ?_, ?_⟩
  · simp [PoolState.step, hi, hroom]
  · have hlen : (t.running.eraseIdx i).length = t.running.length - 1 := by
      rw [List.length_eraseIdx, if_pos hi]
    simp only [hlen]
    omega

/-- C21 with parallelism 2 and five symbols: along the sample schedule never more
than two tasks run, and after it three symbols have been launched, two of them are
still running, no token is in the pool, and the cancellation has dropped the other
two symbols. -/
theorem Run_bounded_concurrency_witness :
    PoolState.init 2 fiveSymbols = some (PoolState.mk 2 2 [] fiveSymbols) ∧
    (∀ t ∈ (PoolState.mk 2 2 [] fiveSymbols).trace sampleSchedule,
      (t.running.length : Int) ≤ 2) ∧
    ((PoolState.mk 2 2 [] fiveSymbols).trace sampleSchedule).getLast?
      = some (PoolState.mk 2 0 ["B", "C"] []) := by
  refine ⟨rfl, fun t ht => (Run_bounded_concurrency 2 fiveSymbols sampleSchedule
    (PoolState.mk 2 2 [] fiveSymbols) rfl t ht).2.1, by decide⟩

/-! ## Backward adjustment scan (claim C23) -/

theorem rateAfter_append_noop (D : List RateChange) (e : Int) :
    rateAfter (D ++ [noopRateChange]) e = rateAfter D e := by
  unfold rateAfter
  rw [List.filter_append, List.map_append, List.prod_append]
  by_cases h : e < noopRateChange.Epoch
  · have hf : [noopRateChange].filter (fun rateChange => decide (e < rateChange.Epoch))
        = [noopRateChange] := by
      rw [List.filter_eq_self]
      intro rc hrc
      rw [List.mem_singleton] at hrc
      simp only [hrc, decide_eq_true_eq]
      exact h
    rw [hf]
    simp [noopRateChange]
  · have hf : [noopRateChange].filter (fun rateChange => decide (e < rateChange.Epoch))
        = [] := by
      rw [List.filter_eq_nil_iff]
      intro rc hrc
      rw [List.mem_singleton] at hrc
      simp only [hrc, decide_eq_true_eq]
      exact h
    rw [hf]
    simp

theorem rateAfter_eq_drop (D : List RateChange) (e : Int) (k : Nat)
    (hk : ∀ rc ∈ D.take k, rc.Epoch ≤ e) (hd : ∀ rc ∈ D.drop k, e < rc.Epoch) :
    rateAfter D e = ((D.drop k).map (fun rc => rc.Rate)).prod := by
  unfold rateAfter
  nth_rewrite 1 [← List.take_append_drop k D]
  rw [List.filter_append]
  have h1 : (D.take k).filter (fun rc => decide (e < rc.Epoch)) = [] := by
    rw [List.filter_eq_nil_iff]
    intro rc hrc
    have := hk rc hrc
    simp only [decide_eq_true_eq]
    omega
  have h2 : (D.drop k).filter (fun rc => decide (e < rc.Epoch)) = D.drop k := by
    rw [List.filter_eq_self]
    intro rc hrc
    simp only [decide_eq_true_eq]
    exact hd rc hrc
  rw [h1, h2, List.nil_append]

theorem take_succ_le_of_sorted (D : List RateChange)
    (hD : D.Pairwise (fun a b => a.Epoch ≤ b.Epoch)) (ri : Nat) (hlt : ri < D.length) :
    ∀ rc ∈ D.take (ri + 1), rc.Epoch ≤ D[ri].Epoch := by
  intro rc hrc
  rw [List.take_succ, List.getElem?_eq_getElem hlt] at hrc
  simp only [Option.toList, List.mem_append, List.mem_singleton] at hrc
  rcases hrc with hrc | hrc
  · have hsplit : (D.take ri ++ D.drop ri).Pairwise (fun a b => a.Epoch ≤ b.Epoch) := by
      rw [List.take_append_drop]
      exact hD
    rw [List.pairwise_append] at hsplit
    refine hsplit.2.2 rc hrc D[ri] ?_
    rw [List.drop_eq_getElem_cons hlt]
    exact List.mem_cons_self _ _
  · rw [hrc]

theorem accumulateRate_spec (D X : List RateChange) (e : Int)
    (hD : D.Pairwise (fun a b => a.Epoch ≤ b.Epoch)) :
    ∀ (ri : Nat) (rate : ℚ), ri ≤ D.length →
      (∀ rc ∈ D.drop ri, e < rc.Epoch) →
      rate = ((D.drop ri).map (fun rc => rc.Rate)).prod →
      ∃ ri', accumulateRate (D ++ X) e ri rate = some (ri', rateAfter D e) ∧ ri' ≤ D.length ∧
        (∀ rc ∈ D.drop ri', e < rc.Epoch) ∧
        rateAfter D e = ((D.drop ri').map (fun rc => rc.Rate)).prod := by
  intro ri
  induction ri with
  | zero =>
    intro rate _ hd hrate
    have hr := rateAfter_eq_drop D e 0 (by simp) hd
    exact ⟨0, by rw [accumulateRate, hr, hrate], Nat.zero_le _, hd, hr⟩
  | succ ri ih =>
    intro rate hle hd hrate
    have hlt : ri < D.length := hle
    have hget : (D ++ X)[ri]? = some D[ri] := by
      rw [List.getElem?_append_left hlt, List.getElem?_eq_getElem hlt]
    have hdrop : D.drop ri = D[ri] :: D.drop (ri + 1) := List.drop_eq_getElem_cons hlt
    by_cases hcmp : e < D[ri].Epoch
    · have hd' : ∀ rc ∈ D.drop ri, e < rc.Epoch := by
        intro rc hrc
        rw [hdrop, List.mem_cons] at hrc
        rcases hrc with hrc | hrc
        · rw [hrc]; exact hcmp
        · exact hd rc hrc
      have hrate' : rate * D[ri].Rate = ((D.drop ri).map (fun rc => rc.Rate)).prod := by
        rw [hdrop, List.map_cons, List.prod_cons, hrate, mul_comm]
      obtain ⟨ri', h1, h2, h3, h4⟩ := ih (rate * D[ri].Rate) (Nat.le_of_lt hlt) hd' hrate'
      refine ⟨ri', ?_, h2, h3, h4⟩
      rw [accumulateRate, hget]
      simp only [hcmp, if_true]
      exact h1
    · have hk : ∀ rc ∈ D.take (ri + 1), rc.Epoch ≤ e := by
        intro rc hrc
        have := take_succ_le_of_sorted D hD ri hlt rc hrc
        omega
      have hr := rateAfter_eq_drop D e (ri + 1) hk hd
      refine ⟨ri + 1, ?_, hle, hd, hr⟩
      rw [accumulateRate, hget]
      simp only [hcmp, if_false]
      rw [hr, hrate]

theorem adjustCell_spec (n : Nat) (rate : ℚ) (c : List ℚ) (hn : n < c.length) :
    adjustCell n rate c = some (c.take n ++ adjustValue (c.get ⟨n, hn⟩) rate :: c.drop (n + 1)) := by
  unfold adjustCell
  rw [List.getElem?_eq_getElem hn]
  simp only [List.set_eq_take_append_cons_drop, hn, if_true]
  rfl

theorem adjustRow_spec (n : Nat) (rate : ℚ) :
    ∀ output : Columns, (∀ c ∈ output, n < c.2.length) →
      adjustRow n rate output = some (output.map (fun c =>
        (c.1, c.2.take n ++ adjustValue (c.2.getD n 0) rate :: c.2.drop (n + 1)))) := by
  intro output
  induction output with
  | nil => intro _; rfl
  | cons c rest ih =>
    intro h
    obtain ⟨name, col⟩ := c
    have hn : n < col.length := h (name, col) (List.mem_cons_self _ _)
    have hrest := ih (fun c hc => h c (List.mem_cons_of_mem _ hc))
    simp only [adjustRow, adjustCell_spec n rate col hn, hrest, List.map_cons,
      List.getD_eq_getElem _ _ hn]
    rfl

theorem adjustColumn_step (D : List RateChange) (epochs : List Int) (n : Nat) (c : List ℚ)
    (hn : n < epochs.length) (hc : c.length = epochs.length) :
    adjustColumn D (epochs.take n)
        ((c.take n ++ adjustValue (c.getD n 0) (rateAfter D epochs[n]) :: c.drop (n + 1)).take n)
      ++ (c.take n ++ adjustValue (c.getD n 0) (rateAfter D epochs[n]) :: c.drop (n + 1)).drop n
    = adjustColumn D (epochs.take (n + 1)) (c.take (n + 1)) ++ c.drop (n + 1) := by
  have hn' : n < c.length := by omega
  have hlen : (c.take n).length = n := by rw [List.length_take]; omega
  rw [List.take_left' hlen, List.drop_left' hlen]
  rw [List.take_succ (l := epochs), List.take_succ (l := c), List.getElem?_eq_getElem hn,
    List.getElem?_eq_getElem hn', List.getD_eq_getElem _ _ hn']
  simp only [Option.toList]
  unfold adjustColumn
  rw [List.zipWith_append]
  · simp
  · rw [List.length_take, List.length_take]; omega

theorem scanRows_spec (D X : List RateChange) (epochs : List Int)
    (hD : D.Pairwise (fun a b => a.Epoch ≤ b.Epoch)) (hE : epochs.Pairwise (fun a b => a ≤ b)) :
    ∀ (n ri : Nat) (rate : ℚ) (output : Columns), n ≤ epochs.length → ri ≤ D.length →
      (∀ rc ∈ D.drop ri, ∀ e ∈ epochs.take n, e < rc.Epoch) →
      rate = ((D.drop ri).map (fun rc => rc.Rate)).prod →
      (∀ c ∈ output, c.2.length = epochs.length) →
      scanRows (D ++ X) epochs n ri rate output = some (output.map (fun c =>
        (c.1, adjustColumn D (epochs.take n) (c.2.take n) ++ c.2.drop n))) := by
  intro n
  induction n with
  | zero =>
    intro ri rate output _ _ _ _ _
    rw [scanRows]
    congr 1
    symm
    conv_rhs => rw [← List.map_id output]
    apply List.map_congr_left
    intro c _
    simp [adjustColumn]
  | succ n ih =>
    intro ri rate output hn hri hinv hrate hlen
    have hlt : n < epochs.length := hn
    have hmem : epochs[n] ∈ epochs.take (n + 1) := by
      rw [List.mem_iff_getElem?]
      exact ⟨n, by
        rw [List.getElem?_take_of_lt (Nat.lt_succ_self n), List.getElem?_eq_getElem hlt]⟩
    obtain ⟨ri', h1, h2, h3, h4⟩ := accumulateRate_spec D X epochs[n] hD ri rate hri
      (fun rc hrc => hinv rc hrc _ hmem) hrate
    have hrow := adjustRow_spec n (rateAfter D epochs[n]) output
      (fun c hc => by rw [hlen c hc]; exact hlt)
    have hinv' : ∀ rc ∈ D.drop ri', ∀ e ∈ epochs.take n, e < rc.Epoch := by
      intro rc hrc e he
      have hsplit : (epochs.take n ++ epochs.drop n).Pairwise (fun a b => a ≤ b) := by
        rw [List.take_append_drop]
        exact hE
      rw [List.pairwise_append] at hsplit
      have hle : e ≤ epochs[n] := by
        refine hsplit.2.2 e he epochs[n] ?_
        rw [List.drop_eq_getElem_cons hlt]
        exact List.mem_cons_self _ _
      have := h3 rc hrc
      omega
    have hlen' : ∀ c ∈ output.map (fun c => (c.1, c.2.take n ++
        adjustValue (c.2.getD n 0) (rateAfter D epochs[n]) :: c.2.drop (n + 1))),
        c.2.length = epochs.length := by
      intro c hc
      rw [List.mem_map] at hc
      obtain ⟨c0, hc0, rfl⟩ := hc
      have := hlen c0 hc0
      simp only [List.length_append, List.length_take, List.length_cons, List.length_drop]
      omega
    rw [scanRows, List.getElem?_eq_getElem hlt]
    simp only [h1, hrow]
    rw [ih ri' (rateAfter D epochs[n]) _ (Nat.le_of_lt hlt) h2 hinv' h4 hlen', List.map_map]
    congr 1
    apply List.map_congr_left
    intro c hc
    simp only [Function.comp]
    rw [adjustColumn_step D epochs n c.2 hlt (hlen c hc)]

/-- C23: for a non-empty list of rate changes sorted by ascending epoch, data epochs
sorted ascending and columns as long as the epoch column, `Accum` ends without an index
out of range and replaces the value at every row of every column by
`round(value / R x 10^4) / 10^4`, where `R` is the product of the rates of the rate
changes whose epoch is strictly greater than the epoch of the row; and the appended
record with epoch `math.MaxInt64` and rate 1 changes no such product. -/
theorem Accum_backward_scan (dbRateChanges : List RateChange) (epochs : List Int)
    (output : Columns) (hne : dbRateChanges ≠ [])
    (hsorted : dbRateChanges.Pairwise (fun a b => a.Epoch ≤ b.Epoch))
    (hepochs : epochs.Pairwise (fun a b => a ≤ b))
    (hlen : ∀ c ∈ output, c.2.length = epochs.length) :
    Accum dbRateChanges epochs output
      = some (output.map (fun c => (c.1, adjustColumn dbRateChanges epochs c.2))) ∧
    (∀ c ∈ output, ∀ i : Nat, ∀ hi : i < c.2.length, ∀ he : i < epochs.length,
      (adjustColumn dbRateChanges epochs c.2)[i]?
        = some (mathRound (c.2[i] / rateAfter dbRateChanges epochs[i] * 10 ^ 4) / 10 ^ 4)) ∧
    ∀ epoch, rateAfter (dbRateChanges ++ [noopRateChange]) epoch
      = rateAfter dbRateChanges epoch := by
  refine ⟨?_, ?_, rateAfter_append_noop dbRateChanges⟩
  · have hlen0 : dbRateChanges.length ≠ 0 := by
      intro h
      exact hne (List.length_eq_zero.mp h)
    have hlast : (dbRateChanges ++ [noopRateChange])[(dbRateChanges ++ [noopRateChange]).length - 1]?
        = some noopRateChange := by
      simp
    unfold Accum
    rw [if_neg hlen0]
    simp only [hlast]
    have hri : (dbRateChanges ++ [noopRateChange]).length - 1 = dbRateChanges.length := by simp
    rw [hri, scanRows_spec dbRateChanges [noopRateChange] epochs hsorted hepochs epochs.length
      dbRateChanges.length noopRateChange.Rate output (Nat.le_refl _) (Nat.le_refl _)
      (by simp) (by simp [noopRateChange]) hlen]
    congr 1
    apply List.map_congr_left
    intro c hc
    have := hlen c hc
    rw [List.take_length, ← this, List.take_length, List.drop_length, List.append_nil]
  · intro c _ i hi he
    unfold adjustColumn
    rw [List.getElem?_zipWith]
    simp [List.getElem?_eq_getElem hi, List.getElem?_eq_getElem he, adjustValue]

/-- C23 on two rate changes (rate 2 at epoch 10, rate 5 at epoch 20) and rows at
epochs 5, 10, 15 and 25: the rows are divided by 10, 5, 5 and 1; the row at epoch 10
is not divided by the rate of the change at epoch 10; and a half rounds away from
zero. -/
theorem Accum_backward_scan_witness :
    sampleRateChanges ≠ [] ∧
    sampleRateChanges.Pairwise (fun a b => a.Epoch ≤ b.Epoch) ∧
    sampleEpochs.Pairwise (fun a b => a ≤ b) ∧
    (∀ c ∈ sampleColumns, c.2.length = sampleEpochs.length) ∧
    Accum sampleRateChanges sampleEpochs sampleColumns
      = some [("Close", [10, 20, 20, 100]),
              ("Open", [1 / 10, 1 / 5, 667 / 10000, -1 / 10000])] := by
  have h1 : sampleRateChanges ≠ [] := by decide
  have h2 : sampleRateChanges.Pairwise (fun a b => a.Epoch ≤ b.Epoch) := by decide
  have h3 : sampleEpochs.Pairwise (fun a b => a ≤ b) := by decide
  have h4 : ∀ c ∈ sampleColumns, c.2.length = sampleEpochs.length := by decide
  refine ⟨h1, h2, h3, h4, ?_⟩
  rw [(Accum_backward_scan sampleRateChanges sampleEpochs sampleColumns h1 h2 h3 h4).1]
  decide!

end MarketStore
